import Mathlib

/-!
# RapidFuzz (R package): edit-script reconstruction and fuzzy-match ranking

Shallow embedding of `src/rapidfuzz_distance.cpp` and of the normalizer and the best
match of `src/rapidfuzz_extract.cpp`.

Modelling conventions.

* `std::string` is a list of bytes (`Str`); a byte is a natural number.
* A data frame is the list of its rows; an integer column holds 32-bit `int`
  values, the missing value being `NA_INTEGER` (`INT_MIN`).
* `int` arithmetic wraps at 32 bits (`wrapInt`), `size_t` is 64 bits wide
  (`toSizeT` is the conversion of an `int` to `size_t`).
* A call ends in one of three ways (`Outcome`): it returns a value, it raises
  an R error through `Rcpp::stop`, or it accesses a string outside its bounds,
  after which the behaviour of the C++ program is undefined.
* Every loop of the source is a recursive function with a fuel argument; the
  entry points pass a fuel that is at least the number of iterations the loop
  can make (see the closed forms `copyUntil_eq`, `copyRest_eq`, `appendRange_eq`,
  `toLower_eq`, `toASCII_eq` and the stability lemma `appendRangeInt_fuel`).
-/

namespace RapidFuzz

/-- A `std::string`: its bytes. -/
abbrev Str := List Nat

/-- The bytes of an ASCII literal. -/
def ascii (s : String) : Str := s.toList.map Char.toNat

/-- An `Rcpp::CharacterVector` built from a string: one single-byte string per cell. -/
def cells (result : Str) : List Str := result.map fun c => [c]

/-- Result of a call. -/
inductive Outcome (α : Type) where
  | value (v : α) : Outcome α
  | error (msg : String) : Outcome α
  | undefined : Outcome α
  deriving DecidableEq, Repr

/-- Post-processing of a returned value. -/
def Outcome.map {α β : Type} (f : α → β) : Outcome α → Outcome β
  | .value v => .value (f v)
  | .error m => .error m
  | .undefined => .undefined

/-- The missing integer of R, `INT_MIN`. -/
def NA_INTEGER : Int := -2147483648

/-- Wrap of an integer to a 32-bit `int` in two-complement arithmetic. -/
def wrapInt (x : Int) : Int := (x + 2147483648) % 4294967296 - 2147483648

/-- Conversion of an `int` to the 64-bit unsigned `size_t`. -/
def toSizeT (x : Int) : Nat := (x % 18446744073709551616).toNat

/-- Wrap of a natural number to `size_t`. -/
def wrapSizeT (n : Nat) : Nat := n % 18446744073709551616

/-- The values an `int` column of a data frame can hold. -/
def IsInt32 (x : Int) : Prop := -2147483648 ≤ x ∧ x < 2147483648

instance (x : Int) : Decidable (IsInt32 x) := by unfold IsInt32; infer_instance

/-- One row of an edit-operation data frame (`type`, `src_pos`, `dest_pos`). -/
structure EditOp where
  type : String
  src_pos : Int
  dest_pos : Int
  deriving DecidableEq, Repr

/-- One row of an opcode data frame. -/
structure Opcode where
  type : String
  src_begin : Int
  src_end : Int
  dest_begin : Int
  dest_end : Int
  deriving DecidableEq, Repr

/-! ## `editops_apply_str` -/

/-- The call `result.insert(result.begin() + p, c)`, for a position `p` that does not lie
past the end of `result` (the caller checks it). -/
def insertAt (result : Str) (p : Nat) (c : Nat) : Str :=
  result.take p ++ c :: result.drop p

/-- The row loop of `editops_apply_str`: state `result`, `offset`. A replace overwrites
`result[src_pos - 1]` when both indexes are in range; an insert whose `dest_pos - 1` is
inside `s2` inserts at `dest_pos - 1 + offset`, which is outside `result` when it
exceeds its length (`undefined`); any other kind, delete included, has no branch. -/
def editopsStrLoop (s2 : Str) : List EditOp → Str → Int → Outcome Str
  | [], result, _ => .value result
  | op :: rest, result, offset =>
    if op.type = "replace" then
      let src_idx := wrapInt (op.src_pos - 1)
      let dest_idx := wrapInt (op.dest_pos - 1)
      if h : 0 ≤ src_idx ∧ src_idx.toNat < result.length ∧ 0 ≤ dest_idx ∧ dest_idx.toNat < s2.length then
        editopsStrLoop s2 rest (result.set src_idx.toNat s2[dest_idx.toNat]) offset
      else editopsStrLoop s2 rest result offset
    else if op.type = "insert" then
      let dest_idx := wrapInt (op.dest_pos - 1)
      if h : 0 ≤ dest_idx ∧ dest_idx.toNat < s2.length then
        if dest_idx + offset < 0 ∨ (result.length : Int) < dest_idx + offset then .undefined
        else editopsStrLoop s2 rest (insertAt result (dest_idx + offset).toNat s2[dest_idx.toNat])
          (wrapInt (offset + 1))
      else editopsStrLoop s2 rest result offset
    else editopsStrLoop s2 rest result offset

/-- The entry point `editops_apply_str(editops, s1, s2)`: `result` starts as `s1`, `offset`
as 0. -/
def editops_apply_str (editops : List EditOp) (s1 s2 : Str) : Outcome Str :=
  editopsStrLoop s2 editops s1 0

/-! ## `opcodes_apply_str` -/

/-- The loop `while (pos < sbegin && pos < s1.size()) result += s1[pos++];`, returning
the final `pos` and `result`. It makes at most `s1.size()` iterations. -/
def copyUntil (s1 : Str) (sbegin : Nat) : Nat → Nat → Str → Nat × Str
  | 0, pos, result => (pos, result)
  | fuel + 1, pos, result =>
    if h : pos < sbegin ∧ pos < s1.length then
      copyUntil s1 sbegin fuel (pos + 1) (result ++ [s1[pos]])
    else (pos, result)

/-- The loop `while (pos < s1.size()) result += s1[pos++];`. It makes at most `s1.size()`
iterations. -/
def copyRest (s1 : Str) : Nat → Nat → Str → Str
  | 0, _, result => result
  | fuel + 1, pos, result =>
    if h : pos < s1.length then copyRest s1 fuel (pos + 1) (result ++ [s1[pos]])
    else result

/-- The loop `for (size_t j = dbegin; j <= dend && j < s2.size(); ++j) result += s2[j];`.
It makes at most `s2.size()` iterations, and `++j` cannot wrap, `j` being below
`s2.size()`. -/
def appendRange (s2 : Str) (dend : Nat) : Nat → Nat → Str → Str
  | 0, _, result => result
  | fuel + 1, j, result =>
    if h : j ≤ dend ∧ j < s2.length then
      appendRange s2 dend fuel (j + 1) (result ++ [s2[j]])
    else result

/-- The row loop of `opcodes_apply_str` followed by the copy of the rest of `s1`;
state `current_pos_s1`, `result`; `i` is the row index. -/
def opcodesStrLoop (s1 s2 : Str) : List Opcode → Nat → Nat → Str → Outcome Str
  | [], _, pos, result => .value (copyRest s1 s1.length pos result)
  | op :: rest, i, pos, result =>
    if op.type ≠ "replace" ∧ op.type ≠ "insert" ∧ op.type ≠ "delete" then
      .error ("Tipo de operação inválido na linha: " ++ toString (i + 1))
    else
      let sbegin := if op.src_begin ≠ NA_INTEGER then toSizeT (wrapInt (op.src_begin - 1)) else s1.length
      let send := if op.src_end ≠ NA_INTEGER then toSizeT (wrapInt (op.src_end - 1)) else s1.length
      let dbegin := if op.dest_begin ≠ NA_INTEGER then toSizeT (wrapInt (op.dest_begin - 1)) else s2.length
      let dend := if op.dest_end ≠ NA_INTEGER then toSizeT (wrapInt (op.dest_end - 1)) else s2.length
      let st := copyUntil s1 sbegin s1.length pos result
      if op.type = "replace" then
        opcodesStrLoop s1 s2 rest (i + 1) (wrapSizeT (send + 1)) (appendRange s2 dend s2.length dbegin st.2)
      else if op.type = "insert" then
        opcodesStrLoop s1 s2 rest (i + 1) st.1 (appendRange s2 dend s2.length dbegin st.2)
      else
        opcodesStrLoop s1 s2 rest (i + 1) (wrapSizeT (send + 1)) st.2

/-- The entry point `opcodes_apply_str(opcodes, s1, s2)`: a data frame of zero rows
returns `s1` at once. -/
def opcodes_apply_str (opcodes : List Opcode) (s1 s2 : Str) : Outcome Str :=
  if opcodes.length = 0 then .value s1
  else opcodesStrLoop s1 s2 opcodes 0 0 []

/-- The row in which each missing bound is replaced by the position one past the end of
its string, `s1` for the source bounds and `s2` for the target bounds. -/
def resolveMissing (s1 s2 : Str) (op : Opcode) : Opcode :=
  { type := op.type
    src_begin := if op.src_begin = NA_INTEGER then (s1.length : Int) + 1 else op.src_begin
    src_end := if op.src_end = NA_INTEGER then (s1.length : Int) + 1 else op.src_end
    dest_begin := if op.dest_begin = NA_INTEGER then (s2.length : Int) + 1 else op.dest_begin
    dest_end := if op.dest_end = NA_INTEGER then (s2.length : Int) + 1 else op.dest_end }

/-! ## `opcodes_apply_vec` -/

/-- The loop `for (int j = db; j <= de && j < (int)s2.size(); ++j) result += s2[j];`,
with `none` when `s2[j]` is read outside `s2`. `++j` cannot overflow, `j` being below
`(int)s2.size()`. A negative `j` that passes the test is read at once, so the loop needs
one unit of fuel more than the length of `s2` (`appendRangeInt_fuel`). -/
def appendRangeInt (s2 : Str) (de : Int) : Nat → Int → Str → Option Str
  | 0, _, result => some result
  | fuel + 1, j, result =>
    if j ≤ de ∧ j < wrapInt s2.length then
      if h : 0 ≤ j ∧ j.toNat < s2.length then
        appendRangeInt s2 de fuel (j + 1) (result ++ [s2[j.toNat]])
      else none
    else some result

/-- The row loop of `opcodes_apply_vec` followed by the copy of the rest of `s1`;
state `src_pos`, `result`. -/
def opcodesVecLoop (s1 s2 : Str) : List Opcode → Nat → Str → Outcome Str
  | [], pos, result => .value (copyRest s1 s1.length pos result)
  | op :: rest, pos, result =>
    let sb : Int := if op.src_begin ≠ NA_INTEGER then wrapInt (op.src_begin - 1) else -1
    let se : Int := if op.src_end ≠ NA_INTEGER then wrapInt (op.src_end - 1) else -1
    let db : Int := if op.dest_begin ≠ NA_INTEGER then wrapInt (op.dest_begin - 1) else -1
    let de : Int := if op.dest_end ≠ NA_INTEGER then wrapInt (op.dest_end - 1) else -1
    let st := copyUntil s1 (toSizeT sb) s1.length pos result
    if op.type = "replace" then
      match appendRangeInt s2 de (s2.length + 1) db st.2 with
      | some result1 => opcodesVecLoop s1 s2 rest (toSizeT (wrapInt (se + 1))) result1
      | none => .undefined
    else if op.type = "insert" then
      match appendRangeInt s2 de (s2.length + 1) db st.2 with
      | some result1 => opcodesVecLoop s1 s2 rest st.1 result1
      | none => .undefined
    else if op.type = "delete" then
      opcodesVecLoop s1 s2 rest (toSizeT (wrapInt (se + 1))) st.2
    else opcodesVecLoop s1 s2 rest st.1 st.2

/-- The entry point `opcodes_apply_vec(opcodes, s1, s2)`: the rebuilt string, one byte per
cell. -/
def opcodes_apply_vec (opcodes : List Opcode) (s1 s2 : Str) : Outcome (List Str) :=
  (opcodesVecLoop s1 s2 opcodes 0 []).map cells

/-! ## `editops_apply_vec` -/

/-- The row loop of `editops_apply_vec` followed by the copy of the rest of `s1`;
state `src_pos`, `result`. -/
def editopsVecLoop (s1 s2 : Str) : List EditOp → Nat → Str → Outcome Str
  | [], pos, result => .value (copyRest s1 s1.length pos result)
  | op :: rest, pos, result =>
    let sp : Int := if op.src_pos ≠ NA_INTEGER then wrapInt (op.src_pos - 1) else -1
    let dp : Int := if op.dest_pos ≠ NA_INTEGER then wrapInt (op.dest_pos - 1) else -1
    let st := copyUntil s1 (toSizeT sp) s1.length pos result
    if op.type = "replace" then
      if 0 ≤ dp ∧ dp < wrapInt s2.length then
        if h : dp.toNat < s2.length then
          editopsVecLoop s1 s2 rest (toSizeT (wrapInt (sp + 1))) (st.2 ++ [s2[dp.toNat]])
        else .undefined
      else editopsVecLoop s1 s2 rest (toSizeT (wrapInt (sp + 1))) st.2
    else if op.type = "insert" then
      if 0 ≤ dp ∧ dp < wrapInt s2.length then
        if h : dp.toNat < s2.length then
          editopsVecLoop s1 s2 rest st.1 (st.2 ++ [s2[dp.toNat]])
        else .undefined
      else editopsVecLoop s1 s2 rest st.1 st.2
    else if op.type = "delete" then
      editopsVecLoop s1 s2 rest (toSizeT (wrapInt (sp + 1))) st.2
    else editopsVecLoop s1 s2 rest st.1 st.2

/-- The entry point `editops_apply_vec(editops, s1, s2)`: the rebuilt string, one byte per
cell. -/
def editops_apply_vec (editops : List EditOp) (s1 s2 : Str) : Outcome (List Str) :=
  (editopsVecLoop s1 s2 editops 0 []).map cells

/-! ## Well-formed descriptions -/

/-- A row whose kind is none of `replace`, `insert`, `delete`. -/
def InvalidKind (kind : String) : Prop :=
  kind ≠ "replace" ∧ kind ≠ "insert" ∧ kind ≠ "delete"

instance (kind : String) : Decidable (InvalidKind kind) := by unfold InvalidKind; infer_instance

/-- The integer columns of an edit-operation data frame hold 32-bit integers. -/
def EditOpColumns (ops : List EditOp) : Prop :=
  ∀ op ∈ ops, IsInt32 op.src_pos ∧ IsInt32 op.dest_pos

/-- The integer columns of an opcode data frame hold 32-bit integers. -/
def OpcodeColumns (ops : List Opcode) : Prop :=
  ∀ op ∈ ops, IsInt32 op.src_begin ∧ IsInt32 op.src_end ∧ IsInt32 op.dest_begin ∧ IsInt32 op.dest_end

instance (ops : List EditOp) : Decidable (EditOpColumns ops) := by
  unfold EditOpColumns; infer_instance

instance (ops : List Opcode) : Decidable (OpcodeColumns ops) := by
  unfold OpcodeColumns; infer_instance

/-- Well-formed edit script. `EditScript i j a b ops`: `ops` lists, in order and with 1-based positions, the
replace, insert and delete steps of a left-to-right alignment of the rest `a` of the
source (its first byte is byte `i` of the source, counted from 0) with the rest `b` of
the target (its first byte is byte `j` of the target). Positions of the source that no
step names are matched to an equal byte of the target (`keep`). -/
inductive EditScript : Nat → Nat → Str → Str → List EditOp → Prop
  | done (i j : Nat) : EditScript i j [] [] []
  | keep {i j : Nat} {a b : Str} {ops : List EditOp} (c : Nat) :
      EditScript (i + 1) (j + 1) a b ops → EditScript i j (c :: a) (c :: b) ops
  | replace {i j : Nat} {a b : Str} {ops : List EditOp} (c d : Nat) :
      EditScript (i + 1) (j + 1) a b ops →
      EditScript i j (c :: a) (d :: b) (⟨"replace", (i : Int) + 1, (j : Int) + 1⟩ :: ops)
  | insert {i j : Nat} {a b : Str} {ops : List EditOp} (d : Nat) :
      EditScript i (j + 1) a b ops →
      EditScript i j a (d :: b) (⟨"insert", (i : Int) + 1, (j : Int) + 1⟩ :: ops)
  | delete {i j : Nat} {a b : Str} {ops : List EditOp} (c : Nat) (dj : Int) :
      EditScript (i + 1) j a b ops →
      EditScript i j (c :: a) b (⟨"delete", (i : Int) + 1, dj⟩ :: ops)

/-- Well-formed range diff. `RangeDiff i j a b ops`: `ops` is a range diff, in the 1-based inclusive format, of
the rest `a` of the source (starting at byte `i`, counted from 0) into the rest `b` of the
target (starting at byte `j`). A replace turns the non-empty source range `x` into the
non-empty target range `y`, an insert puts the non-empty target range `y` before source
byte `i`, a delete drops the non-empty source range `x`; the bytes between two opcodes
are equal in source and target (`equal`). The bounds an opcode does not use (the source
end of an insert, the target range of a delete) are left free. -/
inductive RangeDiff : Nat → Nat → Str → Str → List Opcode → Prop
  | done (i j : Nat) : RangeDiff i j [] [] []
  | equal {i j : Nat} {a b : Str} {ops : List Opcode} (c : Nat) :
      RangeDiff (i + 1) (j + 1) a b ops → RangeDiff i j (c :: a) (c :: b) ops
  | replace {i j : Nat} {a b : Str} {ops : List Opcode} (x y : Str) :
      x ≠ [] → y ≠ [] →
      RangeDiff (i + x.length) (j + y.length) a b ops →
      RangeDiff i j (x ++ a) (y ++ b)
        (⟨"replace", (i : Int) + 1, (i : Int) + x.length, (j : Int) + 1, (j : Int) + y.length⟩ :: ops)
  | insert {i j : Nat} {a b : Str} {ops : List Opcode} (y : Str) (se : Int) :
      y ≠ [] →
      RangeDiff i (j + y.length) a b ops →
      RangeDiff i j a (y ++ b)
        (⟨"insert", (i : Int) + 1, se, (j : Int) + 1, (j : Int) + y.length⟩ :: ops)
  | delete {i j : Nat} {a b : Str} {ops : List Opcode} (x : Str) (db de : Int) :
      x ≠ [] →
      RangeDiff (i + x.length) j a b ops →
      RangeDiff i j (x ++ a) b
        (⟨"delete", (i : Int) + 1, (i : Int) + x.length, db, de⟩ :: ops)

/-- The bounds on which the two opcode replays resolve a row in the same way: the
source end is present on a row that consumes source bytes, and both target bounds
are at least 1 on a row that appends target bytes. -/
def ResolvedBounds (op : Opcode) : Prop :=
  (op.type = "insert" ∨ op.src_end ≠ NA_INTEGER) ∧
  (op.type = "delete" ∨ (1 ≤ op.dest_begin ∧ 1 ≤ op.dest_end))

instance (op : Opcode) : Decidable (ResolvedBounds op) := by unfold ResolvedBounds; infer_instance

/-! ## `rapidfuzz_extract.cpp`: the string normalizer

The strings are byte strings; the literals of the source file are UTF-8 encoded
(`utf8`). `std::string::find_first_not_of`, `find_last_not_of` and `substr` are given by
their library specification, `std::tolower` is the one of the "C" locale, and an
`std::unordered_map` is the list of its entries searched by key. Scores are `double`
values that the code only compares; they are modelled as rationals. -/

/-- UTF-8 encoding of a code point. -/
def utf8EncodeNat (n : Nat) : Str :=
  if n < 128 then [n]
  else if n < 2048 then [192 + n / 64, 128 + n % 64]
  else if n < 65536 then [224 + n / 4096, 128 + n / 64 % 64, 128 + n % 64]
  else [240 + n / 262144, 128 + n / 4096 % 64, 128 + n / 64 % 64, 128 + n % 64]

/-- The bytes of a string literal of the UTF-8 encoded source file. -/
def utf8 (s : String) : Str := (s.toList.map fun ch => utf8EncodeNat ch.toNat).flatten

/-- The character set `" \t\n\r"` of `trimString`. -/
def whitespace : Str := [32, 9, 10, 13]

/-- Library function `input.find_first_not_of(set)`: the index of the first byte that is
not in `set`, `none` standing for `npos`; `i` is the index of the head of the list. -/
def find_first_not_of (set : Str) : Str → Nat → Option Nat
  | [], _ => none
  | c :: rest, i => if c ∈ set then find_first_not_of set rest (i + 1) else some i

/-- Library function `input.find_last_not_of(set)`: the index of the last byte that is not
in `set`, `none` standing for `npos`; `i` is the index of the head of the list. -/
def find_last_not_of (set : Str) : Str → Nat → Option Nat
  | [], _ => none
  | c :: rest, i =>
    match find_last_not_of set rest (i + 1) with
    | some k => some k
    | none => if c ∈ set then none else some i

/-- Library function `input.substr(pos, n)` for `pos` inside `input`: at most `n` bytes
from index `pos`, fewer when the string ends before. -/
def substr (input : Str) (pos n : Nat) : Str := (input.drop pos).take n

/-- Helper `trimString` of the source. The difference `end - start` does not wrap: the
first byte outside the set is not after the last one (`find_first_le_find_last`). -/
def trimString (input : Str) : Str :=
  match find_first_not_of whitespace input 0, find_last_not_of whitespace input 0 with
  | some start, some stop => substr input start (stop - start + 1)
  | _, _ => []

/-- Table `accents` of the source: accented character to ASCII equivalent. -/
def accents : List (Str × Str) := [
  (utf8 "à", utf8 "a"), (utf8 "á", utf8 "a"), (utf8 "â", utf8 "a"), (utf8 "ã", utf8 "a"), (utf8 "ä", utf8 "a"), (utf8 "å", utf8 "a"),
  (utf8 "è", utf8 "e"), (utf8 "é", utf8 "e"), (utf8 "ê", utf8 "e"), (utf8 "ë", utf8 "e"),
  (utf8 "ì", utf8 "i"), (utf8 "í", utf8 "i"), (utf8 "î", utf8 "i"), (utf8 "ï", utf8 "i"),
  (utf8 "ò", utf8 "o"), (utf8 "ó", utf8 "o"), (utf8 "ô", utf8 "o"), (utf8 "õ", utf8 "o"), (utf8 "ö", utf8 "o"),
  (utf8 "ù", utf8 "u"), (utf8 "ú", utf8 "u"), (utf8 "û", utf8 "u"), (utf8 "ü", utf8 "u"),
  (utf8 "ç", utf8 "c"), (utf8 "ñ", utf8 "n"), (utf8 "ÿ", utf8 "y"),
  (utf8 "À", utf8 "A"), (utf8 "Á", utf8 "A"), (utf8 "Â", utf8 "A"), (utf8 "Ã", utf8 "A"), (utf8 "Ä", utf8 "A"), (utf8 "Å", utf8 "A"),
  (utf8 "È", utf8 "E"), (utf8 "É", utf8 "E"), (utf8 "Ê", utf8 "E"), (utf8 "Ë", utf8 "E"),
  (utf8 "Ì", utf8 "I"), (utf8 "Í", utf8 "I"), (utf8 "Î", utf8 "I"), (utf8 "Ï", utf8 "I"),
  (utf8 "Ò", utf8 "O"), (utf8 "Ó", utf8 "O"), (utf8 "Ô", utf8 "O"), (utf8 "Õ", utf8 "O"), (utf8 "Ö", utf8 "O"),
  (utf8 "Ù", utf8 "U"), (utf8 "Ú", utf8 "U"), (utf8 "Û", utf8 "U"), (utf8 "Ü", utf8 "U"),
  (utf8 "Ç", utf8 "C"), (utf8 "Ñ", utf8 "N"), (utf8 "Ÿ", utf8 "Y")
]

/-- Table `utf8_case_map` of `toLower`: uppercase accented character to lowercase. -/
def utf8_case_map : List (Str × Str) := [
  (utf8 "À", utf8 "à"), (utf8 "Á", utf8 "á"), (utf8 "Â", utf8 "â"), (utf8 "Ã", utf8 "ã"), (utf8 "Ä", utf8 "ä"), (utf8 "Å", utf8 "å"),
  (utf8 "È", utf8 "è"), (utf8 "É", utf8 "é"), (utf8 "Ê", utf8 "ê"), (utf8 "Ë", utf8 "ë"),
  (utf8 "Ì", utf8 "ì"), (utf8 "Í", utf8 "í"), (utf8 "Î", utf8 "î"), (utf8 "Ï", utf8 "ï"),
  (utf8 "Ò", utf8 "ò"), (utf8 "Ó", utf8 "ó"), (utf8 "Ô", utf8 "ô"), (utf8 "Õ", utf8 "õ"), (utf8 "Ö", utf8 "ö"),
  (utf8 "Ù", utf8 "ù"), (utf8 "Ú", utf8 "ú"), (utf8 "Û", utf8 "û"), (utf8 "Ü", utf8 "ü"),
  (utf8 "Ç", utf8 "ç"), (utf8 "Ñ", utf8 "ñ"),
  (utf8 "Ÿ", utf8 "ÿ")
]

/-- The length `len` that `toASCII` and `toLower` give to the sequence started by a byte
with the high bit set. -/
def sequenceLength (c : Nat) : Nat :=
  if c &&& 0xE0 = 0xC0 then 2
  else if c &&& 0xF0 = 0xE0 then 3
  else if c &&& 0xF8 = 0xF0 then 4
  else 1

/-- Library function `std::tolower` in the "C" locale. -/
def tolower (c : Nat) : Nat := if 65 ≤ c ∧ c ≤ 90 then c + 32 else c

/-- The loop of `toASCII`; `i` is the loop index, which the body moves to the last byte of
the sequence before the `++i` of the loop. -/
def toASCIILoop (input : Str) : Nat → Nat → Str → Str
  | 0, _, result => result
  | fuel + 1, i, result =>
    if h : i < input.length then
      if input[i] &&& 0x80 ≠ 0 then
        let len := sequenceLength input[i]
        let ch := substr input i len
        match accents.lookup ch with
        | some ascii => toASCIILoop input fuel (i + (len - 1) + 1) (result ++ ascii)
        | none => toASCIILoop input fuel (i + (len - 1) + 1) (result ++ ch)
      else
        let ch := [input[i]]
        match accents.lookup ch with
        | some ascii => toASCIILoop input fuel (i + 1) (result ++ ascii)
        | none => toASCIILoop input fuel (i + 1) (result ++ ch)
    else result

/-- Helper `toASCII` of the source. The loop index grows in every iteration, so the loop
makes at most `input.length()` iterations. -/
def toASCII (input : Str) : Str := toASCIILoop input input.length 0 []

/-- The loop of `toLower`. -/
def toLowerLoop (input : Str) : Nat → Nat → Str → Str
  | 0, _, result => result
  | fuel + 1, i, result =>
    if h : i < input.length then
      let c := input[i]
      if c &&& 0x80 ≠ 0 then
        let len := sequenceLength c
        let utf8_char := substr input i len
        match utf8_case_map.lookup utf8_char with
        | some lower => toLowerLoop input fuel (i + len) (result ++ lower)
        | none => toLowerLoop input fuel (i + len) (result ++ utf8_char)
      else toLowerLoop input fuel (i + 1) (result ++ [tolower c])
    else result

/-- Helper `toLower` of the source. The loop index grows in every iteration, so the loop
makes at most `input.length()` iterations. -/
def toLower (input : Str) : Str := toLowerLoop input input.length 0 []

/-- Function `processString(input, processor, asciify)`. -/
def processString (input : Str) (processor : Bool) (asciify : Bool) : Str :=
  let processed := if processor then toLower (trimString input) else input
  if asciify then toASCII processed else processed

/-! ## `rapidfuzz_extract.cpp`: the best match -/

/-- The loop of `extract_best_match`; state `best_choice`, `best_score`. The scorer
`similarity candidate score_cutoff` is the cached scorer of the query. -/
def bestMatchLoop (similarity : Str → Rat → Rat) (processor : Bool) :
    List Str → Str → Rat → Str × Rat
  | [], best_choice, best_score => (best_choice, best_score)
  | choice :: rest, best_choice, best_score =>
    let processedChoice := processString choice processor false
    let score := similarity processedChoice best_score
    if score > best_score then bestMatchLoop similarity processor rest choice score
    else bestMatchLoop similarity processor rest best_choice best_score

/-- Function `extract_best_match(query, choices, score_cutoff, processor)`: the pair
`choice`, `score` of the returned list. The scorer of the library,
`CachedWRatio(query).similarity(candidate, score_cutoff)`, is the parameter `scorer`. -/
def extract_best_match (scorer : Str → Str → Rat → Rat) (query : Str) (choices : List Str)
    (score_cutoff : Rat) (processor : Bool) : Str × Rat :=
  let processedQuery := processString query processor false
  bestMatchLoop (scorer processedQuery) processor choices [] score_cutoff

/-- Contract of the scorer of the library: the score `raw query candidate` of a pair is
not negative, and `scorer query candidate cutoff` returns it as it is when it is at
least `cutoff` and returns 0 otherwise. -/
def ScorerContract (scorer : Str → Str → Rat → Rat) (raw : Str → Str → Rat) : Prop :=
  (∀ q x, 0 ≤ raw q x) ∧
    ∀ q x cutoff, scorer q x cutoff = if cutoff ≤ raw q x then raw q x else 0

/-! ## `rapidfuzz_extract.cpp`: all matches and the top matches -/

/-- The loop of `extract_similar_strings`; the rows collected so far are the vectors
`matched_choices` and `scores`, which grow together. The scorer
`similarity candidate score_cutoff` is the cached scorer of the query. -/
def similarLoop (similarity : Str → Rat → Rat) (score_cutoff : Rat) (processor : Bool) :
    List Str → List (Str × Rat) → List (Str × Rat)
  | [], rows => rows
  | choice :: rest, rows =>
    let processedChoice := processString choice processor false
    let score := similarity processedChoice score_cutoff
    if score ≥ score_cutoff then
      similarLoop similarity score_cutoff processor rest (rows ++ [(choice, score)])
    else similarLoop similarity score_cutoff processor rest rows

/-- Function `extract_similar_strings(query, choices, score_cutoff, processor)`: the rows
`choice`, `score` of the returned data frame. The scorer of the library,
`CachedWRatio(query).similarity(candidate, score_cutoff)`, is the parameter `scorer`. -/
def extract_similar_strings (scorer : Str → Str → Rat → Rat) (query : Str)
    (choices : List Str) (score_cutoff : Rat) (processor : Bool) : List (Str × Rat) :=
  let processedQuery := processString query processor false
  similarLoop (scorer processedQuery) score_cutoff processor choices []

/-- The choice of the scorer in the loop of `extract_matches`: the similarity of the
pair under the scorer of that name, `none` when the chain of comparisons ends in
`Rcpp::stop`. The three functions of the library, called without a cutoff, are the
parameters `WRatio`, `ratio` and `partial_ratio`. -/
def selectedSimilarity (WRatio ratio partial_ratio : Str → Str → Rat) (scorer : String)
    (processedQuery processedChoice : Str) : Option Rat :=
  if scorer = "WRatio" then some (WRatio processedQuery processedChoice)
  else if scorer = "Ratio" then some (ratio processedQuery processedChoice)
  else if scorer = "PartialRatio" then some (partial_ratio processedQuery processedChoice)
  else none

/-- The loop of `extract_matches` over the candidates; `results` is the vector of pairs
collected so far. -/
def matchesLoop (WRatio ratio partial_ratio : Str → Str → Rat) (processedQuery : Str)
    (score_cutoff : Rat) (processor : Bool) (scorer : String) :
    List Str → List (Str × Rat) → Outcome (List (Str × Rat))
  | [], results => .value results
  | choice :: rest, results =>
    let processedChoice := processString choice processor false
    match selectedSimilarity WRatio ratio partial_ratio scorer processedQuery
        processedChoice with
    | none => .error "Invalid scorer specified."
    | some similarity =>
      if similarity ≥ score_cutoff then
        matchesLoop WRatio ratio partial_ratio processedQuery score_cutoff processor scorer
          rest (results ++ [(choice, similarity)])
      else
        matchesLoop WRatio ratio partial_ratio processedQuery score_cutoff processor scorer
          rest results

/-- Function `extract_matches(query, choices, score_cutoff, limit, processor, scorer)`:
the rows `choice`, `score` of the returned data frame. The call of `std::sort` with the
comparison `a.second > b.second` is the parameter `sort`; `limit` is an `int`, and the
conversion of a positive `int` to `size_t` keeps its value. -/
def extract_matches (sort : List (Str × Rat) → List (Str × Rat))
    (WRatio ratio partial_ratio : Str → Str → Rat) (query : Str) (choices : List Str)
    (score_cutoff : Rat) (limit : Int) (processor : Bool) (scorer : String) :
    Outcome (List (Str × Rat)) :=
  let processedQuery := processString query processor false
  match matchesLoop WRatio ratio partial_ratio processedQuery score_cutoff processor
      scorer choices [] with
  | .value results =>
    let sorted := sort results
    if limit > 0 ∧ sorted.length > limit.toNat then .value (sorted.take limit.toNat)
    else .value sorted
  | .error msg => .error msg
  | .undefined => .undefined

/-- Contract of the library function `std::sort` called with the comparison
`a.second > b.second`: the result is a rearrangement of the argument in which no row
stands before a row of strictly greater score. The order of rows of equal score is not
part of the contract. -/
def StdSort (sort : List (Str × Rat) → List (Str × Rat)) : Prop :=
  ∀ rows, (sort rows).Perm rows ∧ (sort rows).Pairwise fun a b => ¬ b.2 > a.2

/-- A sort by insertion that takes the rows from the last to the first and puts each
before the rows of equal score: rows of equal score keep their order. -/
def sortKeepingTies (rows : List (Str × Rat)) : List (Str × Rat) :=
  List.insertionSort (fun a b => a.2 ≥ b.2) rows

/-- The successive values of `best_score` in the loop of `extract_best_match`: the value
passed to the scorer as cutoff for each candidate, then the value the loop ends with. -/
def bestScoreTrace (similarity : Str → Rat → Rat) (processor : Bool) :
    List Str → Rat → List Rat
  | [], best_score => [best_score]
  | choice :: rest, best_score =>
    let processedChoice := processString choice processor false
    let score := similarity processedChoice best_score
    if score > best_score then best_score :: bestScoreTrace similarity processor rest score
    else best_score :: bestScoreTrace similarity processor rest best_score

/-- The scorer names that the loop of `extract_matches` knows. -/
def Recognized (scorer : String) : Prop :=
  scorer = "WRatio" ∨ scorer = "Ratio" ∨ scorer = "PartialRatio"

instance (scorer : String) : Decidable (Recognized scorer) :=
  inferInstanceAs (Decidable (_ ∨ _ ∨ _))

/-- The function of the library that a recognized scorer name stands for. -/
def scoreByName (WRatio ratio partial_ratio : Str → Str → Rat) (scorer : String) :
    Str → Str → Rat :=
  if scorer = "WRatio" then WRatio else if scorer = "Ratio" then ratio else partial_ratio

/-- The candidates whose score is at least the cutoff, in input order, each with its
score; `score` is the score of a normalized candidate against the normalized query. -/
def matchingRows (score : Str → Rat) (score_cutoff : Rat) (processor : Bool)
    (choices : List Str) : List (Str × Rat) :=
  (choices.filter fun c => decide (score_cutoff ≤ score (processString c processor false))).map
    fun c => (c, score (processString c processor false))

/-! ## `std::sort` of the GNU C++ library

The functions of `bits/stl_algo.h` and `bits/stl_heap.h` behind `std::sort`, on a vector
held as a list; an iterator is the index of its element, `comp` compares two values,
and `none` stands for a read or a write outside the vector. -/

/-- The assignment `*(v.begin() + i) = x`. -/
def assign {α : Type} (v : List α) (i : Nat) (x : α) : Option (List α) :=
  if i < v.length then some (v.set i x) else none

/-- Library function `std::iter_swap(a, b)`. -/
def iter_swap {α : Type} (v : List α) (a b : Nat) : Option (List α) :=
  match v[a]?, v[b]? with
  | some x, some y => (assign v a y).bind fun v1 => assign v1 b x
  | _, _ => none

/-- Library function `__move_median_to_first(result, a, b, c, comp)`. -/
def move_median_to_first {α : Type} (comp : α → α → Bool) (v : List α)
    (result a b c : Nat) : Option (List α) :=
  match v[a]?, v[b]?, v[c]? with
  | some xa, some xb, some xc =>
    if comp xa xb then
      if comp xb xc then iter_swap v result b
      else if comp xa xc then iter_swap v result c
      else iter_swap v result a
    else if comp xa xc then iter_swap v result a
    else if comp xb xc then iter_swap v result c
    else iter_swap v result b
  | _, _, _ => none

/-- The loop `while (comp(first, pivot)) ++first;` of `__unguarded_partition`: the
iterator it stops at. The index grows in every iteration and a read past the end gives
`none`, so `v.length + 1` units of fuel never run out. -/
def partitionForward {α : Type} (comp : α → α → Bool) (v : List α) (pivot : Nat) :
    Nat → Nat → Option Nat
  | 0, _ => none
  | fuel + 1, first =>
    match v[first]?, v[pivot]? with
    | some x, some p =>
      if comp x p then partitionForward comp v pivot fuel (first + 1) else some first
    | _, _ => none

/-- The loop `while (comp(pivot, last)) --last;` of `__unguarded_partition`: the
iterator it stops at; a step below the first element is a read outside the vector. -/
def partitionBackward {α : Type} (comp : α → α → Bool) (v : List α) (pivot : Nat) :
    Nat → Nat → Option Nat
  | 0, _ => none
  | fuel + 1, last =>
    match v[pivot]?, v[last]? with
    | some p, some x =>
      if comp p x then
        match last with
        | 0 => none
        | last1 + 1 => partitionBackward comp v pivot fuel last1
      else some last
    | _, _ => none

/-- Library function `__unguarded_partition(first, last, pivot, comp)`: the vector and
the returned iterator. `first` grows in every iteration of the outer loop. -/
def unguarded_partition {α : Type} (comp : α → α → Bool) (pivot : Nat) :
    Nat → List α → Nat → Nat → Option (List α × Nat)
  | 0, _, _, _ => none
  | fuel + 1, v, first, last =>
    match partitionForward comp v pivot (v.length + 1) first with
    | none => none
    | some first1 =>
      match last with
      | 0 => none
      | last0 + 1 =>
        match partitionBackward comp v pivot (v.length + 1) last0 with
        | none => none
        | some last1 =>
          if ¬ first1 < last1 then some (v, first1)
          else
            match iter_swap v first1 last1 with
            | none => none
            | some v1 => unguarded_partition comp pivot fuel v1 (first1 + 1) last1

/-- Library function `__unguarded_partition_pivot(first, last, comp)`. -/
def unguarded_partition_pivot {α : Type} (comp : α → α → Bool) (v : List α)
    (first last : Nat) : Option (List α × Nat) :=
  let mid := first + (last - first) / 2
  match move_median_to_first comp v first (first + 1) mid (last - 1) with
  | none => none
  | some v1 => unguarded_partition comp first (v1.length + 1) v1 (first + 1) last

/-- Library function `__push_heap(first, holeIndex, topIndex, value, comp)`; the hole
moves to its parent in every iteration. -/
def push_heap {α : Type} (comp : α → α → Bool) (first topIndex : Nat) (value : α) :
    Nat → List α → Nat → Option (List α)
  | 0, _, _ => none
  | fuel + 1, v, holeIndex =>
    let parent := (holeIndex - 1) / 2
    if holeIndex > topIndex then
      match v[first + parent]? with
      | some p =>
        if comp p value then
          match assign v (first + holeIndex) p with
          | none => none
          | some v1 => push_heap comp first topIndex value fuel v1 parent
        else assign v (first + holeIndex) value
      | none => none
    else assign v (first + holeIndex) value

/-- The loop `while (secondChild < (len - 1) / 2)` of `__adjust_heap`: the vector, the
hole and `secondChild` after it. -/
def adjustLoop {α : Type} (comp : α → α → Bool) (first len : Nat) :
    Nat → List α → Nat → Nat → Option (List α × Nat × Nat)
  | 0, _, _, _ => none
  | fuel + 1, v, holeIndex, secondChild =>
    if secondChild < (len - 1) / 2 then
      let secondChild1 := 2 * (secondChild + 1)
      match v[first + secondChild1]?, v[first + (secondChild1 - 1)]? with
      | some x, some y =>
        let secondChild2 := if comp x y then secondChild1 - 1 else secondChild1
        match v[first + secondChild2]? with
        | some z =>
          match assign v (first + holeIndex) z with
          | none => none
          | some v1 => adjustLoop comp first len fuel v1 secondChild2 secondChild2
        | none => none
      | _, _ => none
    else some (v, holeIndex, secondChild)

/-- Library function `__adjust_heap(first, holeIndex, len, value, comp)`. The type of
`len` is signed: for `len < 2` the value of `(len - 2) / 2` is 0 or -1 there, and 0
here. -/
def adjust_heap {α : Type} (comp : α → α → Bool) (v : List α) (first holeIndex len : Nat)
    (value : α) : Option (List α) :=
  let topIndex := holeIndex
  match adjustLoop comp first len (len + 1) v holeIndex holeIndex with
  | none => none
  | some (v1, holeIndex1, secondChild) =>
    if len % 2 = 0 ∧ 0 < len ∧ secondChild = (len - 2) / 2 then
      let secondChild1 := 2 * (secondChild + 1)
      match v1[first + (secondChild1 - 1)]? with
      | some x =>
        match assign v1 (first + holeIndex1) x with
        | none => none
        | some v2 => push_heap comp first topIndex value (len + 1) v2 (secondChild1 - 1)
      | none => none
    else push_heap comp first topIndex value (len + 1) v1 holeIndex1

/-- Library function `__pop_heap(first, last, result, comp)`. -/
def pop_heap {α : Type} (comp : α → α → Bool) (v : List α) (first last result : Nat) :
    Option (List α) :=
  match v[result]?, v[first]? with
  | some value, some x =>
    match assign v result x with
    | none => none
    | some v1 => adjust_heap comp v1 first 0 (last - first) value
  | _, _ => none

/-- The loop of `__make_heap`, `parent` going down to 0. -/
def makeHeapLoop {α : Type} (comp : α → α → Bool) (first len : Nat) :
    Nat → List α → Option (List α)
  | parent, v =>
    match v[first + parent]? with
    | some value =>
      match adjust_heap comp v first parent len value with
      | none => none
      | some v1 =>
        match parent with
        | 0 => some v1
        | parent1 + 1 => makeHeapLoop comp first len parent1 v1
    | none => none

/-- Library function `__make_heap(first, last, comp)`. -/
def make_heap {α : Type} (comp : α → α → Bool) (v : List α) (first last : Nat) :
    Option (List α) :=
  if last - first < 2 then some v
  else makeHeapLoop comp first (last - first) ((last - first - 2) / 2) v

/-- The loop `for (i = middle; i < last; ++i)` of `__heap_select`. -/
def heapSelectLoop {α : Type} (comp : α → α → Bool) (first middle last : Nat) :
    Nat → List α → Nat → Option (List α)
  | 0, v, _ => some v
  | fuel + 1, v, i =>
    if i < last then
      match v[i]?, v[first]? with
      | some x, some y =>
        if comp x y then
          match pop_heap comp v first middle i with
          | none => none
          | some v1 => heapSelectLoop comp first middle last fuel v1 (i + 1)
        else heapSelectLoop comp first middle last fuel v (i + 1)
      | _, _ => none
    else some v

/-- Library function `__heap_select(first, middle, last, comp)`. -/
def heap_select {α : Type} (comp : α → α → Bool) (v : List α) (first middle last : Nat) :
    Option (List α) :=
  match make_heap comp v first middle with
  | none => none
  | some v1 => heapSelectLoop comp first middle last (last - middle) v1 middle

/-- Library function `__sort_heap(first, last, comp)`; `last` goes down in every
iteration. -/
def sort_heap {α : Type} (comp : α → α → Bool) (first : Nat) :
    Nat → List α → Nat → Option (List α)
  | 0, v, _ => some v
  | fuel + 1, v, last =>
    if last - first > 1 then
      match pop_heap comp v first (last - 1) (last - 1) with
      | none => none
      | some v1 => sort_heap comp first fuel v1 (last - 1)
    else some v

/-- Library function `__partial_sort(first, middle, last, comp)`. -/
def partial_sort {α : Type} (comp : α → α → Bool) (v : List α) (first middle last : Nat) :
    Option (List α) :=
  match heap_select comp v first middle last with
  | none => none
  | some v1 => sort_heap comp first (middle - first) v1 middle

/-- Library function `__introsort_loop(first, last, depth_limit, comp)` with
`_S_threshold = 16`. An iteration of the loop takes one from `depth_limit`, so the rest
of the loop after `last = cut` is the call on `first`, `cut` with that limit. -/
def introsort_loop {α : Type} (comp : α → α → Bool) :
    Nat → List α → Nat → Nat → Option (List α)
  | 0, v, first, last =>
    if last - first > 16 then partial_sort comp v first last last else some v
  | depth_limit + 1, v, first, last =>
    if last - first > 16 then
      match unguarded_partition_pivot comp v first last with
      | none => none
      | some (v1, cut) =>
        match introsort_loop comp depth_limit v1 cut last with
        | none => none
        | some v2 => introsort_loop comp depth_limit v2 first cut
    else some v

/-- Library function `__unguarded_linear_insert(last, comp)`, `val` being the value taken
from `*last` at the start; `last` goes down in every iteration. -/
def unguarded_linear_insert {α : Type} (comp : α → α → Bool) (val : α) :
    Nat → List α → Nat → Option (List α)
  | 0, _, _ => none
  | fuel + 1, v, last =>
    match last with
    | 0 => none
    | next + 1 =>
      match v[next]? with
      | some x =>
        if comp val x then
          match assign v (next + 1) x with
          | none => none
          | some v1 => unguarded_linear_insert comp val fuel v1 next
        else assign v (next + 1) val
      | none => none

/-- The loop `for (i = first + 1; i != last; ++i)` of `__insertion_sort`; the branch
taken when `comp(i, first)` moves the range from `first` to `i` one place up and puts
the value of `*i` at `first`. -/
def insertionLoop {α : Type} (comp : α → α → Bool) (first last : Nat) :
    Nat → List α → Nat → Option (List α)
  | 0, v, _ => some v
  | fuel + 1, v, i =>
    if i ≠ last then
      match v[i]?, v[first]? with
      | some val, some x =>
        if comp val x then
          insertionLoop comp first last fuel
            (v.take first ++ val :: (v.drop first).take (i - first) ++ v.drop (i + 1)) (i + 1)
        else
          match unguarded_linear_insert comp val (v.length + 1) v i with
          | none => none
          | some v1 => insertionLoop comp first last fuel v1 (i + 1)
      | _, _ => none
    else some v

/-- Library function `__insertion_sort(first, last, comp)`. -/
def insertion_sort {α : Type} (comp : α → α → Bool) (v : List α) (first last : Nat) :
    Option (List α) :=
  if first = last then some v
  else insertionLoop comp first last (last - first) v (first + 1)

/-- Library function `__unguarded_insertion_sort(first, last, comp)`. -/
def unguarded_insertion_sort {α : Type} (comp : α → α → Bool) (last : Nat) :
    Nat → List α → Nat → Option (List α)
  | 0, v, _ => some v
  | fuel + 1, v, i =>
    if i ≠ last then
      match v[i]? with
      | some val =>
        match unguarded_linear_insert comp val (v.length + 1) v i with
        | none => none
        | some v1 => unguarded_insertion_sort comp last fuel v1 (i + 1)
      | none => none
    else some v

/-- Library function `__final_insertion_sort(first, last, comp)`. -/
def final_insertion_sort {α : Type} (comp : α → α → Bool) (v : List α) (first last : Nat) :
    Option (List α) :=
  if last - first > 16 then
    match insertion_sort comp v first (first + 16) with
    | none => none
    | some v1 => unguarded_insertion_sort comp last (last - (first + 16)) v1 (first + 16)
  else insertion_sort comp v first last

/-- Library function `__lg(n)`, the position of the highest bit of `n`. -/
def lg : Nat → Nat → Nat
  | 0, _ => 0
  | fuel + 1, n => if n < 2 then 0 else lg fuel (n / 2) + 1

/-- Library function `std::sort(v.begin(), v.end(), comp)`. -/
def std_sort {α : Type} (comp : α → α → Bool) (v : List α) : Option (List α) :=
  if v.length ≠ 0 then
    match introsort_loop comp (lg v.length v.length * 2) v 0 v.length with
    | none => none
    | some v1 => final_insertion_sort comp v1 0 v1.length
  else some v

/-- The call `std::sort(results.begin(), results.end(), comp)` of `extract_matches` under
the GNU C++ library, `comp` being `a.second > b.second`. This comparison is a strict weak
order, for which the library stays inside the vector; the theorems that use this
definition evaluate `std_sort` to a vector at their input. -/
def sortGnu (results : List (Str × Rat)) : List (Str × Rat) :=
  (std_sort (fun a b => decide (a.2 > b.2)) results).getD results

/-! ## Sequences and characters

The definitions of this section are not taken from the source: they state what
the loops of `toLower` and `toASCII` compute (`toLower_eq`, `toASCII_eq`) and what a
well-formed UTF-8 string is. -/

/-- The number of bytes that `toLower` and `toASCII` take as one sequence at a byte `c`. -/
def chunkLength (c : Nat) : Nat := if c &&& 0x80 ≠ 0 then sequenceLength c else 1

/-- The entry of a table for a key, the key itself when the table has none. -/
def replaceBy (table : List (Str × Str)) (ch : Str) : Str :=
  match table.lookup ch with
  | some image => image
  | none => ch

/-- What `toLower` appends for one sequence. -/
def lowerChunk : Str → Str
  | [] => []
  | c :: t => if c &&& 0x80 ≠ 0 then replaceBy utf8_case_map (c :: t) else [tolower c]

/-- What `toASCII` appends for one sequence. -/
def asciiChunk (ch : Str) : Str := replaceBy accents ch

/-- Sequence by sequence replacement: the string is cut into sequences from left to
right, the last one being cut short by the end of the string, and `f` is applied to
each. -/
def mapChunks (f : Str → Str) : Str → Str
  | [] => []
  | c :: rest =>
    f (c :: rest.take (chunkLength c - 1)) ++ mapChunks f (rest.drop (chunkLength c - 1))
termination_by s => s.length
decreasing_by
  simp only [List.length_drop, List.length_cons]
  omega

/-- A whitespace byte of `trimString`. -/
def IsSpace (b : Nat) : Prop := b ∈ whitespace

instance (b : Nat) : Decidable (IsSpace b) := by unfold IsSpace; infer_instance

/-- A string that `trimString` has nothing to remove from: it is empty, or neither its
first nor its last byte is whitespace. -/
def Trimmed (s : Str) : Prop :=
  (∀ b ∈ s.head?, ¬ IsSpace b) ∧ (∀ b ∈ s.getLast?, ¬ IsSpace b)

/-- A continuation byte `10xxxxxx`. -/
def IsContinuation (b : Nat) : Prop := b &&& 0xC0 = 0x80

instance (b : Nat) : Decidable (IsContinuation b) := by unfold IsContinuation; infer_instance

/-- One well-formed UTF-8 character: an ASCII byte, or a lead byte `110xxxxx`,
`1110xxxx`, `11110xxx` followed by one, two, three continuation bytes. -/
def IsUtf8Char : Str → Prop
  | [c] => c &&& 0x80 = 0
  | [c1, c2] => c1 &&& 0xE0 = 0xC0 ∧ IsContinuation c2
  | [c1, c2, c3] => c1 &&& 0xF0 = 0xE0 ∧ IsContinuation c2 ∧ IsContinuation c3
  | [c1, c2, c3, c4] =>
    c1 &&& 0xF8 = 0xF0 ∧ IsContinuation c2 ∧ IsContinuation c3 ∧ IsContinuation c4
  | _ => False

instance : (ch : Str) → Decidable (IsUtf8Char ch)
  | [] => inferInstanceAs (Decidable False)
  | [c] => inferInstanceAs (Decidable (c &&& 0x80 = 0))
  | [c1, c2] => inferInstanceAs (Decidable (c1 &&& 0xE0 = 0xC0 ∧ IsContinuation c2))
  | [c1, c2, c3] =>
    inferInstanceAs (Decidable (c1 &&& 0xF0 = 0xE0 ∧ IsContinuation c2 ∧ IsContinuation c3))
  | [c1, c2, c3, c4] =>
    inferInstanceAs (Decidable
      (c1 &&& 0xF8 = 0xF0 ∧ IsContinuation c2 ∧ IsContinuation c3 ∧ IsContinuation c4))
  | _ :: _ :: _ :: _ :: _ :: _ => inferInstanceAs (Decidable False)

/-- A well-formed UTF-8 string: the concatenation of well-formed characters. -/
def ValidUtf8 (s : Str) : Prop :=
  ∃ chars : List Str, (∀ ch ∈ chars, IsUtf8Char ch) ∧ chars.flatten = s

/-- An ASCII uppercase letter `A`..`Z`. -/
def IsUpperAscii (b : Nat) : Prop := 65 ≤ b ∧ b ≤ 90

instance (b : Nat) : Decidable (IsUpperAscii b) := by unfold IsUpperAscii; infer_instance

/-- A whitespace character: one whitespace byte. -/
def IsSpaceChar (ch : Str) : Prop := ∃ b, IsSpace b ∧ ch = [b]

/-- What `processString` makes of one character: under `processor` the lowercase image
(`std::tolower` of an ASCII byte, the entry of `utf8_case_map` of another character, the
character itself when it has none), and then under `asciify` the base letter of the
table `accents` (the character itself when it has none). -/
def charImage (processor asciify : Bool) (ch : Str) : Str :=
  let lowered := if processor then lowerChunk ch else ch
  if asciify then asciiChunk lowered else lowered

/-- Two consecutive bytes that are not an uppercase accented letter of the case table. -/
def NotUpperKey (a b : Nat) : Prop := ∀ p ∈ utf8_case_map, p.1 ≠ [a, b]

instance : DecidableRel NotUpperKey := fun a b => by unfold NotUpperKey; infer_instance

/-- A character without uppercase letter: none of its bytes is an ASCII uppercase letter,
no two consecutive bytes are an uppercase accented letter of the case table, and its last
byte does not start one. -/
def LowerChar (ch : Str) : Prop :=
  (∀ b ∈ ch, ¬ IsUpperAscii b) ∧ List.Chain' NotUpperKey ch ∧
    ∀ b ∈ ch.getLast?, b ≠ 0xC3 ∧ b ≠ 0xC5

/-! ## Arithmetic of the conversions -/

theorem wrapInt_eq {x : Int} (h : IsInt32 x) : wrapInt x = x := by
  unfold IsInt32 at h
  unfold wrapInt
  omega

/-- The cast `(int)s.size()` never exceeds the size: an index below it is inside `s`. -/
theorem wrapInt_le_of_nonneg (n : Nat) : wrapInt n ≤ n := by
  unfold wrapInt
  omega

/-! ## Closed forms of the loops -/

theorem copyRest_eq (s1 : Str) (fuel pos : Nat) (result : Str) (h : s1.length - pos ≤ fuel) :
    copyRest s1 fuel pos result = result ++ s1.drop pos := by
  induction fuel generalizing pos result with
  | zero =>
    have hd : s1.drop pos = [] := List.drop_eq_nil_of_le (by omega)
    simp [copyRest, hd]
  | succ fuel ih =>
    unfold copyRest
    split
    · rename_i hp
      rw [ih (pos + 1) _ (by omega), List.drop_eq_getElem_cons hp]
      simp
    · rename_i hp
      have hd : s1.drop pos = [] := List.drop_eq_nil_of_le (by omega)
      simp [hd]

theorem copyUntil_eq (s1 : Str) (sbegin fuel pos : Nat) (result : Str)
    (h : s1.length - pos ≤ fuel) :
    copyUntil s1 sbegin fuel pos result
      = (max pos (min sbegin s1.length), result ++ (s1.take sbegin).drop pos) := by
  induction fuel generalizing pos result with
  | zero =>
    have hd : (s1.take sbegin).drop pos = [] :=
      List.drop_eq_nil_of_le (by rw [List.length_take]; omega)
    have hm : max pos (min sbegin s1.length) = pos := by omega
    simp [copyUntil, hd, hm]
  | succ fuel ih =>
    unfold copyUntil
    split
    · rename_i hp
      have hlt : pos < (s1.take sbegin).length := by rw [List.length_take]; omega
      rw [ih (pos + 1) _ (by omega), List.drop_eq_getElem_cons hlt]
      have hm : max (pos + 1) (min sbegin s1.length) = max pos (min sbegin s1.length) := by omega
      have hg : (s1.take sbegin)[pos] = s1[pos] := by simp [List.getElem_take]
      simp [hm, hg]
    · rename_i hp
      have hd : (s1.take sbegin).drop pos = [] :=
        List.drop_eq_nil_of_le (by rw [List.length_take]; omega)
      have hm : max pos (min sbegin s1.length) = pos := by omega
      simp [hd, hm]

theorem appendRange_eq (s2 : Str) (dend fuel j : Nat) (result : Str)
    (h : s2.length - j ≤ fuel) :
    appendRange s2 dend fuel j result = result ++ (s2.take (dend + 1)).drop j := by
  induction fuel generalizing j result with
  | zero =>
    have hd : (s2.take (dend + 1)).drop j = [] :=
      List.drop_eq_nil_of_le (by rw [List.length_take]; omega)
    simp [appendRange, hd]
  | succ fuel ih =>
    unfold appendRange
    split
    · rename_i hp
      have hlt : j < (s2.take (dend + 1)).length := by rw [List.length_take]; omega
      rw [ih (j + 1) _ (by omega), List.drop_eq_getElem_cons hlt]
      have hg : (s2.take (dend + 1))[j] = s2[j] := by simp [List.getElem_take]
      simp [hg]
    · rename_i hp
      have hd : (s2.take (dend + 1)).drop j = [] :=
        List.drop_eq_nil_of_le (by rw [List.length_take]; omega)
      simp [hd]

/-- With fuel above the number of bytes left in `s2` the `int` loop has run to its end:
more fuel does not change its result. -/
theorem appendRangeInt_fuel (s2 : Str) (de : Int) (fuel1 fuel2 : Nat) (j : Int) (result : Str)
    (h1 : s2.length - j.toNat + 1 ≤ fuel1) (h2 : s2.length - j.toNat + 1 ≤ fuel2) :
    appendRangeInt s2 de fuel1 j result = appendRangeInt s2 de fuel2 j result := by
  induction fuel1 generalizing fuel2 j result with
  | zero => omega
  | succ fuel1 ih =>
    cases fuel2 with
    | zero => omega
    | succ fuel2 =>
      unfold appendRangeInt
      split
      · split
        · rename_i hj
          exact ih fuel2 (j + 1) _ (by omega) (by omega)
        · rfl
      · rfl

/-- On a non-negative range and a target shorter than `2^31` bytes the `int` loop of
`opcodes_apply_vec` makes the same appends as the `size_t` loop of `opcodes_apply_str`
and reads inside the target. -/
theorem appendRangeInt_eq (s2 : Str) (de : Nat) (fuel j : Nat) (result : Str)
    (hs : s2.length < 2147483648) :
    appendRangeInt s2 (de : Int) fuel (j : Int) result
      = some (appendRange s2 de fuel j result) := by
  have hw : wrapInt (s2.length : Int) = s2.length := wrapInt_eq (by unfold IsInt32; omega)
  induction fuel generalizing j result with
  | zero => simp [appendRangeInt, appendRange]
  | succ fuel ih =>
    unfold appendRangeInt appendRange
    rw [hw]
    by_cases hc : j ≤ de ∧ j < s2.length
    · have hc1 : (j : Int) ≤ (de : Int) ∧ (j : Int) < (s2.length : Int) := by omega
      have hc2 : 0 ≤ (j : Int) ∧ (j : Int).toNat < s2.length := by
        constructor
        · omega
        · simpa using hc.2
      have hj : j < s2.length := hc.2
      have h3 := ih (j + 1) (result ++ [s2[j]])
      simp only [hc1, hc2, hc, and_self, ↓reduceIte, ↓reduceDIte]
      simpa using h3
    · have hc1 : ¬ ((j : Int) ≤ (de : Int) ∧ (j : Int) < (s2.length : Int)) := by omega
      simp only [hc1, hc, ↓reduceIte, ↓reduceDIte]

/-! ## Cells -/

theorem cells_flatten (result : Str) : (cells result).flatten = result := by
  induction result with
  | nil => rfl
  | cons c rest ih =>
    have hc : cells (c :: rest) = [c] :: cells rest := rfl
    rw [hc, List.flatten_cons, ih]
    rfl

theorem cells_length_one (result : Str) : ∀ cell ∈ cells result, cell.length = 1 := by
  intro cell hcell
  simp only [cells, List.mem_map] at hcell
  obtain ⟨c, -, rfl⟩ := hcell
  rfl

/-! ## Rejection of a malformed kind by `opcodes_apply_str` -/

theorem opcodesStrLoop_error_iff (s1 s2 : Str) (ops : List Opcode) (i pos : Nat) (result : Str) :
    (∃ msg, opcodesStrLoop s1 s2 ops i pos result = .error msg) ↔
      ∃ op ∈ ops, InvalidKind op.type := by
  induction ops generalizing i pos result with
  | nil => simp [opcodesStrLoop]
  | cons op rest ih =>
    unfold opcodesStrLoop
    by_cases hk : op.type ≠ "replace" ∧ op.type ≠ "insert" ∧ op.type ≠ "delete"
    · rw [if_pos hk]
      constructor
      · intro _
        exact ⟨op, List.mem_cons_self _ _, hk⟩
      · intro _
        exact ⟨_, rfl⟩
    · rw [if_neg hk]
      have hrest : (∃ o ∈ op :: rest, InvalidKind o.type) ↔ ∃ o ∈ rest, InvalidKind o.type := by
        constructor
        · rintro ⟨o, ho, hinv⟩
          rcases List.mem_cons.mp ho with rfl | ho
          · exact absurd hinv hk
          · exact ⟨o, ho, hinv⟩
        · rintro ⟨o, ho, hinv⟩
          exact ⟨o, List.mem_cons_of_mem _ ho, hinv⟩
      rw [hrest]
      dsimp only
      split
      · exact ih _ _ _
      · split
        · exact ih _ _ _
        · exact ih _ _ _

theorem opcodesStrLoop_defined (s1 s2 : Str) (ops : List Opcode) (i pos : Nat) (result : Str) :
    (∃ msg, opcodesStrLoop s1 s2 ops i pos result = .error msg) ∨
      (∃ r, opcodesStrLoop s1 s2 ops i pos result = .value r) := by
  induction ops generalizing i pos result with
  | nil => exact Or.inr ⟨_, rfl⟩
  | cons op rest ih =>
    unfold opcodesStrLoop
    split
    · exact Or.inl ⟨_, rfl⟩
    · dsimp only
      split
      · exact ih _ _ _
      · split
        · exact ih _ _ _
        · exact ih _ _ _

/-! ## Replay of a well-formed edit script by `editops_apply_vec` -/

theorem resolve_position (n : Nat) (h : IsInt32 ((n : Int) + 1)) :
    (if (n : Int) + 1 ≠ NA_INTEGER then wrapInt ((n : Int) + 1 - 1) else -1) = (n : Int) := by
  unfold IsInt32 at h
  have hne : (n : Int) + 1 ≠ NA_INTEGER := by unfold NA_INTEGER; omega
  rw [if_pos hne]
  unfold wrapInt
  omega

theorem toSizeT_wrapInt_succ (n : Nat) (h : IsInt32 ((n : Int) + 1)) :
    toSizeT (wrapInt ((n : Int) + 1)) = n + 1 := by
  rw [wrapInt_eq h]
  unfold IsInt32 at h
  unfold toSizeT
  omega

theorem toSizeT_of_isInt32 (n : Nat) (h : IsInt32 ((n : Int) + 1)) : toSizeT (n : Int) = n := by
  unfold IsInt32 at h
  unfold toSizeT
  omega

theorem copyUntil_self (s1 : Str) (fuel pos : Nat) (result : Str) :
    copyUntil s1 pos fuel pos result = (pos, result) := by
  cases fuel with
  | zero => rfl
  | succ fuel =>
    unfold copyUntil
    rw [dif_neg (by omega)]

theorem copyUntil_keep (s1 : Str) (sbegin pos : Nat) (result : Str)
    (hlt : pos < sbegin) (hpos : pos < s1.length) :
    copyUntil s1 sbegin s1.length pos result
      = copyUntil s1 sbegin s1.length (pos + 1) (result ++ [s1[pos]]) := by
  rw [copyUntil_eq s1 sbegin s1.length pos result (by omega),
    copyUntil_eq s1 sbegin s1.length (pos + 1) _ (by omega)]
  have hl : pos < (s1.take sbegin).length := by rw [List.length_take]; omega
  have hg : (s1.take sbegin)[pos] = s1[pos] := by simp [List.getElem_take]
  have hm : max (pos + 1) (min sbegin s1.length) = max pos (min sbegin s1.length) := by omega
  rw [List.drop_eq_getElem_cons hl, hg, hm]
  simp

theorem copyRest_keep (s1 : Str) (pos : Nat) (result : Str) (hpos : pos < s1.length) :
    copyRest s1 s1.length pos result = copyRest s1 s1.length (pos + 1) (result ++ [s1[pos]]) := by
  rw [copyRest_eq s1 s1.length pos result (by omega),
    copyRest_eq s1 s1.length (pos + 1) _ (by omega), List.drop_eq_getElem_cons hpos]
  simp

theorem getElem_append_cons (pa a : Str) (c i : Nat) (hi : pa.length = i)
    (h : i < (pa ++ c :: a).length) : (pa ++ c :: a)[i] = c := by
  subst hi
  rw [List.getElem_append_right (le_refl _)]
  simp

/-- The first step of an edit script does not lie before the current source byte. -/
theorem EditScript.head_pos {i j : Nat} {a b : Str} {ops : List EditOp}
    (h : EditScript i j a b ops) :
    ∀ op rest, ops = op :: rest → (i : Int) + 1 ≤ op.src_pos := by
  induction h with
  | done i j => intro op rest h; cases h
  | keep c _ ih =>
    intro op rest h
    have := ih op rest h
    push_cast at this
    omega
  | replace c d _ _ => intro op rest h; cases h; exact le_refl _
  | insert d _ _ => intro op rest h; cases h; exact le_refl _
  | delete c dj _ _ => intro op rest h; cases h; exact le_refl _

/-- A source byte before the first step is copied: the loop may as well start after it. -/
theorem editopsVecLoop_keep (s1 s2 : Str) (ops : List EditOp) (pos : Nat) (result : Str)
    (hpos : pos < s1.length) (hcol : EditOpColumns ops)
    (hhead : ∀ op rest, ops = op :: rest → (pos : Int) + 2 ≤ op.src_pos) :
    editopsVecLoop s1 s2 ops pos result
      = editopsVecLoop s1 s2 ops (pos + 1) (result ++ [s1[pos]]) := by
  cases ops with
  | nil =>
    unfold editopsVecLoop
    rw [copyRest_keep s1 pos result hpos]
  | cons op rest =>
    have h2 := hhead op rest rfl
    have h32 := (hcol op (List.mem_cons_self _ _)).1
    have hlt : pos < toSizeT (if op.src_pos ≠ NA_INTEGER then wrapInt (op.src_pos - 1) else -1) := by
      unfold IsInt32 at h32
      have hne : op.src_pos ≠ NA_INTEGER := by unfold NA_INTEGER; omega
      rw [if_pos hne]
      unfold wrapInt toSizeT
      omega
    unfold editopsVecLoop
    dsimp only
    rw [copyUntil_keep s1 _ pos result hlt hpos]

theorem editopsVecLoop_script {i j : Nat} {a b : Str} {ops : List EditOp}
    (h : EditScript i j a b ops) :
    ∀ (pa pb result : Str), pa.length = i → pb.length = j →
      (pb ++ b).length < 2147483648 → EditOpColumns ops →
      editopsVecLoop (pa ++ a) (pb ++ b) ops i result = .value (result ++ b) := by
  induction h with
  | done i j =>
    intro pa pb result hpa _ _ _
    unfold editopsVecLoop
    rw [copyRest_eq _ _ _ _ (by simp [hpa])]
    simp [← hpa]
  | @keep i j a b ops c hrec ih =>
    intro pa pb result hpa hpb hlen hcol
    have hpos : i < (pa ++ c :: a).length := by simp [hpa]
    have hhead : ∀ op rest, ops = op :: rest → (i : Int) + 2 ≤ op.src_pos := by
      intro op rest hops
      have := hrec.head_pos op rest hops
      push_cast at this
      omega
    rw [editopsVecLoop_keep _ _ ops i result hpos hcol hhead,
      getElem_append_cons pa a c i hpa hpos]
    have := ih (pa ++ [c]) (pb ++ [c]) (result ++ [c]) (by simp [hpa]) (by simp [hpb])
      (by simpa using hlen) hcol
    simpa using this
  | @replace i j a b ops c d hrec ih =>
    intro pa pb result hpa hpb hlen hcol
    have hrow := hcol _ (List.mem_cons_self _ _)
    have hcol1 : EditOpColumns ops := fun op hop => hcol op (List.mem_cons_of_mem _ hop)
    have hj : j < (pb ++ d :: b).length := by simp [hpb]
    have hw : wrapInt ((pb ++ d :: b).length : Int) = (pb ++ d :: b).length :=
      wrapInt_eq (by unfold IsInt32; omega)
    have hcond : 0 ≤ (j : Int) ∧ (j : Int) < ((pb ++ d :: b).length : Int) := by omega
    have hjn : (j : Int).toNat < (pb ++ d :: b).length := by simpa using hj
    unfold editopsVecLoop
    dsimp only
    rw [resolve_position i hrow.1, resolve_position j hrow.2, toSizeT_of_isInt32 i hrow.1,
      copyUntil_self, toSizeT_wrapInt_succ i hrow.1, hw, if_pos rfl, if_pos hcond, dif_pos hjn]
    have hd : (pb ++ d :: b)[(j : Int).toNat] = d := by
      simp only [Int.toNat_ofNat]
      exact getElem_append_cons pb b d j hpb hj
    rw [hd]
    have := ih (pa ++ [c]) (pb ++ [d]) (result ++ [d]) (by simp [hpa]) (by simp [hpb])
      (by simpa using hlen) hcol1
    simpa using this
  | @insert i j a b ops d hrec ih =>
    intro pa pb result hpa hpb hlen hcol
    have hrow := hcol _ (List.mem_cons_self _ _)
    have hcol1 : EditOpColumns ops := fun op hop => hcol op (List.mem_cons_of_mem _ hop)
    have hj : j < (pb ++ d :: b).length := by simp [hpb]
    have hw : wrapInt ((pb ++ d :: b).length : Int) = (pb ++ d :: b).length :=
      wrapInt_eq (by unfold IsInt32; omega)
    have hcond : 0 ≤ (j : Int) ∧ (j : Int) < ((pb ++ d :: b).length : Int) := by omega
    have hjn : (j : Int).toNat < (pb ++ d :: b).length := by simpa using hj
    have hne : ¬ ("insert" = "replace") := by decide
    unfold editopsVecLoop
    dsimp only
    rw [resolve_position i hrow.1, resolve_position j hrow.2, toSizeT_of_isInt32 i hrow.1,
      copyUntil_self, hw, if_neg hne, if_pos rfl, if_pos hcond, dif_pos hjn]
    have hd : (pb ++ d :: b)[(j : Int).toNat] = d := by
      simp only [Int.toNat_ofNat]
      exact getElem_append_cons pb b d j hpb hj
    rw [hd]
    have := ih pa (pb ++ [d]) (result ++ [d]) hpa (by simp [hpb])
      (by simpa using hlen) hcol1
    simpa using this
  | @delete i j a b ops c dj hrec ih =>
    intro pa pb result hpa hpb hlen hcol
    have hrow := hcol _ (List.mem_cons_self _ _)
    have hcol1 : EditOpColumns ops := fun op hop => hcol op (List.mem_cons_of_mem _ hop)
    have hne1 : ¬ ("delete" = "replace") := by decide
    have hne2 : ¬ ("delete" = "insert") := by decide
    unfold editopsVecLoop
    dsimp only
    rw [resolve_position i hrow.1, toSizeT_of_isInt32 i hrow.1,
      copyUntil_self, toSizeT_wrapInt_succ i hrow.1, if_neg hne1, if_neg hne2, if_pos rfl]
    have := ih (pa ++ [c]) pb result (by simp [hpa]) hpb hlen hcol1
    simpa using this


/-! ## Replay of a well-formed range diff by `opcodes_apply_str` -/

theorem resolve_size (p : Int) (len : Nat) (h1 : 1 ≤ p) (h : IsInt32 p) :
    (if p ≠ NA_INTEGER then toSizeT (wrapInt (p - 1)) else len) = (p - 1).toNat := by
  unfold IsInt32 at h
  have hne : p ≠ NA_INTEGER := by unfold NA_INTEGER; omega
  rw [if_pos hne]
  unfold wrapInt toSizeT
  omega

theorem take_drop_block (pb y b : Str) (j : Nat) (hpb : pb.length = j) :
    ((pb ++ (y ++ b)).take (j + y.length)).drop j = y := by
  subst hpb
  rw [← List.append_assoc, List.take_append_eq_append_take]
  have h1 : (pb ++ y).take (pb.length + y.length) = pb ++ y :=
    List.take_of_length_le (by simp)
  have h2 : pb.length + y.length - (pb ++ y).length = 0 := by simp
  rw [h1, h2, List.take_zero, List.append_nil, List.drop_left]

/-- The first opcode of a range diff does not start before the current source byte. -/
theorem RangeDiff.head_begin {i j : Nat} {a b : Str} {ops : List Opcode}
    (h : RangeDiff i j a b ops) :
    ∀ op rest, ops = op :: rest → (i : Int) + 1 ≤ op.src_begin := by
  induction h with
  | done i j => intro op rest h; cases h
  | equal c _ ih =>
    intro op rest h
    have := ih op rest h
    push_cast at this
    omega
  | replace x y _ _ _ _ => intro op rest h; cases h; exact le_refl _
  | insert y se _ _ _ => intro op rest h; cases h; exact le_refl _
  | delete x db de _ _ _ => intro op rest h; cases h; exact le_refl _

/-- A range diff with no opcode relates equal strings. -/
theorem RangeDiff.eq_of_nil {i j : Nat} {a b : Str} {ops : List Opcode}
    (h : RangeDiff i j a b ops) : ops = [] → a = b := by
  induction h with
  | done i j => intro _; rfl
  | equal c _ ih => intro h; rw [ih h]
  | replace x y _ _ _ _ => intro h; cases h
  | insert y se _ _ _ => intro h; cases h
  | delete x db de _ _ _ => intro h; cases h

theorem opcodesStrLoop_keep (s1 s2 : Str) (ops : List Opcode) (n pos : Nat) (result : Str)
    (hpos : pos < s1.length) (hcol : OpcodeColumns ops)
    (hhead : ∀ op rest, ops = op :: rest → (pos : Int) + 2 ≤ op.src_begin) :
    opcodesStrLoop s1 s2 ops n pos result
      = opcodesStrLoop s1 s2 ops n (pos + 1) (result ++ [s1[pos]]) := by
  cases ops with
  | nil =>
    unfold opcodesStrLoop
    rw [copyRest_keep s1 pos result hpos]
  | cons op rest =>
    have h2 := hhead op rest rfl
    have h32 := (hcol op (List.mem_cons_self _ _)).1
    have hlt : pos < (if op.src_begin ≠ NA_INTEGER then toSizeT (wrapInt (op.src_begin - 1))
        else s1.length) := by
      rw [resolve_size op.src_begin s1.length (by omega) h32]
      omega
    unfold opcodesStrLoop
    dsimp only
    rw [copyUntil_keep s1 _ pos result hlt hpos]

theorem opcodesStrLoop_rangeDiff {i j : Nat} {a b : Str} {ops : List Opcode}
    (h : RangeDiff i j a b ops) :
    ∀ (pa pb result : Str) (n : Nat), pa.length = i → pb.length = j → OpcodeColumns ops →
      opcodesStrLoop (pa ++ a) (pb ++ b) ops n i result = .value (result ++ b) := by
  induction h with
  | done i j =>
    intro pa pb result n hpa _ _
    unfold opcodesStrLoop
    rw [copyRest_eq _ _ _ _ (by simp [hpa])]
    simp [← hpa]
  | @equal i j a b ops c hrec ih =>
    intro pa pb result n hpa hpb hcol
    have hpos : i < (pa ++ c :: a).length := by simp [hpa]
    have hhead : ∀ op rest, ops = op :: rest → (i : Int) + 2 ≤ op.src_begin := by
      intro op rest hops
      have := hrec.head_begin op rest hops
      push_cast at this
      omega
    rw [opcodesStrLoop_keep _ _ ops n i result hpos hcol hhead,
      getElem_append_cons pa a c i hpa hpos]
    have := ih (pa ++ [c]) (pb ++ [c]) (result ++ [c]) n (by simp [hpa]) (by simp [hpb]) hcol
    simpa using this
  | @replace i j a b ops x y hx hy hrec ih =>
    intro pa pb result n hpa hpb hcol
    have hrow := hcol _ (List.mem_cons_self _ _)
    dsimp only at hrow
    have hcol1 : OpcodeColumns ops := fun op hop => hcol op (List.mem_cons_of_mem _ hop)
    have hxl : 0 < x.length := List.length_pos.mpr hx
    have hyl : 0 < y.length := List.length_pos.mpr hy
    have hk : ¬ ("replace" ≠ "replace" ∧ "replace" ≠ "insert" ∧ "replace" ≠ "delete") := by decide
    have hsend : wrapSizeT (((i : Int) + x.length - 1).toNat + 1) = i + x.length := by
      have := hrow.2.1
      unfold IsInt32 at this
      unfold wrapSizeT
      omega
    have hdb : ((j : Int) + 1 - 1).toNat = j := by omega
    have hde : ((j : Int) + y.length - 1).toNat + 1 = j + y.length := by omega
    have hsb : ((i : Int) + 1 - 1).toNat = i := by omega
    unfold opcodesStrLoop
    dsimp only
    rw [if_neg hk, if_pos rfl, resolve_size _ _ (by omega) hrow.1,
      resolve_size _ _ (by omega) hrow.2.1, resolve_size _ _ (by omega) hrow.2.2.1,
      resolve_size _ _ (by omega) hrow.2.2.2, hsend, hdb, hsb, copyUntil_self,
      appendRange_eq _ _ _ _ _ (by omega), hde, take_drop_block pb y b j hpb]
    have := ih (pa ++ x) (pb ++ y) (result ++ y) (n + 1) (by simp [hpa]) (by simp [hpb]) hcol1
    simpa using this
  | @insert i j a b ops y se hy hrec ih =>
    intro pa pb result n hpa hpb hcol
    have hrow := hcol _ (List.mem_cons_self _ _)
    dsimp only at hrow
    have hcol1 : OpcodeColumns ops := fun op hop => hcol op (List.mem_cons_of_mem _ hop)
    have hyl : 0 < y.length := List.length_pos.mpr hy
    have hk : ¬ ("insert" ≠ "replace" ∧ "insert" ≠ "insert" ∧ "insert" ≠ "delete") := by decide
    have hne : ¬ ("insert" = "replace") := by decide
    have hdb : ((j : Int) + 1 - 1).toNat = j := by omega
    have hde : ((j : Int) + y.length - 1).toNat + 1 = j + y.length := by omega
    have hsb : ((i : Int) + 1 - 1).toNat = i := by omega
    unfold opcodesStrLoop
    dsimp only
    rw [if_neg hk, if_neg hne, if_pos rfl, resolve_size _ _ (by omega) hrow.1,
      resolve_size _ _ (by omega) hrow.2.2.1,
      resolve_size _ _ (by omega) hrow.2.2.2, hdb, hsb, copyUntil_self,
      appendRange_eq _ _ _ _ _ (by omega), hde, take_drop_block pb y b j hpb]
    have := ih pa (pb ++ y) (result ++ y) (n + 1) hpa (by simp [hpb]) hcol1
    simpa using this
  | @delete i j a b ops x db de hx hrec ih =>
    intro pa pb result n hpa hpb hcol
    have hrow := hcol _ (List.mem_cons_self _ _)
    dsimp only at hrow
    have hcol1 : OpcodeColumns ops := fun op hop => hcol op (List.mem_cons_of_mem _ hop)
    have hxl : 0 < x.length := List.length_pos.mpr hx
    have hk : ¬ ("delete" ≠ "replace" ∧ "delete" ≠ "insert" ∧ "delete" ≠ "delete") := by decide
    have hne1 : ¬ ("delete" = "replace") := by decide
    have hne2 : ¬ ("delete" = "insert") := by decide
    have hsend : wrapSizeT (((i : Int) + x.length - 1).toNat + 1) = i + x.length := by
      have := hrow.2.1
      unfold IsInt32 at this
      unfold wrapSizeT
      omega
    have hsb : ((i : Int) + 1 - 1).toNat = i := by omega
    unfold opcodesStrLoop
    dsimp only
    rw [if_neg hk, if_neg hne1, if_neg hne2, resolve_size _ _ (by omega) hrow.1,
      resolve_size _ _ (by omega) hrow.2.1, hsend, hsb, copyUntil_self]
    have := ih (pa ++ x) pb result (n + 1) (by simp [hpa]) hpb hcol1
    simpa using this


/-! ## Agreement of `opcodes_apply_vec` with `opcodes_apply_str` -/

theorem resolve_int (p : Int) (h1 : 1 ≤ p) (h : IsInt32 p) :
    (if p ≠ NA_INTEGER then wrapInt (p - 1) else -1) = (((p - 1).toNat : Nat) : Int) := by
  unfold IsInt32 at h
  have hne : p ≠ NA_INTEGER := by unfold NA_INTEGER; omega
  rw [if_pos hne]
  unfold wrapInt
  omega

/-- Both replays copy the same gap before a row, whether its source begin is present or not. -/
theorem copyUntil_resolve (s1 : Str) (sb : Int) (pos : Nat) (result : Str)
    (hs1 : sb = NA_INTEGER → s1.length < 18446744073709551616) :
    copyUntil s1 (toSizeT (if sb ≠ NA_INTEGER then wrapInt (sb - 1) else -1)) s1.length pos result
      = copyUntil s1 (if sb ≠ NA_INTEGER then toSizeT (wrapInt (sb - 1)) else s1.length)
          s1.length pos result := by
  by_cases hna : sb = NA_INTEGER
  · have hlen := hs1 hna
    have hne : ¬ (sb ≠ NA_INTEGER) := by simp [hna]
    rw [if_neg hne, if_neg hne, copyUntil_eq _ _ _ _ _ (by omega), copyUntil_eq _ _ _ _ _ (by omega)]
    have ht : toSizeT (-1) = 18446744073709551615 := by decide
    rw [ht, List.take_of_length_le (by omega), List.take_of_length_le (le_refl _)]
    congr 1
    omega
  · have hne : sb ≠ NA_INTEGER := hna
    rw [if_pos hne, if_pos hne]

/-- Both replays move the cursor to the same place after a row whose source end is present. -/
theorem cursor_resolve (se : Int) (len : Nat) (hse : se ≠ NA_INTEGER) (h : IsInt32 se) :
    toSizeT (wrapInt ((if se ≠ NA_INTEGER then wrapInt (se - 1) else -1) + 1))
      = wrapSizeT ((if se ≠ NA_INTEGER then toSizeT (wrapInt (se - 1)) else len) + 1) := by
  rw [if_pos hse, if_pos hse]
  unfold IsInt32 at h
  unfold NA_INTEGER at hse
  unfold wrapInt toSizeT wrapSizeT
  omega

/-- Both replays append the same target bytes for a range with positive bounds. -/
theorem appendRange_resolve (s2 : Str) (db de : Int) (result : Str)
    (hs2 : s2.length < 2147483648) (hdb : 1 ≤ db) (hde : 1 ≤ de)
    (hdb32 : IsInt32 db) (hde32 : IsInt32 de) :
    appendRangeInt s2 (if de ≠ NA_INTEGER then wrapInt (de - 1) else -1) (s2.length + 1)
        (if db ≠ NA_INTEGER then wrapInt (db - 1) else -1) result
      = some (appendRange s2 (if de ≠ NA_INTEGER then toSizeT (wrapInt (de - 1)) else s2.length)
          s2.length (if db ≠ NA_INTEGER then toSizeT (wrapInt (db - 1)) else s2.length) result) := by
  rw [resolve_int db hdb hdb32, resolve_int de hde hde32, resolve_size db _ hdb hdb32,
    resolve_size de _ hde hde32, appendRangeInt_eq s2 _ _ _ result hs2,
    appendRange_eq _ _ _ _ _ (by omega), appendRange_eq _ _ _ _ _ (by omega)]

theorem opcodesVecLoop_eq_strLoop (s1 s2 : Str) (hs2 : s2.length < 2147483648)
    (ops : List Opcode) :
    ∀ (n pos : Nat) (result : Str), OpcodeColumns ops →
      (∀ op ∈ ops, ¬ InvalidKind op.type) → (∀ op ∈ ops, ResolvedBounds op) →
      (∀ op ∈ ops, op.src_begin = NA_INTEGER → s1.length < 18446744073709551616) →
      opcodesVecLoop s1 s2 ops pos result = opcodesStrLoop s1 s2 ops n pos result := by
  induction ops with
  | nil =>
    intro n pos result _ _ _ _
    rfl
  | cons op rest ih =>
    intro n pos result hcol hkind hres hsrc
    have hrow := hcol op (List.mem_cons_self _ _)
    have hk := hkind op (List.mem_cons_self _ _)
    have hb := hres op (List.mem_cons_self _ _)
    have hs1 := hsrc op (List.mem_cons_self _ _)
    have hih := fun m p r => ih m p r (fun o ho => hcol o (List.mem_cons_of_mem _ ho))
      (fun o ho => hkind o (List.mem_cons_of_mem _ ho))
      (fun o ho => hres o (List.mem_cons_of_mem _ ho))
      (fun o ho => hsrc o (List.mem_cons_of_mem _ ho))
    unfold InvalidKind at hk
    unfold ResolvedBounds at hb
    unfold opcodesVecLoop opcodesStrLoop
    dsimp only
    rw [if_neg hk, copyUntil_resolve s1 op.src_begin pos result hs1]
    by_cases hr : op.type = "replace"
    · have hni : ¬ (op.type = "insert") := by rw [hr]; decide
      have hnd : ¬ (op.type = "delete") := by rw [hr]; decide
      have hse : op.src_end ≠ NA_INTEGER := hb.1.resolve_left hni
      have hd := hb.2.resolve_left hnd
      rw [if_pos hr, if_pos hr,
        appendRange_resolve s2 op.dest_begin op.dest_end _ hs2 hd.1 hd.2 hrow.2.2.1 hrow.2.2.2,
        cursor_resolve op.src_end s1.length hse hrow.2.1]
      exact hih _ _ _
    · by_cases hi : op.type = "insert"
      · have hnd : ¬ (op.type = "delete") := by rw [hi]; decide
        have hd := hb.2.resolve_left hnd
        rw [if_neg hr, if_neg hr, if_pos hi, if_pos hi,
          appendRange_resolve s2 op.dest_begin op.dest_end _ hs2 hd.1 hd.2 hrow.2.2.1 hrow.2.2.2]
        exact hih _ _ _
      · have hdel : op.type = "delete" := by
          by_contra hnd
          exact hk ⟨hr, hi, hnd⟩
        have hse : op.src_end ≠ NA_INTEGER := hb.1.resolve_left hi
        rw [if_neg hr, if_neg hr, if_neg hi, if_neg hi, if_pos hdel,
          cursor_resolve op.src_end s1.length hse hrow.2.1]
        exact hih _ _ _


theorem RangeDiff.rows_resolved {i j : Nat} {a b : Str} {ops : List Opcode}
    (h : RangeDiff i j a b ops) :
    ∀ op ∈ ops, ¬ InvalidKind op.type ∧ ResolvedBounds op ∧ op.src_begin ≠ NA_INTEGER := by
  induction h with
  | done i j => intro op hop; cases hop
  | equal c _ ih => exact ih
  | @replace i j a b ops x y hx hy _ ih =>
    intro op hop
    rcases List.mem_cons.mp hop with rfl | hop
    · have hyl : 0 < y.length := List.length_pos.mpr hy
      refine ⟨(by decide : ¬ InvalidKind "replace"), ⟨Or.inr ?_, Or.inr ⟨?_, ?_⟩⟩, ?_⟩
      · show (i : Int) + x.length ≠ NA_INTEGER
        unfold NA_INTEGER; omega
      · show 1 ≤ (j : Int) + 1
        omega
      · show 1 ≤ (j : Int) + y.length
        omega
      · show (i : Int) + 1 ≠ NA_INTEGER
        unfold NA_INTEGER; omega
    · exact ih op hop
  | @insert i j a b ops y se hy _ ih =>
    intro op hop
    rcases List.mem_cons.mp hop with rfl | hop
    · have hyl : 0 < y.length := List.length_pos.mpr hy
      refine ⟨(by decide : ¬ InvalidKind "insert"), ⟨Or.inl rfl, Or.inr ⟨?_, ?_⟩⟩, ?_⟩
      · show 1 ≤ (j : Int) + 1
        omega
      · show 1 ≤ (j : Int) + y.length
        omega
      · show (i : Int) + 1 ≠ NA_INTEGER
        unfold NA_INTEGER; omega
    · exact ih op hop
  | @delete i j a b ops x db de hx _ ih =>
    intro op hop
    rcases List.mem_cons.mp hop with rfl | hop
    · refine ⟨(by decide : ¬ InvalidKind "delete"), ⟨Or.inr ?_, Or.inl rfl⟩, ?_⟩
      · show (i : Int) + x.length ≠ NA_INTEGER
        unfold NA_INTEGER; omega
      · show (i : Int) + 1 ≠ NA_INTEGER
        unfold NA_INTEGER; omega
    · exact ih op hop

/-! ## The claims -/

/-- C1. Round trip for opcodes: for a source `s1`, a target `s2` and an opcode list that
is a well-formed range diff of `s1` into `s2` in the 1-based inclusive format (held in
32-bit integer columns), `opcodes_apply_str` returns exactly `s2`, and, the target
being an R string (fewer than `2^31` bytes), `opcodes_apply_vec` returns the bytes of
`s2` one per cell. -/
theorem opcodes_apply_roundtrip (s1 s2 : Str) (ops : List Opcode)
    (hdiff : RangeDiff 0 0 s1 s2 ops) (hcol : OpcodeColumns ops) :
    opcodes_apply_str ops s1 s2 = .value s2 ∧
      (s2.length < 2147483648 → opcodes_apply_vec ops s1 s2 = .value (cells s2)) := by
  have hloop := opcodesStrLoop_rangeDiff hdiff [] [] [] 0 rfl rfl hcol
  simp only [List.nil_append] at hloop
  refine ⟨?_, fun hlen => ?_⟩
  · unfold opcodes_apply_str
    split
    · rename_i h0
      rw [hdiff.eq_of_nil (List.length_eq_zero.mp h0)]
    · exact hloop
  · have hrows := hdiff.rows_resolved
    have heq := opcodesVecLoop_eq_strLoop s1 s2 hlen ops 0 0 [] hcol
      (fun op hop => (hrows op hop).1) (fun op hop => (hrows op hop).2.1)
      (fun op hop hna => absurd hna (hrows op hop).2.2)
    unfold opcodes_apply_vec
    rw [heq, hloop]
    rfl

/-- Instance of C1: the range diff [Replace [1,1]/[1,1]; Replace [5,5]/[5,5];
Insert before source byte 7 of target range [7,7]] of "kitten" into "sitting". -/
theorem opcodes_apply_roundtrip_witness :
    RangeDiff 0 0 (ascii "kitten") (ascii "sitting")
        [⟨"replace", 1, 1, 1, 1⟩, ⟨"replace", 5, 5, 5, 5⟩, ⟨"insert", 7, 6, 7, 7⟩] ∧
      opcodes_apply_str [⟨"replace", 1, 1, 1, 1⟩, ⟨"replace", 5, 5, 5, 5⟩, ⟨"insert", 7, 6, 7, 7⟩]
        (ascii "kitten") (ascii "sitting") = .value (ascii "sitting") ∧
      opcodes_apply_vec [⟨"replace", 1, 1, 1, 1⟩, ⟨"replace", 5, 5, 5, 5⟩, ⟨"insert", 7, 6, 7, 7⟩]
        (ascii "kitten") (ascii "sitting") = .value (cells (ascii "sitting")) :=
  have hdiff : RangeDiff 0 0 (ascii "kitten") (ascii "sitting")
      [⟨"replace", 1, 1, 1, 1⟩, ⟨"replace", 5, 5, 5, 5⟩, ⟨"insert", 7, 6, 7, 7⟩] :=
    RangeDiff.replace [107] [115] (by decide) (by decide)
      (RangeDiff.equal 105 (RangeDiff.equal 116 (RangeDiff.equal 116
        (RangeDiff.replace [101] [105] (by decide) (by decide)
          (RangeDiff.equal 110
            (RangeDiff.insert [103] 6 (by decide) (RangeDiff.done 6 7)))))))
  have h := opcodes_apply_roundtrip (ascii "kitten") (ascii "sitting") _ hdiff (by decide)
  ⟨hdiff, h.1, h.2 (by decide)⟩


theorem opcodesVecLoop_empty (s1 s2 : Str) : opcodesVecLoop s1 s2 [] 0 [] = .value s1 := by
  unfold opcodesVecLoop
  rw [copyRest_eq s1 s1.length 0 [] (by omega)]
  simp

theorem editopsVecLoop_empty (s1 s2 : Str) : editopsVecLoop s1 s2 [] 0 [] = .value s1 := by
  unfold editopsVecLoop
  rw [copyRest_eq s1 s1.length 0 [] (by omega)]
  simp

/-- C2. Round trip for edit operations, cell-sequence output: for a source `a`, a target
`b` (an R string, fewer than `2^31` bytes) and an operation list (32-bit integer columns)
that is a well-formed edit script from `a` to `b` in the 1-based format,
`editops_apply_vec` returns exactly the bytes of `b`, one per cell. -/
theorem editops_apply_vec_roundtrip (a b : Str) (ops : List EditOp)
    (hscript : EditScript 0 0 a b ops) (hcol : EditOpColumns ops)
    (hlen : b.length < 2147483648) :
    editops_apply_vec ops a b = .value (cells b) := by
  have hloop := editopsVecLoop_script hscript [] [] [] rfl rfl (by simpa using hlen) hcol
  simp only [List.nil_append] at hloop
  unfold editops_apply_vec
  rw [hloop]
  rfl

/-- Instances of C2: the script [Replace(1,1), Replace(5,5), Insert(7,7)] from "kitten"
to "sitting", the empty script between equal strings, and a script to the empty
target. -/
theorem editops_apply_vec_roundtrip_witness :
    EditScript 0 0 (ascii "kitten") (ascii "sitting")
        [⟨"replace", 1, 1⟩, ⟨"replace", 5, 5⟩, ⟨"insert", 7, 7⟩] ∧
      editops_apply_vec [⟨"replace", 1, 1⟩, ⟨"replace", 5, 5⟩, ⟨"insert", 7, 7⟩]
        (ascii "kitten") (ascii "sitting") = .value (cells (ascii "sitting")) ∧
      editops_apply_vec [] (ascii "same") (ascii "same") = .value (cells (ascii "same")) ∧
      editops_apply_vec [⟨"delete", 1, 1⟩] (ascii "a") [] = .value (cells []) :=
  have hscript : EditScript 0 0 (ascii "kitten") (ascii "sitting")
      [⟨"replace", 1, 1⟩, ⟨"replace", 5, 5⟩, ⟨"insert", 7, 7⟩] :=
    EditScript.replace 107 115 (EditScript.keep 105 (EditScript.keep 116 (EditScript.keep 116
      (EditScript.replace 101 105 (EditScript.keep 110
        (EditScript.insert 103 (EditScript.done 6 7)))))))
  have hsame : EditScript 0 0 (ascii "same") (ascii "same") [] :=
    EditScript.keep 115 (EditScript.keep 97 (EditScript.keep 109 (EditScript.keep 101
      (EditScript.done 4 4))))
  ⟨hscript,
    editops_apply_vec_roundtrip _ _ _ hscript (by decide) (by decide),
    editops_apply_vec_roundtrip _ _ _ hsame (by decide) (by decide),
    editops_apply_vec_roundtrip _ _ _ (EditScript.delete 97 1 (EditScript.done 1 0))
      (by decide) (by decide)⟩

/-- C3 (the code departs from the claim). `editops_apply_str` does not reproduce the
target of a well-formed edit script: it has no branch for a delete, it inserts at
`dest_pos - 1 + offset` although `dest_pos` already is the position in the target, and it
replaces at `src_pos - 1` without regard to earlier inserts. On the script
`[Delete(2,2)]` from "abc" to "ac" it returns "abc"; on `[Insert(2,2), Insert(2,3)]`
from "ab" to "axyb" it returns "axby"; on `[Insert(1,1), Replace(2,3)]` from "ab" to
"xac" it returns "xcb". -/
theorem editops_apply_str_breaks_roundtrip :
    (EditScript 0 0 (ascii "abc") (ascii "ac") [⟨"delete", 2, 2⟩] ∧
      editops_apply_str [⟨"delete", 2, 2⟩] (ascii "abc") (ascii "ac") = .value (ascii "abc")) ∧
    (EditScript 0 0 (ascii "ab") (ascii "axyb") [⟨"insert", 2, 2⟩, ⟨"insert", 2, 3⟩] ∧
      editops_apply_str [⟨"insert", 2, 2⟩, ⟨"insert", 2, 3⟩] (ascii "ab") (ascii "axyb")
        = .value (ascii "axby")) ∧
    (EditScript 0 0 (ascii "ab") (ascii "xac") [⟨"insert", 1, 1⟩, ⟨"replace", 2, 3⟩] ∧
      editops_apply_str [⟨"insert", 1, 1⟩, ⟨"replace", 2, 3⟩] (ascii "ab") (ascii "xac")
        = .value (ascii "xcb")) :=
  ⟨⟨EditScript.keep 97 (EditScript.delete 98 2 (EditScript.keep 99 (EditScript.done 3 2))),
      by decide⟩,
    ⟨EditScript.keep 97 (EditScript.insert 120 (EditScript.insert 121
        (EditScript.keep 98 (EditScript.done 2 4)))), by decide⟩,
    ⟨EditScript.insert 120 (EditScript.keep 97 (EditScript.replace 98 99
        (EditScript.done 2 3))), by decide⟩⟩

/-- C4 (the code departs from the claim). The two replays of an edit-operation list
disagree: on the well-formed script `[Delete(2,2)]` from "abc" to "ac",
`editops_apply_vec` returns the cells of "ac" while `editops_apply_str` returns "abc",
so the concatenated cells are not the string. -/
theorem editops_apply_vec_differs_from_str :
    EditScript 0 0 (ascii "abc") (ascii "ac") [⟨"delete", 2, 2⟩] ∧
    editops_apply_vec [⟨"delete", 2, 2⟩] (ascii "abc") (ascii "ac") = .value (cells (ascii "ac")) ∧
    editops_apply_str [⟨"delete", 2, 2⟩] (ascii "abc") (ascii "ac") = .value (ascii "abc") ∧
    (cells (ascii "ac")).flatten ≠ ascii "abc" :=
  ⟨EditScript.keep 97 (EditScript.delete 98 2 (EditScript.keep 99 (EditScript.done 3 2))),
    by decide, by decide, by decide⟩


/-- Claim C5, the defect: the two replays of opcodes differ on missing bounds. On the
source `abc`, the target `x` and the rows Replace 1..1 by 1..1, Delete 3 with a missing
source end, `opcodes_apply_str` returns `xb` and `opcodes_apply_vec` the cells of
`xbabc`: the missing end sets the cursor of the cell replay back to 0, and the source
is copied again. With a missing source end on a single Delete the string replay drops
the rest of the source while the cell replay starts the source again; with a missing or
non-positive target end on an Insert the string replay appends the target up to its end
while the cell replay appends nothing; with a missing target begin the cell replay reads
the target at index -1. -/
theorem opcodes_apply_vec_differs_on_missing_bounds :
    (opcodes_apply_str [⟨"replace", 1, 1, 1, 1⟩, ⟨"delete", 3, NA_INTEGER, 1, 1⟩]
        (ascii "abc") (ascii "x") = .value (ascii "xb") ∧
      opcodes_apply_vec [⟨"replace", 1, 1, 1, 1⟩, ⟨"delete", 3, NA_INTEGER, 1, 1⟩]
        (ascii "abc") (ascii "x") = .value (cells (ascii "xbabc")) ∧
      (cells (ascii "xbabc")).flatten ≠ ascii "xb") ∧
    (opcodes_apply_str [⟨"delete", 1, NA_INTEGER, 1, 1⟩] (ascii "ab") [] = .value [] ∧
      opcodes_apply_vec [⟨"delete", 1, NA_INTEGER, 1, 1⟩] (ascii "ab") []
        = .value (cells (ascii "ab")) ∧
      (cells (ascii "ab")).flatten ≠ []) ∧
    (opcodes_apply_str [⟨"insert", 1, 1, 1, NA_INTEGER⟩] [] (ascii "xy") = .value (ascii "xy") ∧
      opcodes_apply_vec [⟨"insert", 1, 1, 1, NA_INTEGER⟩] [] (ascii "xy") = .value [] ∧
      ([] : List Str).flatten ≠ ascii "xy") ∧
    (opcodes_apply_str [⟨"insert", 1, 1, 1, 0⟩] [] (ascii "xy") = .value (ascii "xy") ∧
      opcodes_apply_vec [⟨"insert", 1, 1, 1, 0⟩] [] (ascii "xy") = .value []) ∧
    (opcodes_apply_str [⟨"insert", 1, 1, NA_INTEGER, 1⟩] [] (ascii "xy") = .value [] ∧
      opcodes_apply_vec [⟨"insert", 1, 1, NA_INTEGER, 1⟩] [] (ascii "xy") = .undefined) := by
  refine ⟨⟨by decide, by decide, by decide⟩, ⟨by decide, by decide, by decide⟩,
    ⟨by decide, by decide, by decide⟩, ⟨by decide, by decide⟩, ⟨by decide, by decide⟩⟩

/-- Where the bounds are present the two replays of opcodes agree. For R strings `s1`,
`s2` (fewer than `2^31` bytes each) and an opcode
list (32-bit integer columns) whose kinds are all replace, insert or delete, whose
source end is present on every replace and delete row and whose target begin and
target end are at least 1 on every replace and insert row (the source begin is
arbitrary and may be missing), both replays return, the concatenation of the cells
returned by `opcodes_apply_vec` is the string returned by `opcodes_apply_str`, and every
cell holds exactly one byte. -/
theorem opcodes_apply_vec_agrees_with_str (ops : List Opcode) (s1 s2 : Str)
    (hs1 : s1.length < 2147483648) (hs2 : s2.length < 2147483648)
    (hcol : OpcodeColumns ops) (hkind : ∀ op ∈ ops, ¬ InvalidKind op.type)
    (hres : ∀ op ∈ ops, ResolvedBounds op) :
    ∃ result cs, opcodes_apply_str ops s1 s2 = .value result ∧
      opcodes_apply_vec ops s1 s2 = .value cs ∧ cs.flatten = result ∧
      ∀ cell ∈ cs, cell.length = 1 := by
  cases ops with
  | nil =>
    refine ⟨s1, cells s1, rfl, ?_, cells_flatten s1, cells_length_one s1⟩
    unfold opcodes_apply_vec
    rw [opcodesVecLoop_empty]
    rfl
  | cons op rest =>
    have heq := opcodesVecLoop_eq_strLoop s1 s2 hs2 (op :: rest) 0 0 [] hcol hkind hres
      (fun _ _ _ => by omega)
    have hstr : opcodes_apply_str (op :: rest) s1 s2
        = opcodesStrLoop s1 s2 (op :: rest) 0 0 [] := by
      unfold opcodes_apply_str
      rw [if_neg (by simp)]
    rcases opcodesStrLoop_defined s1 s2 (op :: rest) 0 0 [] with ⟨msg, herr⟩ | ⟨r, hval⟩
    · exfalso
      obtain ⟨o, ho, hinv⟩ := (opcodesStrLoop_error_iff s1 s2 (op :: rest) 0 0 []).mp ⟨msg, herr⟩
      exact hkind o ho hinv
    · refine ⟨r, cells r, ?_, ?_, cells_flatten r, cells_length_one r⟩
      · rw [hstr, hval]
      · unfold opcodes_apply_vec
        rw [heq, hval]
        rfl

/-- Instance of the agreement of the two replays, on a list with a missing source range
on an insert and a missing target begin on a delete. -/
theorem opcodes_apply_vec_agrees_with_str_witness :
    ∃ result cs,
      opcodes_apply_str
          [⟨"replace", 1, 1, 1, 1⟩, ⟨"insert", NA_INTEGER, NA_INTEGER, 5, 5⟩, ⟨"delete", 6, 6, NA_INTEGER, 0⟩]
          (ascii "kitten") (ascii "sitting") = .value result ∧
        opcodes_apply_vec
          [⟨"replace", 1, 1, 1, 1⟩, ⟨"insert", NA_INTEGER, NA_INTEGER, 5, 5⟩, ⟨"delete", 6, 6, NA_INTEGER, 0⟩]
          (ascii "kitten") (ascii "sitting") = .value cs ∧
        cs.flatten = result ∧ ∀ cell ∈ cs, cell.length = 1 :=
  opcodes_apply_vec_agrees_with_str _ (ascii "kitten") (ascii "sitting")
    (by decide) (by decide) (by decide) (by decide) (by decide)

/-- C6 as stated fails: the listed opcodes do not rebuild "sitting" from "kitten". -/
theorem opcodes_apply_str_kitten_not_sitting :
    opcodes_apply_str
        [⟨"replace", 1, 1, 1, 1⟩, ⟨"insert", NA_INTEGER, NA_INTEGER, 5, 5⟩, ⟨"replace", 6, 6, 7, 7⟩]
        (ascii "kitten") (ascii "sitting") ≠ .value (ascii "sitting") := by
  decide

/-- C6, amended. Applying the opcode list [Replace with source range [1,1] and target
range [1,1]; Insert with target range [5,5] and no source range; Replace with source
range [6,6] and target range [7,7]] to source "kitten" and target "sitting" with
`opcodes_apply_str` returns "sittenig": the insert without a source range goes after the
whole source, and the last replace, whose source byte is already copied, appends "g". -/
theorem opcodes_apply_str_kitten_sittenig :
    opcodes_apply_str
        [⟨"replace", 1, 1, 1, 1⟩, ⟨"insert", NA_INTEGER, NA_INTEGER, 5, 5⟩, ⟨"replace", 6, 6, 7, 7⟩]
        (ascii "kitten") (ascii "sitting") = .value (ascii "sittenig") := by
  decide

/-- C7. An empty description leaves the source unchanged: with a list of zero rows
`opcodes_apply_str` and `editops_apply_str` return exactly `s1`, and `opcodes_apply_vec`
and `editops_apply_vec` return the bytes of `s1` one per cell (no cell when `s1` is
empty). -/
theorem empty_description_returns_source (s1 s2 : Str) :
    opcodes_apply_str [] s1 s2 = .value s1 ∧
    editops_apply_str [] s1 s2 = .value s1 ∧
    opcodes_apply_vec [] s1 s2 = .value (cells s1) ∧
    editops_apply_vec [] s1 s2 = .value (cells s1) ∧
    (cells s1).length = s1.length ∧ (∀ cell ∈ cells s1, cell.length = 1) ∧
    (cells s1).flatten = s1 ∧ cells [] = [] := by
  refine ⟨rfl, rfl, ?_, ?_, ?_, cells_length_one s1, cells_flatten s1, rfl⟩
  · unfold opcodes_apply_vec
    rw [opcodesVecLoop_empty]
    rfl
  · unfold editops_apply_vec
    rw [editopsVecLoop_empty]
    rfl
  · simp [cells]

/-- C8. `opcodes_apply_str` rejects the whole call exactly when some row has a kind
other than "replace", "insert" or "delete", wherever that row stands and whatever the
other rows hold; otherwise it returns a string. -/
theorem opcodes_apply_str_rejects_iff_invalid_kind (ops : List Opcode) (s1 s2 : Str) :
    ((∃ msg, opcodes_apply_str ops s1 s2 = .error msg) ↔ ∃ op ∈ ops, InvalidKind op.type) ∧
    ((∃ result, opcodes_apply_str ops s1 s2 = .value result) ↔ ∀ op ∈ ops, ¬ InvalidKind op.type) := by
  have herr : (∃ msg, opcodes_apply_str ops s1 s2 = .error msg) ↔
      ∃ op ∈ ops, InvalidKind op.type := by
    cases ops with
    | nil =>
      constructor
      · rintro ⟨msg, h⟩
        cases h
      · rintro ⟨op, hop, _⟩
        cases hop
    | cons op rest =>
      have hstr : opcodes_apply_str (op :: rest) s1 s2
          = opcodesStrLoop s1 s2 (op :: rest) 0 0 [] := by
        unfold opcodes_apply_str
        rw [if_neg (by simp)]
      rw [hstr]
      exact opcodesStrLoop_error_iff s1 s2 (op :: rest) 0 0 []
  have hdef : (∃ msg, opcodes_apply_str ops s1 s2 = .error msg) ∨
      (∃ r, opcodes_apply_str ops s1 s2 = .value r) := by
    unfold opcodes_apply_str
    split
    · exact Or.inr ⟨_, rfl⟩
    · exact opcodesStrLoop_defined s1 s2 ops 0 0 []
  refine ⟨herr, ?_⟩
  constructor
  · rintro ⟨r, hval⟩ op hop hinv
    obtain ⟨msg, hmsg⟩ := herr.mpr ⟨op, hop, hinv⟩
    rw [hval] at hmsg
    cases hmsg
  · intro hall
    rcases hdef with hmsg | hval
    · obtain ⟨op, hop, hinv⟩ := herr.mp hmsg
      exact absurd hinv (hall op hop)
    · exact hval

/-- C9 (the code departs from the claim). A row of unknown kind is not rejected by
`editops_apply_str`, `editops_apply_vec` and `opcodes_apply_vec`: each skips the row and
returns a result, where `opcodes_apply_str` raises an error on the same opcode list. -/
theorem unknown_kind_is_not_rejected :
    editops_apply_str [⟨"equal", 1, 1⟩] (ascii "a") (ascii "b") = .value (ascii "a") ∧
    editops_apply_vec [⟨"equal", 1, 1⟩] (ascii "a") (ascii "b") = .value (cells (ascii "a")) ∧
    opcodes_apply_vec [⟨"equal", 1, 1, 1, 1⟩] (ascii "a") (ascii "b")
      = .value (cells (ascii "a")) ∧
    opcodes_apply_str [⟨"equal", 1, 1, 1, 1⟩] (ascii "a") (ascii "b")
      = .error "Tipo de operação inválido na linha: 1" := by
  refine ⟨by decide, by decide, by decide, by decide⟩

/-- C10 (the code departs from the claim). `editops_apply_str` writes outside its
result: on the well-formed script `[Insert(1,1), Insert(1,2)]` from the empty string to
"ab" the second insert asks for position 2 of a result of length 1; the guard of the
insert branch compares `dest_pos - 1` with the target length only. -/
theorem editops_apply_str_inserts_past_the_end :
    EditScript 0 0 [] (ascii "ab") [⟨"insert", 1, 1⟩, ⟨"insert", 1, 2⟩] ∧
    editops_apply_str [⟨"insert", 1, 1⟩, ⟨"insert", 1, 2⟩] [] (ascii "ab") = .undefined ∧
    editops_apply_str [⟨"insert", 1, 2⟩] [] (ascii "ab") = .undefined :=
  ⟨EditScript.insert 97 (EditScript.insert 98 (EditScript.done 0 2)), by decide, by decide⟩


/-! ## What the loops of the normalizer compute -/

theorem lookup_mem (tbl : List (Str × Str)) (k v : Str) (h : tbl.lookup k = some v) :
    (k, v) ∈ tbl := by
  induction tbl with
  | nil => simp at h
  | cons p rest ih =>
    obtain ⟨pk, pv⟩ := p
    rw [List.lookup_cons] at h
    by_cases hk : k == pk
    · rw [hk] at h
      have hkv : k = pk := by simpa using hk
      have hv : pv = v := by simpa using h
      rw [hkv, hv]
      exact List.mem_cons_self _ _
    · have hk2 : (k == pk) = false := by simpa using hk
      rw [hk2] at h
      exact List.mem_cons_of_mem _ (ih h)

theorem lookup_eq_none (tbl : List (Str × Str)) (k : Str) (h : ∀ p ∈ tbl, p.1 ≠ k) :
    tbl.lookup k = none := by
  cases hl : tbl.lookup k with
  | none => rfl
  | some v => exact absurd rfl (h _ (lookup_mem tbl k v hl))

theorem sequenceLength_pos (c : Nat) : 1 ≤ sequenceLength c := by
  unfold sequenceLength
  split_ifs <;> omega

theorem chunkLength_pos (c : Nat) : 1 ≤ chunkLength c := by
  unfold chunkLength
  split
  · exact sequenceLength_pos c
  · exact le_refl 1

theorem mapChunks_nil (f : Str → Str) : mapChunks f [] = [] := by
  rw [mapChunks]

theorem mapChunks_cons (f : Str → Str) (c : Nat) (rest : Str) :
    mapChunks f (c :: rest)
      = f (c :: rest.take (chunkLength c - 1)) ++ mapChunks f (rest.drop (chunkLength c - 1)) := by
  rw [mapChunks]

theorem substr_eq_cons (input : Str) (i len : Nat) (h : i < input.length) (hlen : 1 ≤ len) :
    substr input i len = input[i] :: (input.drop (i + 1)).take (len - 1) := by
  unfold substr
  obtain ⟨m, rfl⟩ : ∃ m, len = m + 1 := ⟨len - 1, by omega⟩
  rw [List.drop_eq_getElem_cons h, List.take_succ_cons, Nat.add_sub_cancel]

theorem lowerChunk_high (c : Nat) (t : Str) (h : c &&& 0x80 ≠ 0) :
    lowerChunk (c :: t) = replaceBy utf8_case_map (c :: t) := by
  show (if c &&& 0x80 ≠ 0 then _ else _) = _
  rw [if_pos h]

theorem replaceBy_some {table : List (Str × Str)} {ch v : Str} (h : table.lookup ch = some v) :
    replaceBy table ch = v := by
  unfold replaceBy
  rw [h]

theorem replaceBy_none {table : List (Str × Str)} {ch : Str} (h : table.lookup ch = none) :
    replaceBy table ch = ch := by
  unfold replaceBy
  rw [h]

theorem lowerChunk_low (c : Nat) (t : Str) (h : ¬ (c &&& 0x80 ≠ 0)) :
    lowerChunk (c :: t) = [tolower c] := by
  show (if c &&& 0x80 ≠ 0 then _ else _) = _
  rw [if_neg h]

theorem toLowerLoop_eq (input : Str) (fuel i : Nat) (result : Str)
    (h : input.length - i ≤ fuel) :
    toLowerLoop input fuel i result = result ++ mapChunks lowerChunk (input.drop i) := by
  induction fuel generalizing i result with
  | zero =>
    have hd : input.drop i = [] := List.drop_eq_nil_of_le (by omega)
    simp [toLowerLoop, hd, mapChunks_nil]
  | succ fuel ih =>
    unfold toLowerLoop
    split
    · rename_i hi
      have hdrop : input.drop i = input[i] :: input.drop (i + 1) := List.drop_eq_getElem_cons hi
      rw [hdrop, mapChunks_cons]
      dsimp only
      by_cases hb : input[i] &&& 0x80 ≠ 0
      · have hlen := sequenceLength_pos input[i]
        have hcl : chunkLength input[i] = sequenceLength input[i] := by
          unfold chunkLength; rw [if_pos hb]
        have hdd : (input.drop (i + 1)).drop (sequenceLength input[i] - 1)
            = input.drop (i + sequenceLength input[i]) := by
          rw [List.drop_drop]
          congr 1
          omega
        rw [if_pos hb, hcl, hdd, substr_eq_cons input i _ hi hlen]
        rw [lowerChunk_high _ _ hb]
        cases hl : utf8_case_map.lookup
            (input[i] :: (input.drop (i + 1)).take (sequenceLength input[i] - 1)) with
        | some v =>
          dsimp only
          rw [ih _ _ (by omega), replaceBy_some hl]
          simp
        | none =>
          dsimp only
          rw [ih _ _ (by omega), replaceBy_none hl]
          simp
      · have hcl : chunkLength input[i] = 1 := by
          unfold chunkLength; rw [if_neg hb]
        rw [if_neg hb, hcl, ih _ _ (by omega)]
        rw [lowerChunk_low _ _ hb]
        simp
    · rename_i hi
      have hd : input.drop i = [] := List.drop_eq_nil_of_le (by omega)
      simp [hd, mapChunks_nil]

/-- What `toLower` computes: every sequence is replaced by its image. -/
theorem toLower_eq (input : Str) : toLower input = mapChunks lowerChunk input := by
  unfold toLower
  rw [toLowerLoop_eq input input.length 0 [] (by omega)]
  simp

theorem toASCIILoop_eq (input : Str) (fuel i : Nat) (result : Str)
    (h : input.length - i ≤ fuel) :
    toASCIILoop input fuel i result = result ++ mapChunks asciiChunk (input.drop i) := by
  induction fuel generalizing i result with
  | zero =>
    have hd : input.drop i = [] := List.drop_eq_nil_of_le (by omega)
    simp [toASCIILoop, hd, mapChunks_nil]
  | succ fuel ih =>
    unfold toASCIILoop
    split
    · rename_i hi
      have hdrop : input.drop i = input[i] :: input.drop (i + 1) := List.drop_eq_getElem_cons hi
      rw [hdrop, mapChunks_cons]
      dsimp only
      by_cases hb : input[i] &&& 0x80 ≠ 0
      · have hlen := sequenceLength_pos input[i]
        have hcl : chunkLength input[i] = sequenceLength input[i] := by
          unfold chunkLength; rw [if_pos hb]
        have hdd : (input.drop (i + 1)).drop (sequenceLength input[i] - 1)
            = input.drop (i + (sequenceLength input[i] - 1) + 1) := by
          rw [List.drop_drop]
          congr 1
          omega
        rw [if_pos hb, hcl, hdd, substr_eq_cons input i _ hi hlen]
        cases hl : accents.lookup
            (input[i] :: (input.drop (i + 1)).take (sequenceLength input[i] - 1)) with
        | some v =>
          dsimp only
          rw [ih _ _ (by omega), show asciiChunk _ = v from replaceBy_some hl]
          simp
        | none =>
          dsimp only
          rw [ih _ _ (by omega), show asciiChunk _ = _ from replaceBy_none hl]
          simp
      · have hcl : chunkLength input[i] = 1 := by
          unfold chunkLength; rw [if_neg hb]
        rw [if_neg hb, hcl]
        simp only [Nat.sub_self, List.take_zero, List.drop_zero]
        cases hl : accents.lookup [input[i]] with
        | some v =>
          dsimp only
          rw [ih _ _ (by omega), show asciiChunk _ = v from replaceBy_some hl]
          simp
        | none =>
          dsimp only
          rw [ih _ _ (by omega), show asciiChunk _ = _ from replaceBy_none hl]
          simp
    · rename_i hi
      have hd : input.drop i = [] := List.drop_eq_nil_of_le (by omega)
      simp [hd, mapChunks_nil]

/-- What `toASCII` computes: every sequence is replaced by its image. -/
theorem toASCII_eq (input : Str) : toASCII input = mapChunks asciiChunk input := by
  unfold toASCII
  rw [toASCIILoop_eq input input.length 0 [] (by omega)]
  simp


/-! ## `trimString` -/

theorem find_first_not_of_all (set s : Str) (i : Nat) (h : ∀ b ∈ s, b ∈ set) :
    find_first_not_of set s i = none := by
  induction s generalizing i with
  | nil => rfl
  | cons c rest ih =>
    unfold find_first_not_of
    rw [if_pos (h c (List.mem_cons_self _ _))]
    exact ih (i + 1) (fun b hb => h b (List.mem_cons_of_mem _ hb))

theorem find_first_not_of_append (set p r : Str) (a i : Nat) (hp : ∀ b ∈ p, b ∈ set)
    (ha : a ∉ set) : find_first_not_of set (p ++ a :: r) i = some (i + p.length) := by
  induction p generalizing i with
  | nil =>
    show find_first_not_of set (a :: r) i = _
    unfold find_first_not_of
    rw [if_neg ha]
    rfl
  | cons c rest ih =>
    show find_first_not_of set (c :: (rest ++ a :: r)) i = _
    unfold find_first_not_of
    rw [if_pos (hp c (List.mem_cons_self _ _)),
      ih (i + 1) (fun b hb => hp b (List.mem_cons_of_mem _ hb)), List.length_cons]
    congr 1
    omega

theorem find_last_not_of_all (set s : Str) (i : Nat) (h : ∀ b ∈ s, b ∈ set) :
    find_last_not_of set s i = none := by
  induction s generalizing i with
  | nil => rfl
  | cons c rest ih =>
    unfold find_last_not_of
    rw [ih (i + 1) (fun b hb => h b (List.mem_cons_of_mem _ hb))]
    dsimp only
    rw [if_pos (h c (List.mem_cons_self _ _))]

theorem find_last_not_of_append (set u q : Str) (z i : Nat) (hq : ∀ b ∈ q, b ∈ set)
    (hz : z ∉ set) : find_last_not_of set (u ++ z :: q) i = some (i + u.length) := by
  induction u generalizing i with
  | nil =>
    show find_last_not_of set (z :: q) i = _
    unfold find_last_not_of
    rw [find_last_not_of_all set q (i + 1) hq]
    dsimp only
    rw [if_neg hz]
    rfl
  | cons c rest ih =>
    show find_last_not_of set (c :: (rest ++ z :: q)) i = _
    unfold find_last_not_of
    rw [ih (i + 1), List.length_cons]
    dsimp only
    congr 1
    omega

/-- The first byte outside the set is not after the last one, so that `end - start` in
`trimString` does not wrap. -/
theorem find_first_le_find_last (set s : Str) (i start stop : Nat)
    (h1 : find_first_not_of set s i = some start) (h2 : find_last_not_of set s i = some stop) :
    start ≤ stop := by
  induction s generalizing i with
  | nil => simp [find_first_not_of] at h1
  | cons c rest ih =>
    unfold find_first_not_of at h1
    unfold find_last_not_of at h2
    by_cases hc : c ∈ set
    · rw [if_pos hc] at h1
      cases hl : find_last_not_of set rest (i + 1) with
      | none => rw [hl] at h2; simp [hc] at h2
      | some k =>
        rw [hl] at h2
        have hk : k = stop := by simpa using h2
        subst hk
        exact ih (i + 1) h1 hl
    · rw [if_neg hc] at h1
      have hs : start = i := by simpa using h1.symm
      have hge : ∀ (r : Str) (j k : Nat), find_last_not_of set r j = some k → j ≤ k := by
        intro r
        induction r with
        | nil => intro j k h; simp [find_last_not_of] at h
        | cons d r ihr =>
          intro j k h
          unfold find_last_not_of at h
          cases hl : find_last_not_of set r (j + 1) with
          | none =>
            rw [hl] at h
            dsimp only at h
            split at h
            · cases h
            · have : j = k := by simpa using h
              omega
          | some m =>
            rw [hl] at h
            have : m = k := by simpa using h
            have := ihr (j + 1) m hl
            omega
      cases hl : find_last_not_of set rest (i + 1) with
      | none =>
        rw [hl] at h2
        simp [hc] at h2
        omega
      | some k =>
        rw [hl] at h2
        have hk : k = stop := by simpa using h2
        have := hge rest (i + 1) k hl
        omega

/-- The result of `trimString` on a trimmed string between two runs of whitespace. -/
theorem trimString_append (p t q : Str) (hp : ∀ b ∈ p, IsSpace b) (hq : ∀ b ∈ q, IsSpace b)
    (ht : Trimmed t) : trimString (p ++ t ++ q) = t := by
  rcases List.eq_nil_or_concat t with rfl | ⟨u, z, hcat⟩
  case inr =>
    rw [List.concat_eq_append] at hcat
    subst hcat
    have hz : z ∉ whitespace := ht.2 z (by simp)
    obtain ⟨a, r, har⟩ : ∃ a r, u ++ [z] = a :: r := by
      cases u with
      | nil => exact ⟨z, [], rfl⟩
      | cons a u1 => exact ⟨a, u1 ++ [z], rfl⟩
    have ha : a ∉ whitespace := ht.1 a (by rw [har]; rfl)
    have hfirst : find_first_not_of whitespace (p ++ (u ++ [z]) ++ q) 0 = some p.length := by
      rw [har, List.append_assoc, List.cons_append,
        find_first_not_of_append whitespace p (r ++ q) a 0 hp ha]
      simp
    have hlast : find_last_not_of whitespace (p ++ (u ++ [z]) ++ q) 0
        = some (p.length + u.length) := by
      have he : p ++ (u ++ [z]) ++ q = (p ++ u) ++ z :: q := by simp
      rw [he, find_last_not_of_append whitespace (p ++ u) q z 0 hq hz]
      simp
    unfold trimString
    rw [hfirst, hlast]
    dsimp only
    unfold substr
    have hn : p.length + u.length - p.length + 1 = (u ++ [z]).length := by simp
    rw [hn, List.append_assoc, List.drop_left, List.take_left]
  · have hall : ∀ b ∈ p ++ [] ++ q, b ∈ whitespace := by
      intro b hb
      simp only [List.append_nil, List.mem_append] at hb
      rcases hb with hb | hb
      · exact hp b hb
      · exact hq b hb
    unfold trimString
    rw [find_first_not_of_all _ _ _ hall]

theorem trimmed_nil : Trimmed [] := by
  constructor <;> intro b hb <;> cases hb

theorem exists_trim_split (s : Str) :
    ∃ p t q, s = p ++ t ++ q ∧ (∀ b ∈ p, IsSpace b) ∧ (∀ b ∈ q, IsSpace b) ∧ Trimmed t := by
  have hfront : ∀ s : Str, ∃ p r, s = p ++ r ∧ (∀ b ∈ p, IsSpace b) ∧
      ∀ b ∈ r.head?, ¬ IsSpace b := by
    intro s
    induction s with
    | nil => exact ⟨[], [], rfl, by simp, by simp⟩
    | cons c rest ih =>
      by_cases hc : IsSpace c
      · obtain ⟨p, r, hs, hp, hr⟩ := ih
        refine ⟨c :: p, r, by rw [hs]; rfl, ?_, hr⟩
        intro b hb
        rcases List.mem_cons.mp hb with rfl | hb
        · exact hc
        · exact hp b hb
      · refine ⟨[], c :: rest, rfl, by simp, ?_⟩
        intro b hb
        have : c = b := by simpa using hb
        exact this ▸ hc
  have hback : ∀ r : Str, ∃ t q, r = t ++ q ∧ (∀ b ∈ q, IsSpace b) ∧
      ∀ b ∈ t.getLast?, ¬ IsSpace b := by
    intro r
    induction r using List.reverseRecOn with
    | nil => exact ⟨[], [], rfl, by simp, by simp⟩
    | append_singleton rest c ih =>
      by_cases hc : IsSpace c
      · obtain ⟨t, q, hs, hq, ht⟩ := ih
        refine ⟨t, q ++ [c], by rw [hs]; simp, ?_, ht⟩
        intro b hb
        rcases List.mem_append.mp hb with hb | hb
        · exact hq b hb
        · have : b = c := by simpa using hb
          exact this ▸ hc
      · refine ⟨rest ++ [c], [], by simp, by simp, ?_⟩
        intro b hb
        have : c = b := by simpa using hb
        exact this ▸ hc
  obtain ⟨p, r, hs, hp, hr⟩ := hfront s
  obtain ⟨t, q, hrt, hq, ht⟩ := hback r
  refine ⟨p, t, q, by rw [hs, hrt, List.append_assoc], hp, hq, ?_, ht⟩
  intro b hb
  apply hr b
  cases t with
  | nil => cases hb
  | cons a t1 =>
    rw [hrt]
    exact hb


theorem dropWhile_space_append (f : Nat → Bool) (p r : Str) (hp : ∀ b ∈ p, f b = true)
    (hr : ∀ b ∈ r.head?, f b = false) : (p ++ r).dropWhile f = r := by
  induction p with
  | nil =>
    cases r with
    | nil => rfl
    | cons a r1 =>
      have := hr a rfl
      simp [List.dropWhile, this]
  | cons c rest ih =>
    have hc := hp c (List.mem_cons_self _ _)
    simp only [List.cons_append, List.dropWhile_cons, hc, if_true]
    exact ih (fun b hb => hp b (List.mem_cons_of_mem _ hb))

theorem rdropWhile_append_space (f : Nat → Bool) (t q : Str) (hq : ∀ b ∈ q, f b = true)
    (ht : ∀ b ∈ t.getLast?, f b = false) : (t ++ q).rdropWhile f = t := by
  induction q using List.reverseRecOn with
  | nil =>
    rw [List.append_nil]
    rcases List.eq_nil_or_concat t with rfl | ⟨u, z, hcat⟩
    · rfl
    · rw [List.concat_eq_append] at hcat
      subst hcat
      have hz := ht z (by simp)
      exact List.rdropWhile_concat_neg f u z (by simp [hz])
  | append_singleton rest c ih =>
    have hc := hq c (by simp)
    rw [← List.append_assoc, List.rdropWhile_concat_pos f _ c hc]
    exact ih (fun b hb => hq b (List.mem_append_left _ hb))

/-- C16. Trimming removes exactly the surrounding whitespace: `trimString(s)` is `s`
without its longest prefix and its longest suffix made only of space, tab, newline and
carriage return, so `s` is a run of whitespace, then `trimString(s)`, then a run of
whitespace, and `trimString(s)` neither starts nor ends with one of these four bytes; the
result is empty exactly when `s` is empty or all whitespace, and then so is
`processString(s, true, asciify)` for either value of `asciify`. -/
theorem trimString_removes_surrounding_whitespace (s : Str) :
    trimString s
      = List.rdropWhile (fun b => decide (IsSpace b))
          (List.dropWhile (fun b => decide (IsSpace b)) s) ∧
    (∃ p q, s = p ++ trimString s ++ q ∧ (∀ b ∈ p, IsSpace b) ∧ (∀ b ∈ q, IsSpace b)) ∧
    Trimmed (trimString s) ∧
    (trimString s = [] ↔ ∀ b ∈ s, IsSpace b) ∧
    ((∀ b ∈ s, IsSpace b) → ∀ asciify, processString s true asciify = []) := by
  obtain ⟨p, t, q, hs, hp, hq, ht⟩ := exists_trim_split s
  have htrim : trimString s = t := by rw [hs]; exact trimString_append p t q hp hq ht
  have hiff : t = [] ↔ ∀ b ∈ s, IsSpace b := by
    constructor
    · intro h b hb
      rw [hs, h] at hb
      simp only [List.append_nil, List.mem_append] at hb
      rcases hb with hb | hb
      · exact hp b hb
      · exact hq b hb
    · intro h
      rcases List.eq_nil_or_concat t with rfl | ⟨u, z, hcat⟩
      · rfl
      · rw [List.concat_eq_append] at hcat
        subst hcat
        exact absurd (h z (by rw [hs]; simp)) (ht.2 z (by simp))
  rw [htrim]
  refine ⟨?_, ⟨p, q, hs, hp, hq⟩, ht, hiff, ?_⟩
  · by_cases hnil : t = []
    · subst hnil
      have hall : ∀ b ∈ s, decide (IsSpace b) = true := fun b hb => by
        simpa using hiff.mp rfl b hb
      rw [List.dropWhile_eq_nil_iff.mpr hall]
      rfl
    · have hhead : ∀ b ∈ (t ++ q).head?, decide (IsSpace b) = false := by
        intro b hb
        cases t with
        | nil => exact absurd rfl hnil
        | cons a t1 => simpa using ht.1 b hb
      rw [hs, List.append_assoc,
        dropWhile_space_append _ p (t ++ q) (fun b hb => by simpa using hp b hb) hhead,
        rdropWhile_append_space _ t q (fun b hb => by simpa using hq b hb)
          (fun b hb => by simpa using ht.2 b hb)]
  · intro hall asciify
    have ht0 : trimString s = [] := by rw [htrim]; exact hiff.mpr hall
    unfold processString
    rw [ht0]
    cases asciify <;> rfl

/-- Instances of C16: a string with whitespace on both sides, and an all-whitespace
string. -/
theorem trimString_removes_surrounding_whitespace_witness :
    trimString (ascii " \t a b\r\n") = ascii "a b" ∧
    processString (ascii " \t\r\n ") true true = [] :=
  ⟨by decide,
    (trimString_removes_surrounding_whitespace (ascii " \t\r\n ")).2.2.2.2 (by decide) true⟩

theorem accents_keys : ∀ p ∈ accents, p.1.length = 2 := by decide

theorem and_128_of_lt : ∀ b < 128, b &&& 0x80 = 0 := by decide

theorem asciiChunk_single (c : Nat) : asciiChunk [c] = [c] := by
  apply replaceBy_none
  apply lookup_eq_none
  intro p hp hk
  have := accents_keys p hp
  rw [hk] at this
  cases this

/-- C18. The transliteration alone leaves an ASCII string as it is: for every string
`s` made only of ASCII bytes, `processString(s, false, true)` is `s`; uppercase letters
and surrounding whitespace are kept. -/
theorem processString_asciify_only_ascii (s : Str) (h : ∀ b ∈ s, b < 128) :
    processString s false true = s := by
  show toASCII s = s
  rw [toASCII_eq]
  induction s with
  | nil => exact mapChunks_nil _
  | cons c rest ih =>
    have hc : c &&& 0x80 = 0 := and_128_of_lt c (h c (List.mem_cons_self _ _))
    have hcl : chunkLength c = 1 := by
      unfold chunkLength
      rw [if_neg (by simp [hc])]
    rw [mapChunks_cons, hcl]
    simp only [Nat.sub_self, List.take_zero, List.drop_zero]
    rw [asciiChunk_single, ih (fun b hb => h b (List.mem_cons_of_mem _ hb))]
    rfl

/-- Instance of C18: uppercase letters, digits and surrounding blanks are kept. -/
theorem processString_asciify_only_ascii_witness :
    processString (ascii "  Hello World 42 \t") false true = ascii "  Hello World 42 \t" :=
  processString_asciify_only_ascii _ (by decide)


/-! ## Sequences of `toLower` and `toASCII` -/

/-- A sequence in front of a string is processed as one unit when it is complete or
when the string ends with it. -/
theorem mapChunks_append_chunk (f : Str → Str) (c : Nat) (t z : Str)
    (h : t.length = chunkLength c - 1 ∨ (t.length ≤ chunkLength c - 1 ∧ z = [])) :
    mapChunks f (c :: t ++ z) = f (c :: t) ++ mapChunks f z := by
  rw [List.cons_append, mapChunks_cons]
  rcases h with h | ⟨h, rfl⟩
  · rw [List.take_left' h, List.drop_left' h]
  · rw [List.append_nil, List.take_of_length_le h, List.drop_eq_nil_of_le h]

/-- Every non-empty string starts with a sequence that is complete or ends the string. -/
theorem exists_chunk (c : Nat) (rest : Str) :
    ∃ t z, rest = t ++ z ∧ z.length ≤ rest.length ∧
      (t.length = chunkLength c - 1 ∨ (t.length ≤ chunkLength c - 1 ∧ z = [])) := by
  refine ⟨rest.take (chunkLength c - 1), rest.drop (chunkLength c - 1),
    (List.take_append_drop _ _).symm, by simp, ?_⟩
  by_cases hl : chunkLength c - 1 ≤ rest.length
  · left
    rw [List.length_take]
    omega
  · right
    refine ⟨by rw [List.length_take]; omega, List.drop_eq_nil_of_le (by omega)⟩

theorem mapChunks_single (f : Str → Str) (a : Nat) (z : Str) (ha : a &&& 0x80 = 0) :
    mapChunks f (a :: z) = f [a] ++ mapChunks f z := by
  have hcl : chunkLength a = 1 := by
    unfold chunkLength
    rw [if_neg (by simp [ha])]
  exact mapChunks_append_chunk f a [] z (Or.inl (by rw [hcl]; rfl))

theorem accents_values : ∀ p ∈ accents,
    p.2 = [p.2.headD 0] ∧ p.2.headD 0 &&& 0x80 = 0 ∧ ¬ IsSpace (p.2.headD 0) ∧
      (utf8_case_map.lookup p.1 = none → tolower (p.2.headD 0) = p.2.headD 0) := by
  decide

theorem case_map_entries : ∀ p ∈ utf8_case_map,
    p.1.length = 2 ∧ p.2.length = 2 ∧ p.2.headD 0 &&& 0x80 ≠ 0 ∧
      chunkLength (p.2.headD 0) = 2 ∧ utf8_case_map.lookup p.2 = none ∧
      (∀ b ∈ p.2, ¬ IsSpace b) := by
  decide

theorem tolower_ascii (c : Nat) (h : c &&& 0x80 = 0) : tolower c &&& 0x80 = 0 := by
  unfold tolower
  split
  · rename_i hc
    obtain ⟨h1, h2⟩ := hc
    interval_cases c <;> rfl
  · exact h

theorem tolower_idem (c : Nat) : tolower (tolower c) = tolower c := by
  unfold tolower
  split_ifs <;> omega

theorem tolower_not_space (c : Nat) (h : ¬ IsSpace c) : ¬ IsSpace (tolower c) := by
  unfold tolower
  split
  · rename_i hc
    obtain ⟨h1, h2⟩ := hc
    interval_cases c <;> decide
  · exact h

/-- The image of a sequence under `toASCII` is an ASCII byte or the sequence itself. -/
theorem asciiChunk_cases (ch : Str) :
    (asciiChunk ch = ch ∧ accents.lookup ch = none) ∨
    (∃ a, asciiChunk ch = [a] ∧ a &&& 0x80 = 0 ∧ ¬ IsSpace a ∧ ch.length = 2 ∧
      (utf8_case_map.lookup ch = none → tolower a = a)) := by
  cases hl : accents.lookup ch with
  | none => exact Or.inl ⟨replaceBy_none hl, rfl⟩
  | some v =>
    right
    have hmem := lookup_mem accents ch v hl
    obtain ⟨h1, h2, h3, h4⟩ := accents_values _ hmem
    have hk := accents_keys _ hmem
    exact ⟨v.headD 0, by rw [show asciiChunk ch = v from replaceBy_some hl]; exact h1,
      h2, h3, hk, h4⟩

/-- The transliteration is idempotent. -/
theorem mapChunks_asciiChunk_idem (y : Str) :
    mapChunks asciiChunk (mapChunks asciiChunk y) = mapChunks asciiChunk y := by
  generalize hn : y.length = n
  induction n using Nat.strong_induction_on generalizing y with
  | _ n ih =>
    cases y with
    | nil => rw [mapChunks_nil, mapChunks_nil]
    | cons c rest =>
      obtain ⟨t, z, hrest, hzl, hchunk⟩ := exists_chunk c rest
      have hz : z.length < n := by rw [← hn, List.length_cons]; omega
      have ihz := ih z.length hz z rfl
      rw [hrest, ← List.cons_append, mapChunks_append_chunk _ c t z hchunk]
      rcases asciiChunk_cases (c :: t) with ⟨hself, -⟩ | ⟨a, ha, hascii, -, -, -⟩
      · rw [hself]
        have hchunk2 : t.length = chunkLength c - 1 ∨
            (t.length ≤ chunkLength c - 1 ∧ mapChunks asciiChunk z = []) := by
          rcases hchunk with h | ⟨h, rfl⟩
          · exact Or.inl h
          · exact Or.inr ⟨h, mapChunks_nil _⟩
        rw [mapChunks_append_chunk _ c t _ hchunk2, hself, ihz]
      · rw [ha, List.singleton_append, mapChunks_single _ a _ hascii, asciiChunk_single, ihz]
        rfl

/-- The image of a sequence under `toLower`: the lowercase of an ASCII byte, the sequence
itself, or the two bytes of a lowercase accented letter. -/
theorem lowerChunk_cases (c : Nat) (t : Str) :
    (c &&& 0x80 = 0 ∧ lowerChunk (c :: t) = [tolower c]) ∨
    (c &&& 0x80 ≠ 0 ∧ utf8_case_map.lookup (c :: t) = none ∧ lowerChunk (c :: t) = c :: t) ∨
    (c &&& 0x80 ≠ 0 ∧ ∃ d1 d2, lowerChunk (c :: t) = [d1, d2] ∧ t.length = 1 ∧
      d1 &&& 0x80 ≠ 0 ∧ chunkLength d1 = 2 ∧ utf8_case_map.lookup [d1, d2] = none ∧
      ¬ IsSpace d1 ∧ ¬ IsSpace d2) := by
  by_cases hc : c &&& 0x80 ≠ 0
  · right
    rw [lowerChunk_high c t hc]
    cases hl : utf8_case_map.lookup (c :: t) with
    | none => exact Or.inl ⟨hc, rfl, replaceBy_none hl⟩
    | some v =>
      right
      have hmem := lookup_mem utf8_case_map (c :: t) v hl
      obtain ⟨h1, h2, h3, h4, h5, h6⟩ := case_map_entries _ hmem
      dsimp only at h1 h2 h3 h4 h5 h6
      match v, h2, h3, h4, h5, h6 with
      | [d1, d2], _, h3, h4, h5, h6 =>
        refine ⟨hc, d1, d2, replaceBy_some hl, ?_, h3, h4, h5, h6 d1 (by simp),
          h6 d2 (by simp)⟩
        simpa using h1
  · left
    exact ⟨by simpa using hc, lowerChunk_low c t hc⟩

/-- After `toLower` and `toASCII`, `toLower` has nothing left to change. -/
theorem mapChunks_lowerChunk_stable (x : Str) :
    mapChunks lowerChunk (mapChunks asciiChunk (mapChunks lowerChunk x))
      = mapChunks asciiChunk (mapChunks lowerChunk x) := by
  generalize hn : x.length = n
  induction n using Nat.strong_induction_on generalizing x with
  | _ n ih =>
    cases x with
    | nil => rw [mapChunks_nil, mapChunks_nil, mapChunks_nil]
    | cons c rest =>
      obtain ⟨t, z, hrest, hzl, hchunk⟩ := exists_chunk c rest
      have hz : z.length < n := by rw [← hn, List.length_cons]; omega
      have ihz := ih z.length hz z rfl
      have hnil : z = [] → mapChunks lowerChunk z = [] ∧
          mapChunks asciiChunk (mapChunks lowerChunk z) = [] := by
        rintro rfl
        rw [mapChunks_nil, mapChunks_nil]
        exact ⟨rfl, rfl⟩
      rw [hrest, ← List.cons_append, mapChunks_append_chunk _ c t z hchunk]
      rcases lowerChunk_cases c t with ⟨hc, hl⟩ | ⟨hc, hlook, hl⟩ |
        ⟨hc, d1, d2, hl, ht, hd1, hcl, hlook, -, -⟩
      · have hc1 := tolower_ascii c hc
        rw [hl, List.singleton_append, mapChunks_single _ _ _ hc1, asciiChunk_single,
          List.singleton_append, mapChunks_single _ _ _ hc1,
          lowerChunk_low _ _ (by simp [hc1]), tolower_idem, ihz]
        rfl
      · have hchunk2 : t.length = chunkLength c - 1 ∨
            (t.length ≤ chunkLength c - 1 ∧ mapChunks lowerChunk z = []) := by
          rcases hchunk with h | ⟨h, hzn⟩
          · exact Or.inl h
          · exact Or.inr ⟨h, (hnil hzn).1⟩
        have hchunk3 : t.length = chunkLength c - 1 ∨ (t.length ≤ chunkLength c - 1 ∧
            mapChunks asciiChunk (mapChunks lowerChunk z) = []) := by
          rcases hchunk with h | ⟨h, hzn⟩
          · exact Or.inl h
          · exact Or.inr ⟨h, (hnil hzn).2⟩
        rw [hl, mapChunks_append_chunk _ c t _ hchunk2]
        rcases asciiChunk_cases (c :: t) with ⟨hself, -⟩ | ⟨a, ha, hascii, -, -, hlow⟩
        · rw [hself, mapChunks_append_chunk _ c t _ hchunk3, hl, ihz]
        · rw [ha, List.singleton_append, mapChunks_single _ _ _ hascii,
            lowerChunk_low _ _ (by simp [hascii]), hlow hlook, ihz]
          rfl
      · have hchunk2 : ∀ w : Str, [d2].length = chunkLength d1 - 1 ∨
            ([d2].length ≤ chunkLength d1 - 1 ∧ w = []) := by
          intro w
          left
          rw [hcl]
          rfl
        have hlow2 : lowerChunk [d1, d2] = [d1, d2] := by
          rw [lowerChunk_high d1 [d2] hd1]
          exact replaceBy_none hlook
        rw [hl, show [d1, d2] ++ mapChunks lowerChunk z = d1 :: [d2] ++ mapChunks lowerChunk z
          from rfl, mapChunks_append_chunk _ d1 [d2] _ (hchunk2 _)]
        rcases asciiChunk_cases [d1, d2] with ⟨hself, -⟩ | ⟨a, ha, hascii, -, -, hlow⟩
        · rw [hself, show [d1, d2] ++ mapChunks asciiChunk (mapChunks lowerChunk z)
            = d1 :: [d2] ++ mapChunks asciiChunk (mapChunks lowerChunk z) from rfl,
            mapChunks_append_chunk _ d1 [d2] _ (hchunk2 _), hlow2, ihz]
        · rw [ha, List.singleton_append, mapChunks_single _ _ _ hascii,
            lowerChunk_low _ _ (by simp [hascii]), hlow hlook, ihz]
          rfl

theorem mapChunks_ne_nil (f : Str → Str) (hne : ∀ c t, f (c :: t) ≠ []) (z : Str)
    (hz : z ≠ []) : mapChunks f z ≠ [] := by
  cases z with
  | nil => exact absurd rfl hz
  | cons c rest =>
    rw [mapChunks_cons]
    intro h
    exact hne _ _ (List.append_eq_nil.mp h).1

/-- A replacement of sequences that keeps the first and the last byte of a sequence
outside the whitespace keeps a trimmed string trimmed. -/
theorem mapChunks_trimmed (f : Str → Str) (hne : ∀ c t, f (c :: t) ≠ [])
    (hhead : ∀ c t, ¬ IsSpace c → ∀ b ∈ (f (c :: t)).head?, ¬ IsSpace b)
    (hlast : ∀ c t, t.length ≤ chunkLength c - 1 → (∀ b ∈ (c :: t).getLast?, ¬ IsSpace b) →
      ∀ b ∈ (f (c :: t)).getLast?, ¬ IsSpace b)
    (x : Str) (hx : Trimmed x) : Trimmed (mapChunks f x) := by
  constructor
  · cases x with
    | nil =>
      rw [mapChunks_nil]
      intro b hb
      cases hb
    | cons c rest =>
      rw [mapChunks_cons, List.head?_append_of_ne_nil _ (hne _ _)]
      exact hhead c _ (hx.1 c rfl)
  · have hx2 := hx.2
    clear hx
    generalize hn : x.length = n
    induction n using Nat.strong_induction_on generalizing x with
    | _ n ih =>
      cases x with
      | nil =>
        rw [mapChunks_nil]
        intro b hb
        cases hb
      | cons c rest =>
        obtain ⟨t, z, hrest, hzl, hchunk⟩ := exists_chunk c rest
        have hz : z.length < n := by rw [← hn, List.length_cons]; omega
        have htl : t.length ≤ chunkLength c - 1 := by
          rcases hchunk with h | ⟨h, -⟩
          · exact le_of_eq h
          · exact h
        subst hrest
        rw [← List.cons_append, mapChunks_append_chunk _ c t z hchunk]
        by_cases hzn : z = []
        · subst hzn
          rw [mapChunks_nil, List.append_nil]
          apply hlast c t htl
          simpa using hx2
        · have hlz : (c :: (t ++ z)).getLast? = z.getLast? := by
            rw [← List.cons_append, List.getLast?_append_of_ne_nil _ hzn]
          rw [List.getLast?_append_of_ne_nil _ (mapChunks_ne_nil f hne z hzn)]
          exact ih z.length hz z (by rw [← hlz]; exact hx2) rfl


theorem lowerChunk_trimmed (x : Str) (hx : Trimmed x) : Trimmed (mapChunks lowerChunk x) := by
  apply mapChunks_trimmed lowerChunk _ _ _ x hx
  · intro c t
    rcases lowerChunk_cases c t with ⟨-, hl⟩ | ⟨-, -, hl⟩ | ⟨-, d1, d2, hl, -⟩ <;>
      rw [hl] <;> simp
  · intro c t hc b hb
    rcases lowerChunk_cases c t with ⟨-, hl⟩ | ⟨-, -, hl⟩ | ⟨-, d1, d2, hl, -, -, -, -, hd1, -⟩
    · rw [hl] at hb
      have : tolower c = b := by simpa using hb
      exact this ▸ tolower_not_space c hc
    · rw [hl] at hb
      have : c = b := by simpa using hb
      exact this ▸ hc
    · rw [hl] at hb
      have : d1 = b := by simpa using hb
      exact this ▸ hd1
  · intro c t htl hlast b hb
    rcases lowerChunk_cases c t with ⟨hc, hl⟩ | ⟨-, -, hl⟩ | ⟨-, d1, d2, hl, -, -, -, -, -, hd2⟩
    · have hcl : chunkLength c = 1 := by
        unfold chunkLength
        rw [if_neg (by simp [hc])]
      have ht : t = [] := List.length_eq_zero.mp (by omega)
      subst ht
      rw [hl] at hb
      have : tolower c = b := by simpa using hb
      exact this ▸ tolower_not_space c (hlast c (by simp))
    · rw [hl] at hb
      exact hlast b hb
    · rw [hl] at hb
      have : d2 = b := by simpa using hb
      exact this ▸ hd2

theorem asciiChunk_trimmed (x : Str) (hx : Trimmed x) : Trimmed (mapChunks asciiChunk x) := by
  apply mapChunks_trimmed asciiChunk _ _ _ x hx
  · intro c t
    rcases asciiChunk_cases (c :: t) with ⟨hl, -⟩ | ⟨a, hl, -⟩ <;> rw [hl] <;> simp
  · intro c t hc b hb
    rcases asciiChunk_cases (c :: t) with ⟨hl, -⟩ | ⟨a, hl, -, ha, -⟩
    · rw [hl] at hb
      have : c = b := by simpa using hb
      exact this ▸ hc
    · rw [hl] at hb
      have : a = b := by simpa using hb
      exact this ▸ ha
  · intro c t _ hlast b hb
    rcases asciiChunk_cases (c :: t) with ⟨hl, -⟩ | ⟨a, hl, -, ha, -⟩
    · rw [hl] at hb
      exact hlast b hb
    · rw [hl] at hb
      have : a = b := by simpa using hb
      exact this ▸ ha

theorem trimString_trimmed (s : Str) : Trimmed (trimString s) := by
  obtain ⟨p, t, q, hs, hp, hq, ht⟩ := exists_trim_split s
  rw [hs, trimString_append p t q hp hq ht]
  exact ht

theorem trimString_of_trimmed (t : Str) (ht : Trimmed t) : trimString t = t := by
  have := trimString_append [] t [] (by simp) (by simp) ht
  simpa using this

/-- C13. Normalization is idempotent: for every byte string `s`,
`processString(processString(s, true, true), true, true)` is
`processString(s, true, true)`. -/
theorem processString_idempotent (s : Str) :
    processString (processString s true true) true true = processString s true true := by
  have hP : ∀ x : Str, processString x true true
      = mapChunks asciiChunk (mapChunks lowerChunk (trimString x)) := by
    intro x
    show toASCII (toLower (trimString x)) = _
    rw [toASCII_eq, toLower_eq]
  have htrim : Trimmed (mapChunks asciiChunk (mapChunks lowerChunk (trimString s))) :=
    asciiChunk_trimmed _ (lowerChunk_trimmed _ (trimString_trimmed s))
  rw [hP (processString s true true), hP s, trimString_of_trimmed _ htrim,
    mapChunks_lowerChunk_stable, mapChunks_asciiChunk_idem]

/-! ## Claims on missing bounds and documented examples -/

/-- C11 as stated fails: the replace whose four bounds are missing does not return the
target. `opcodes_apply_str` returns the source, and `opcodes_apply_vec` reads the target
at index -1. -/
theorem opcodes_apply_all_missing_not_target :
    opcodes_apply_str [⟨"replace", NA_INTEGER, NA_INTEGER, NA_INTEGER, NA_INTEGER⟩]
        (ascii "ab") (ascii "xy") = .value (ascii "ab") ∧
    opcodes_apply_str [⟨"replace", NA_INTEGER, NA_INTEGER, NA_INTEGER, NA_INTEGER⟩]
        (ascii "ab") (ascii "xy") ≠ .value (ascii "xy") ∧
    opcodes_apply_vec [⟨"replace", NA_INTEGER, NA_INTEGER, NA_INTEGER, NA_INTEGER⟩]
        (ascii "ab") (ascii "xy") = .undefined := by
  refine ⟨by decide, by decide, by decide⟩

/-- A missing bound and the position one past the end of the string give the same
index. -/
theorem resolve_missing_bound (x : Int) (len : Nat) (hlen : len < 2147483648) :
    (if (if x = NA_INTEGER then (len : Int) + 1 else x) ≠ NA_INTEGER then
        toSizeT (wrapInt ((if x = NA_INTEGER then (len : Int) + 1 else x) - 1))
      else len)
      = if x ≠ NA_INTEGER then toSizeT (wrapInt (x - 1)) else len := by
  by_cases hx : x = NA_INTEGER
  · have hne : ¬ ((len : Int) + 1 = NA_INTEGER) := by
      unfold NA_INTEGER
      omega
    simp only [hx, if_true, ne_eq, hne, not_false_eq_true, not_true_eq_false, if_false]
    unfold toSizeT wrapInt
    omega
  · simp only [hx, if_false]

/-- The row loop of `opcodes_apply_str` does the same on a row and on the row with its
missing bounds replaced by the positions one past the end. -/
theorem opcodesStrLoop_resolveMissing (s1 s2 : Str) (hs1 : s1.length < 2147483648)
    (hs2 : s2.length < 2147483648) (ops : List Opcode) (i pos : Nat) (result : Str) :
    opcodesStrLoop s1 s2 (ops.map (resolveMissing s1 s2)) i pos result
      = opcodesStrLoop s1 s2 ops i pos result := by
  induction ops generalizing i pos result with
  | nil => rfl
  | cons op rest ih =>
    rw [List.map_cons]
    unfold opcodesStrLoop
    unfold resolveMissing
    dsimp only
    rw [resolve_missing_bound op.src_begin s1.length hs1,
      resolve_missing_bound op.src_end s1.length hs1,
      resolve_missing_bound op.dest_begin s2.length hs2,
      resolve_missing_bound op.dest_end s2.length hs2]
    have hmap : ∀ i pos result,
        opcodesStrLoop s1 s2 (List.map (fun op : Opcode =>
          ({ type := op.type
             src_begin := if op.src_begin = NA_INTEGER then (s1.length : Int) + 1
               else op.src_begin
             src_end := if op.src_end = NA_INTEGER then (s1.length : Int) + 1
               else op.src_end
             dest_begin := if op.dest_begin = NA_INTEGER then (s2.length : Int) + 1
               else op.dest_begin
             dest_end := if op.dest_end = NA_INTEGER then (s2.length : Int) + 1
               else op.dest_end } : Opcode)) rest) i pos result
          = opcodesStrLoop s1 s2 rest i pos result := ih
    simp only [hmap]

/-- Claim C11, as amended. In `opcodes_apply_str` a missing bound acts as the length of
its string, a begin as well as an end, the source bounds with the length of `s1` and the
target bounds with the length of `s2`: for R strings `s1`, `s2` (fewer than `2^31` bytes
each) and every opcode list, the call does the same as on the list in which each missing
bound is replaced by the position one past the end of its string. On the single Replace
whose four bounds are all missing, the copy before the opcode takes the whole of `s1`
and leaves the cursor at its end, the copy of the target range appends nothing, the copy
after the opcode appends nothing, and the call returns exactly `s1`. -/
theorem opcodes_apply_str_all_missing (s1 s2 : Str) (hs1 : s1.length < 2147483648)
    (hs2 : s2.length < 2147483648) :
    (∀ ops, opcodes_apply_str ops s1 s2
      = opcodes_apply_str (ops.map (resolveMissing s1 s2)) s1 s2) ∧
    opcodesStrLoop s1 s2 [⟨"replace", NA_INTEGER, NA_INTEGER, NA_INTEGER, NA_INTEGER⟩] 0 0 []
      = .value (copyRest s1 s1.length (wrapSizeT (s1.length + 1))
          (appendRange s2 s2.length s2.length s2.length
            (copyUntil s1 s1.length s1.length 0 []).2)) ∧
    copyUntil s1 s1.length s1.length 0 [] = (s1.length, s1) ∧
    appendRange s2 s2.length s2.length s2.length s1 = s1 ∧
    copyRest s1 s1.length (wrapSizeT (s1.length + 1)) s1 = s1 ∧
    opcodes_apply_str [⟨"replace", NA_INTEGER, NA_INTEGER, NA_INTEGER, NA_INTEGER⟩] s1 s2
      = .value s1 := by
  have hk : ¬ ("replace" ≠ "replace" ∧ "replace" ≠ "insert" ∧ "replace" ≠ "delete") := by
    decide
  have hna : ¬ (NA_INTEGER ≠ NA_INTEGER) := by simp
  have hw : wrapSizeT (s1.length + 1) = s1.length + 1 := by
    unfold wrapSizeT
    omega
  have hloop : opcodesStrLoop s1 s2
      [⟨"replace", NA_INTEGER, NA_INTEGER, NA_INTEGER, NA_INTEGER⟩] 0 0 []
      = .value (copyRest s1 s1.length (wrapSizeT (s1.length + 1))
          (appendRange s2 s2.length s2.length s2.length
            (copyUntil s1 s1.length s1.length 0 []).2)) := by
    unfold opcodesStrLoop
    dsimp only
    simp only [if_neg hna, if_neg hk, if_true]
    unfold opcodesStrLoop
    rfl
  have hbefore : copyUntil s1 s1.length s1.length 0 [] = (s1.length, s1) := by
    rw [copyUntil_eq _ _ _ _ _ (by omega)]
    simp
  have htarget : appendRange s2 s2.length s2.length s2.length s1 = s1 := by
    rw [appendRange_eq _ _ _ _ _ (by omega)]
    have h2 : (s2.take (s2.length + 1)).drop s2.length = [] :=
      List.drop_eq_nil_of_le (by rw [List.length_take]; omega)
    rw [h2, List.append_nil]
  have hafter : copyRest s1 s1.length (wrapSizeT (s1.length + 1)) s1 = s1 := by
    rw [hw, copyRest_eq _ _ _ _ (by omega)]
    have h1 : s1.drop (s1.length + 1) = [] := List.drop_eq_nil_of_le (by omega)
    rw [h1, List.append_nil]
  refine ⟨?_, hloop, hbefore, htarget, hafter, ?_⟩
  · intro ops
    unfold opcodes_apply_str
    rw [List.length_map, opcodesStrLoop_resolveMissing s1 s2 hs1 hs2]
  · unfold opcodes_apply_str
    rw [if_neg (by simp), hloop, hbefore, htarget, hafter]

/-- Instance of C11 as amended: on `kitten` and `sitting` a Replace with a missing target
end does the same as the Replace up to the position 8, the position one past the end of
`sitting`, and the Replace whose four bounds are missing returns `kitten`. -/
theorem opcodes_apply_str_all_missing_witness :
    opcodes_apply_str [⟨"replace", 1, 6, 1, NA_INTEGER⟩] (ascii "kitten") (ascii "sitting")
      = opcodes_apply_str [⟨"replace", 1, 6, 1, 8⟩] (ascii "kitten") (ascii "sitting") ∧
    opcodes_apply_str [⟨"replace", 1, 6, 1, 8⟩] (ascii "kitten") (ascii "sitting")
      = .value (ascii "sitting") ∧
    opcodes_apply_str [⟨"replace", NA_INTEGER, NA_INTEGER, NA_INTEGER, NA_INTEGER⟩]
        (ascii "kitten") (ascii "sitting") = .value (ascii "kitten") :=
  ⟨(opcodes_apply_str_all_missing (ascii "kitten") (ascii "sitting") (by decide)
      (by decide)).1 [⟨"replace", 1, 6, 1, NA_INTEGER⟩],
    by decide,
    (opcodes_apply_str_all_missing (ascii "kitten") (ascii "sitting") (by decide)
      (by decide)).2.2.2.2.2⟩

/-- C12 (the code departs from the claim). With a missing source position
`editops_apply_vec` copies the whole source before the operation, and a replace or a
delete then sets the cursor to `-1 + 1 = 0`, so that the source is copied a second time:
on source "ab", target "x" and destination position 1 it returns the cells of "abxab"
for a replace and of "abab" for a delete; only the insert returns the cells of "abx". -/
theorem editops_apply_vec_missing_source_repeats :
    editops_apply_vec [⟨"replace", NA_INTEGER, 1⟩] (ascii "ab") (ascii "x")
      = .value (cells (ascii "abxab")) ∧
    editops_apply_vec [⟨"delete", NA_INTEGER, 1⟩] (ascii "ab") (ascii "x")
      = .value (cells (ascii "abab")) ∧
    editops_apply_vec [⟨"insert", NA_INTEGER, 1⟩] (ascii "ab") (ascii "x")
      = .value (cells (ascii "abx")) := by
  refine ⟨by decide, by decide, by decide⟩

/-- C14. Documented examples of the normalizer: for the UTF-8 input "  Éxâmple!  "
(two spaces on each side), `processString(input, true, true)` is "example!",
`processString(input, true, false)` is "éxâmple!", and `processString(input, false,
false)` is the input. -/
theorem processString_documented_examples :
    processString (utf8 "  Éxâmple!  ") true true = utf8 "example!" ∧
    processString (utf8 "  Éxâmple!  ") true false = utf8 "éxâmple!" ∧
    processString (utf8 "  Éxâmple!  ") false false = utf8 "  Éxâmple!  " := by
  refine ⟨by decide, by decide, by decide⟩

/-- C15 as stated fails: with only the transliteration on, the input "  Éxâmple!  " does
not come back as "Éxâmple!". -/
theorem processString_asciify_only_not_trimmed :
    processString (utf8 "  Éxâmple!  ") false true ≠ utf8 "Éxâmple!" := by
  decide

/-- C15, amended. For the UTF-8 input "  Éxâmple!  " (two spaces on each side),
`processString(input, false, true)` returns "  Example!  ": the accented letters are
replaced by their base letters, the case and the surrounding spaces are kept. -/
theorem processString_asciify_only_example :
    processString (utf8 "  Éxâmple!  ") false true = utf8 "  Example!  " := by
  decide


/-! ## The best match -/

/-- What the loop of `extract_best_match` returns from a state: the state itself when no
remaining candidate scores above `best_score`, and otherwise the first remaining
candidate with the largest score. -/
theorem bestMatchLoop_spec (similarity : Str → Rat → Rat) (score : Str → Rat)
    (processor : Bool) (hscore : ∀ x, 0 ≤ score x)
    (hsim : ∀ x cutoff, similarity x cutoff = if cutoff ≤ score x then score x else 0)
    (choices : List Str) (best_choice : Str) (best_score : Rat) :
    ((∀ c ∈ choices, score (processString c processor false) ≤ best_score) ∧
      bestMatchLoop similarity processor choices best_choice best_score
        = (best_choice, best_score)) ∨
    (∃ pre c post, choices = pre ++ c :: post ∧
      bestMatchLoop similarity processor choices best_choice best_score
        = (c, score (processString c processor false)) ∧
      best_score < score (processString c processor false) ∧
      (∀ x ∈ pre, score (processString x processor false)
        < score (processString c processor false)) ∧
      (∀ x ∈ post, score (processString x processor false)
        ≤ score (processString c processor false))) := by
  induction choices generalizing best_choice best_score with
  | nil => exact Or.inl ⟨by simp, rfl⟩
  | cons x rest ih =>
    have hupd : similarity (processString x processor false) best_score > best_score ↔
        best_score < score (processString x processor false) := by
      rw [hsim]
      split
      · exact Iff.rfl
      · rename_i hlt
        have h0 := hscore (processString x processor false)
        constructor
        · intro h
          exact absurd (le_of_lt (lt_of_lt_of_le h h0)) hlt
        · intro h
          exact absurd (le_of_lt h) hlt
    unfold bestMatchLoop
    dsimp only
    by_cases hx : best_score < score (processString x processor false)
    · rw [if_pos (hupd.mpr hx)]
      have hval : similarity (processString x processor false) best_score
          = score (processString x processor false) := by
        rw [hsim, if_pos (le_of_lt hx)]
      rw [hval]
      right
      rcases ih x (score (processString x processor false)) with ⟨hall, hres⟩ |
        ⟨pre, c, post, hsplit, hres, hlt, hpre, hpost⟩
      · exact ⟨[], x, rest, rfl, hres, hx, by simp, hall⟩
      · refine ⟨x :: pre, c, post, by rw [hsplit]; rfl, hres, lt_trans hx hlt, ?_, hpost⟩
        intro y hy
        rcases List.mem_cons.mp hy with rfl | hy
        · exact hlt
        · exact hpre y hy
    · rw [if_neg (fun h => hx (hupd.mp h))]
      have hle : score (processString x processor false) ≤ best_score := not_lt.mp hx
      rcases ih best_choice best_score with ⟨hall, hres⟩ |
        ⟨pre, c, post, hsplit, hres, hlt, hpre, hpost⟩
      · left
        refine ⟨?_, hres⟩
        intro y hy
        rcases List.mem_cons.mp hy with rfl | hy
        · exact hle
        · exact hall y hy
      · right
        refine ⟨x :: pre, c, post, by rw [hsplit]; rfl, hres, hlt, ?_, hpost⟩
        intro y hy
        rcases List.mem_cons.mp hy with rfl | hy
        · exact lt_of_le_of_lt hle hlt
        · exact hpre y hy

/-- C20. `extract_best_match` returns the first best candidate above the cutoff: for a
scorer obeying the contract of the library, with `score c` the score of the normalized
candidate `c` against the normalized query, if some candidate scores strictly above the
cutoff then the result is the original text of the first candidate, in input order, that
attains the largest score, together with that score; if no candidate scores strictly
above the cutoff (the empty list included) the result is the empty choice with the
cutoff as score. -/
theorem extract_best_match_first_best (scorer : Str → Str → Rat → Rat)
    (raw : Str → Str → Rat) (hcontract : ScorerContract scorer raw)
    (query : Str) (choices : List Str) (score_cutoff : Rat) (processor : Bool) :
    ((∃ c ∈ choices, score_cutoff
        < raw (processString query processor false) (processString c processor false)) →
      ∃ pre c post, choices = pre ++ c :: post ∧
        extract_best_match scorer query choices score_cutoff processor
          = (c, raw (processString query processor false) (processString c processor false)) ∧
        score_cutoff
          < raw (processString query processor false) (processString c processor false) ∧
        (∀ x ∈ pre, raw (processString query processor false) (processString x processor false)
          < raw (processString query processor false) (processString c processor false)) ∧
        (∀ x ∈ post, raw (processString query processor false) (processString x processor false)
          ≤ raw (processString query processor false) (processString c processor false))) ∧
    ((∀ c ∈ choices,
        raw (processString query processor false) (processString c processor false)
          ≤ score_cutoff) →
      extract_best_match scorer query choices score_cutoff processor = ([], score_cutoff)) := by
  have hspec := bestMatchLoop_spec (scorer (processString query processor false))
    (raw (processString query processor false)) processor
    (hcontract.1 _) (hcontract.2 _) choices [] score_cutoff
  constructor
  · rintro ⟨c, hc, hlt⟩
    rcases hspec with ⟨hall, -⟩ | hex
    · exact absurd hlt (not_lt.mpr (hall c hc))
    · exact hex
  · intro hall
    rcases hspec with ⟨-, hres⟩ | ⟨pre, c, post, hsplit, -, hlt, -, -⟩
    · exact hres
    · exact absurd hlt (not_lt.mpr (hall c (by rw [hsplit]; simp)))

/-- Instance of C20: two candidates with the same score give the earlier one, and a
cutoff that no candidate exceeds gives no match. -/
theorem extract_best_match_first_best_witness :
    extract_best_match (fun _ _ cutoff => if cutoff ≤ 90 then 90 else 0)
        (ascii "abc") [ascii "abc", ascii "abd"] 50 true = (ascii "abc", 90) ∧
    extract_best_match (fun _ _ cutoff => if cutoff ≤ 90 then 90 else 0)
        (ascii "abc") [ascii "abc", ascii "abd"] 95 true = ([], 95) := by
  have hcontract : ScorerContract (fun _ _ cutoff => if cutoff ≤ 90 then 90 else 0)
      (fun _ _ => 90) := ⟨fun _ _ => by norm_num, fun _ _ _ => rfl⟩
  have h := extract_best_match_first_best _ _ hcontract (ascii "abc")
    [ascii "abc", ascii "abd"] 50 true
  have h2 := extract_best_match_first_best _ _ hcontract (ascii "abc")
    [ascii "abc", ascii "abd"] 95 true
  constructor
  · obtain ⟨pre, c, post, hsplit, hres, -, hpre, -⟩ :=
      h.1 ⟨ascii "abc", by simp, by norm_num⟩
    cases pre with
    | nil =>
      have hc : ascii "abc" = c := by
        have := congrArg List.head? hsplit
        simpa using this
      rw [hres, ← hc]
    | cons y pre1 => exact absurd (hpre y (by simp)) (lt_irrefl _)
  · exact h2.2 (fun _ _ => by norm_num)


/-! ## Well-formed UTF-8 -/

theorem land_of_land (c m v m2 : Nat) (h : c &&& m = v) (hm : m &&& m2 = m2) :
    c &&& m2 = v &&& m2 := by
  rw [← h, Nat.land_assoc, hm]

/-- A well-formed character is exactly one sequence of `toLower` and `toASCII`. -/
theorem IsUtf8Char.chunk {ch : Str} (h : IsUtf8Char ch) :
    ∃ c t, ch = c :: t ∧ t.length = chunkLength c - 1 := by
  match ch, h with
  | [c], h =>
    refine ⟨c, [], rfl, ?_⟩
    have h1 : c &&& 0x80 = 0 := h
    unfold chunkLength
    rw [if_neg (by simp [h1])]
    rfl
  | [c1, c2], h =>
    refine ⟨c1, [c2], rfl, ?_⟩
    have h1 : c1 &&& 0xE0 = 0xC0 := h.1
    have h80 : c1 &&& 0x80 = 0x80 := land_of_land c1 0xE0 0xC0 0x80 h1 (by decide)
    unfold chunkLength sequenceLength
    rw [if_pos (by rw [h80]; decide), if_pos h1]
    rfl
  | [c1, c2, c3], h =>
    refine ⟨c1, [c2, c3], rfl, ?_⟩
    have h1 : c1 &&& 0xF0 = 0xE0 := h.1
    have h80 : c1 &&& 0x80 = 0x80 := land_of_land c1 0xF0 0xE0 0x80 h1 (by decide)
    have hE0 : c1 &&& 0xE0 = 0xE0 := land_of_land c1 0xF0 0xE0 0xE0 h1 (by decide)
    unfold chunkLength sequenceLength
    rw [if_pos (by rw [h80]; decide), if_neg (by rw [hE0]; decide), if_pos h1]
    rfl
  | [c1, c2, c3, c4], h =>
    refine ⟨c1, [c2, c3, c4], rfl, ?_⟩
    have h1 : c1 &&& 0xF8 = 0xF0 := h.1
    have h80 : c1 &&& 0x80 = 0x80 := land_of_land c1 0xF8 0xF0 0x80 h1 (by decide)
    have hE0 : c1 &&& 0xE0 = 0xE0 := land_of_land c1 0xF8 0xF0 0xE0 h1 (by decide)
    have hF0 : c1 &&& 0xF0 = 0xF0 := land_of_land c1 0xF8 0xF0 0xF0 h1 (by decide)
    unfold chunkLength sequenceLength
    rw [if_pos (by rw [h80]; decide), if_neg (by rw [hE0]; decide),
      if_neg (by rw [hF0]; decide), if_pos h1]
    rfl

/-- A well-formed character is an ASCII byte, or a byte with the high bit set followed
by continuation bytes; only a character of two bytes can start with `0xC3` or `0xC5`. -/
theorem IsUtf8Char.shape {ch : Str} (h : IsUtf8Char ch) :
    (∃ c, ch = [c] ∧ c &&& 0x80 = 0) ∨
    (∃ c t, ch = c :: t ∧ t ≠ [] ∧ c &&& 0x80 ≠ 0 ∧ (∀ b ∈ t, IsContinuation b) ∧
      (t.length = 1 ∨ (c ≠ 0xC3 ∧ c ≠ 0xC5))) := by
  match ch, h with
  | [c], h => exact Or.inl ⟨c, rfl, h⟩
  | [c1, c2], h =>
    have h80 : c1 &&& 0x80 = 0x80 := land_of_land c1 0xE0 0xC0 0x80 h.1 (by decide)
    refine Or.inr ⟨c1, [c2], rfl, by simp, by rw [h80]; decide, ?_, Or.inl rfl⟩
    intro b hb
    have : b = c2 := by simpa using hb
    exact this ▸ h.2
  | [c1, c2, c3], h =>
    have h1 : c1 &&& 0xF0 = 0xE0 := h.1
    have h80 : c1 &&& 0x80 = 0x80 := land_of_land c1 0xF0 0xE0 0x80 h1 (by decide)
    refine Or.inr ⟨c1, [c2, c3], rfl, by simp, by rw [h80]; decide, ?_, Or.inr ⟨?_, ?_⟩⟩
    · intro b hb
      simp only [List.mem_cons, List.mem_singleton, List.not_mem_nil, or_false] at hb
      rcases hb with rfl | rfl
      · exact h.2.1
      · exact h.2.2
    · rintro rfl
      revert h1
      decide
    · rintro rfl
      revert h1
      decide
  | [c1, c2, c3, c4], h =>
    have h1 : c1 &&& 0xF8 = 0xF0 := h.1
    have h80 : c1 &&& 0x80 = 0x80 := land_of_land c1 0xF8 0xF0 0x80 h1 (by decide)
    refine Or.inr ⟨c1, [c2, c3, c4], rfl, by simp, by rw [h80]; decide, ?_, Or.inr ⟨?_, ?_⟩⟩
    · intro b hb
      simp only [List.mem_cons, List.mem_singleton, List.not_mem_nil, or_false] at hb
      rcases hb with rfl | rfl | rfl
      · exact h.2.1
      · exact h.2.2.1
      · exact h.2.2.2
    · rintro rfl
      revert h1
      decide
    · rintro rfl
      revert h1
      decide

theorem isSpace_cases {b : Nat} (h : IsSpace b) : b = 32 ∨ b = 9 ∨ b = 10 ∨ b = 13 := by
  unfold IsSpace whitespace at h
  simpa using h

theorem not_isSpace_of_high {c : Nat} (h : c &&& 0x80 ≠ 0) : ¬ IsSpace c := by
  intro hs
  rcases isSpace_cases hs with rfl | rfl | rfl | rfl <;> exact h (by decide)

theorem not_upper_of_high {c : Nat} (h : c &&& 0x80 ≠ 0) : ¬ IsUpperAscii c := by
  rintro ⟨h1, h2⟩
  apply h
  interval_cases c <;> rfl

theorem IsContinuation.high {b : Nat} (h : IsContinuation b) : b &&& 0x80 ≠ 0 := by
  have h80 : b &&& 0x80 = 0x80 := land_of_land b 0xC0 0x80 0x80 h (by decide)
  rw [h80]
  decide

theorem IsContinuation.not_lead {b : Nat} (h : IsContinuation b) : b ≠ 0xC3 ∧ b ≠ 0xC5 := by
  constructor <;>
  · rintro rfl
    revert h
    decide

/-- On a well-formed string the sequences of `toLower` and `toASCII` are the
characters. -/
theorem mapChunks_flatten (f : Str → Str) (chars : List Str)
    (hchars : ∀ ch ∈ chars, IsUtf8Char ch) :
    mapChunks f chars.flatten = (chars.map f).flatten := by
  induction chars with
  | nil => exact mapChunks_nil f
  | cons ch rest ih =>
    obtain ⟨c, t, rfl, ht⟩ := (hchars ch (List.mem_cons_self _ _)).chunk
    rw [List.flatten_cons, mapChunks_append_chunk f c t _ (Or.inl ht),
      ih (fun x hx => hchars x (List.mem_cons_of_mem _ hx))]
    rfl

theorem exists_affix_split {α : Type} (P : α → Prop) (l : List α) :
    ∃ p t q, l = p ++ t ++ q ∧ (∀ b ∈ p, P b) ∧ (∀ b ∈ q, P b) ∧
      (∀ b ∈ t.head?, ¬ P b) ∧ (∀ b ∈ t.getLast?, ¬ P b) := by
  have hfront : ∀ s : List α, ∃ p r, s = p ++ r ∧ (∀ b ∈ p, P b) ∧
      ∀ b ∈ r.head?, ¬ P b := by
    intro s
    induction s with
    | nil => exact ⟨[], [], rfl, by simp, by simp⟩
    | cons c rest ih =>
      by_cases hc : P c
      · obtain ⟨p, r, hs, hp, hr⟩ := ih
        refine ⟨c :: p, r, by rw [hs]; rfl, ?_, hr⟩
        intro b hb
        rcases List.mem_cons.mp hb with rfl | hb
        · exact hc
        · exact hp b hb
      · refine ⟨[], c :: rest, rfl, by simp, ?_⟩
        intro b hb
        have : c = b := by simpa using hb
        exact this ▸ hc
  have hback : ∀ r : List α, ∃ t q, r = t ++ q ∧ (∀ b ∈ q, P b) ∧
      ∀ b ∈ t.getLast?, ¬ P b := by
    intro r
    induction r using List.reverseRecOn with
    | nil => exact ⟨[], [], rfl, by simp, by simp⟩
    | append_singleton rest c ih =>
      by_cases hc : P c
      · obtain ⟨t, q, hs, hq, ht⟩ := ih
        refine ⟨t, q ++ [c], by rw [hs]; simp, ?_, ht⟩
        intro b hb
        rcases List.mem_append.mp hb with hb | hb
        · exact hq b hb
        · have : b = c := by simpa using hb
          exact this ▸ hc
      · refine ⟨rest ++ [c], [], by simp, by simp, ?_⟩
        intro b hb
        have : c = b := by simpa using hb
        exact this ▸ hc
  obtain ⟨p, r, hs, hp, hr⟩ := hfront l
  obtain ⟨t, q, hrt, hq, ht⟩ := hback r
  refine ⟨p, t, q, by rw [hs, hrt, List.append_assoc], hp, hq, ?_, ht⟩
  intro b hb
  apply hr b
  cases t with
  | nil => cases hb
  | cons a t1 =>
    rw [hrt]
    exact hb

theorem flatten_spaceChars (l : List Str) (h : ∀ ch ∈ l, IsSpaceChar ch) :
    ∀ b ∈ l.flatten, IsSpace b := by
  intro b hb
  obtain ⟨ch, hch, hbch⟩ := List.mem_flatten.mp hb
  obtain ⟨b1, hb1, rfl⟩ := h ch hch
  have : b = b1 := by simpa using hbch
  exact this ▸ hb1

/-- The first byte of a well-formed character that is not a whitespace character is not
whitespace, and neither is its last byte. -/
theorem IsUtf8Char.not_space_ends {ch : Str} (h : IsUtf8Char ch) (hns : ¬ IsSpaceChar ch) :
    (∀ b ∈ ch.head?, ¬ IsSpace b) ∧ (∀ b ∈ ch.getLast?, ¬ IsSpace b) := by
  rcases h.shape with ⟨c, rfl, -⟩ | ⟨c, t, rfl, htne, hc, hcont, -⟩
  · have hc : ¬ IsSpace c := fun hs => hns ⟨c, hs, rfl⟩
    constructor <;>
    · intro b hb
      have : c = b := by simpa using hb
      exact this ▸ hc
  · constructor
    · intro b hb
      have : c = b := by simpa using hb
      exact this ▸ not_isSpace_of_high hc
    · intro b hb
      have hbt : b ∈ t := by
        rw [show c :: t = [c] ++ t from rfl, List.getLast?_append_of_ne_nil _ htne] at hb
        exact List.mem_of_mem_getLast? hb
      exact not_isSpace_of_high (hcont b hbt).high

/-- On a well-formed string `trimString` removes whole characters: whitespace characters
in front and at the back. -/
theorem trimString_flatten (chars : List Str) (hchars : ∀ ch ∈ chars, IsUtf8Char ch) :
    ∃ front kept back, chars = front ++ kept ++ back ∧ (∀ ch ∈ front, IsSpaceChar ch) ∧
      (∀ ch ∈ back, IsSpaceChar ch) ∧ trimString chars.flatten = kept.flatten := by
  obtain ⟨front, kept, back, hsplit, hfront, hback, hhead, hlast⟩ :=
    exists_affix_split IsSpaceChar chars
  refine ⟨front, kept, back, hsplit, hfront, hback, ?_⟩
  have hkept : ∀ ch ∈ kept, IsUtf8Char ch := fun ch hch =>
    hchars ch (by rw [hsplit]; simp [hch])
  have htrimmed : Trimmed kept.flatten := by
    constructor
    · cases kept with
      | nil => intro b hb; cases hb
      | cons k ks =>
        obtain ⟨c, t, rfl, -⟩ := (hkept k (List.mem_cons_self _ _)).chunk
        intro b hb
        exact ((hkept _ (List.mem_cons_self _ _)).not_space_ends (hhead _ rfl)).1 b hb
    · rcases List.eq_nil_or_concat kept with rfl | ⟨ks, k, hcat⟩
      · intro b hb; cases hb
      · rw [List.concat_eq_append] at hcat
        subst hcat
        have hk : IsUtf8Char k := hkept k (by simp)
        obtain ⟨c, t, hct, -⟩ := hk.chunk
        have hkne : k ≠ [] := by rw [hct]; simp
        intro b hb
        rw [List.flatten_append, List.flatten_singleton,
          List.getLast?_append_of_ne_nil _ hkne] at hb
        exact (hk.not_space_ends (hlast k (by simp))).2 b hb
  rw [hsplit, List.flatten_append, List.flatten_append]
  exact trimString_append _ _ _ (flatten_spaceChars front hfront)
    (flatten_spaceChars back hback) htrimmed

theorem lookup_ne_of_none (tbl : List (Str × Str)) (k : Str) (h : tbl.lookup k = none) :
    ∀ p ∈ tbl, p.1 ≠ k := by
  induction tbl with
  | nil => intro p hp; cases hp
  | cons q rest ih =>
    obtain ⟨qk, qv⟩ := q
    rw [List.lookup_cons] at h
    by_cases hk : k == qk
    · rw [hk] at h
      cases h
    · have hk2 : (k == qk) = false := by simpa using hk
      rw [hk2] at h
      intro p hp
      rcases List.mem_cons.mp hp with rfl | hp
      · intro heq
        apply hk
        simp only at heq
        simp [heq]
      · exact ih h p hp

theorem case_map_values : ∀ p ∈ utf8_case_map,
    IsUtf8Char p.2 ∧ p.2.length = 2 ∧ (∀ b ∈ p.2, ¬ IsUpperAscii b) ∧
      (∀ b ∈ p.2.tail, b ≠ 0xC3 ∧ b ≠ 0xC5) ∧ utf8_case_map.lookup p.2 = none := by
  decide

theorem case_map_values_valid : ∀ p ∈ utf8_case_map, IsUtf8Char p.2 ∧ LowerChar p.2 := by
  intro p hp
  obtain ⟨h1, h2, h3, h4, h5⟩ := case_map_values p hp
  refine ⟨h1, h3, ?_, ?_⟩
  · match hv : p.2, h2 with
    | [d1, d2], _ =>
      rw [List.chain'_pair]
      rw [hv] at h5
      exact lookup_ne_of_none _ _ h5
  · match hv : p.2, h2 with
    | [d1, d2], _ =>
      intro b hb
      have hb2 : d2 = b := by simpa using hb
      rw [hv] at h4
      exact hb2 ▸ h4 d2 (by simp)

theorem case_map_keys_lead : ∀ p ∈ utf8_case_map,
    p.1.head? = some 0xC3 ∨ p.1.head? = some 0xC5 := by
  decide

theorem accents_values_valid : ∀ p ∈ accents, IsUtf8Char p.2 := by decide

/-- The lowercase image of a well-formed character is a well-formed character. -/
theorem IsUtf8Char.lower_valid {ch : Str} (h : IsUtf8Char ch) : IsUtf8Char (lowerChunk ch) := by
  rcases h.shape with ⟨c, rfl, hc⟩ | ⟨c, t, rfl, -, hc, -, -⟩
  · rw [lowerChunk_low c [] (by simp [hc])]
    exact tolower_ascii c hc
  · rw [lowerChunk_high c t hc]
    cases hl : utf8_case_map.lookup (c :: t) with
    | none => rw [replaceBy_none hl]; exact h
    | some v =>
      rw [replaceBy_some hl]
      exact (case_map_values_valid _ (lookup_mem _ _ _ hl)).1

/-- The base letter of a well-formed character is a well-formed character. -/
theorem IsUtf8Char.ascii_valid {ch : Str} (h : IsUtf8Char ch) : IsUtf8Char (asciiChunk ch) := by
  cases hl : accents.lookup ch with
  | none => rw [show asciiChunk ch = ch from replaceBy_none hl]; exact h
  | some v =>
    rw [show asciiChunk ch = v from replaceBy_some hl]
    exact accents_values_valid _ (lookup_mem _ _ _ hl)

theorem IsUtf8Char.image_valid {ch : Str} (h : IsUtf8Char ch) (processor asciify : Bool) :
    IsUtf8Char (charImage processor asciify ch) := by
  cases processor <;> cases asciify
  · exact h
  · exact h.ascii_valid
  · exact h.lower_valid
  · exact h.lower_valid.ascii_valid

/-- On a well-formed string `processString` works character by character: it drops
whitespace characters in front and at the back when `processor` is set, and replaces
every other character by its image. -/
theorem processString_flatten (chars : List Str) (hchars : ∀ ch ∈ chars, IsUtf8Char ch)
    (processor asciify : Bool) :
    ∃ front kept back, chars = front ++ kept ++ back ∧
      (∀ ch ∈ front ++ back, processor = true ∧ IsSpaceChar ch) ∧
      processString chars.flatten processor asciify
        = (kept.map (charImage processor asciify)).flatten := by
  have hascii : ∀ l : List Str, (∀ ch ∈ l, IsUtf8Char ch) →
      toASCII l.flatten = (l.map asciiChunk).flatten := by
    intro l hl
    rw [toASCII_eq, mapChunks_flatten _ l hl]
  cases processor with
  | false =>
    refine ⟨[], chars, [], by simp, by simp, ?_⟩
    cases asciify with
    | false =>
      show chars.flatten = _
      have : chars.map (charImage false false) = chars := by
        rw [show charImage false false = id from rfl, List.map_id]
      rw [this]
    | true =>
      show toASCII chars.flatten = _
      rw [hascii chars hchars]
      rfl
  | true =>
    obtain ⟨front, kept, back, hsplit, hfront, hback, htrim⟩ := trimString_flatten chars hchars
    have hkept : ∀ ch ∈ kept, IsUtf8Char ch := fun ch hch =>
      hchars ch (by rw [hsplit]; simp [hch])
    refine ⟨front, kept, back, hsplit, ?_, ?_⟩
    · intro ch hch
      rcases List.mem_append.mp hch with h | h
      · exact ⟨rfl, hfront ch h⟩
      · exact ⟨rfl, hback ch h⟩
    · have hlower : toLower (trimString chars.flatten) = (kept.map lowerChunk).flatten := by
        rw [htrim, toLower_eq, mapChunks_flatten _ kept hkept]
      cases asciify with
      | false =>
        show toLower (trimString chars.flatten) = _
        rw [hlower]
        rfl
      | true =>
        show toASCII (toLower (trimString chars.flatten)) = _
        rw [hlower, hascii]
        · rw [List.map_map]
          rfl
        · intro ch hch
          obtain ⟨k, hk, rfl⟩ := List.mem_map.mp hch
          exact (hkept k hk).lower_valid

/-! ## Lowercasing of a well-formed string -/

theorem notUpperKey_of_not_lead {a : Nat} (b : Nat) (h : a ≠ 0xC3 ∧ a ≠ 0xC5) :
    NotUpperKey a b := by
  intro p hp heq
  have hlead := case_map_keys_lead p hp
  rw [heq] at hlead
  rcases hlead with h1 | h1
  · exact h.1 (by simpa using h1)
  · exact h.2 (by simpa using h1)

theorem chain_of_not_lead (l : Str) (h : ∀ b ∈ l, b ≠ 0xC3 ∧ b ≠ 0xC5) :
    List.Chain' NotUpperKey l := by
  induction l with
  | nil => exact List.chain'_nil
  | cons a rest ih =>
    rw [List.chain'_cons']
    exact ⟨fun y _ => notUpperKey_of_not_lead y (h a (List.mem_cons_self _ _)),
      ih (fun b hb => h b (List.mem_cons_of_mem _ hb))⟩

theorem not_lead_of_ascii {a : Nat} (h : a &&& 0x80 = 0) : a ≠ 0xC3 ∧ a ≠ 0xC5 := by
  constructor <;>
  · rintro rfl
    revert h
    decide

theorem lowerChar_single {a : Nat} (h : a &&& 0x80 = 0) (hu : ¬ IsUpperAscii a) :
    LowerChar [a] := by
  refine ⟨?_, List.chain'_singleton a, ?_⟩
  · intro b hb
    have : b = a := by simpa using hb
    exact this ▸ hu
  · intro b hb
    have : a = b := by simpa using hb
    exact this ▸ not_lead_of_ascii h

theorem tolower_not_upper (c : Nat) : ¬ IsUpperAscii (tolower c) := by
  unfold tolower IsUpperAscii
  split_ifs <;> omega

/-- A well-formed character of several bytes that has no entry in the case table has no
uppercase letter. -/
theorem lowerChar_of_no_entry (c : Nat) (t : Str) (htne : t ≠ []) (hc : c &&& 0x80 ≠ 0)
    (hcont : ∀ b ∈ t, IsContinuation b) (hlen : t.length = 1 ∨ (c ≠ 0xC3 ∧ c ≠ 0xC5))
    (hl : utf8_case_map.lookup (c :: t) = none) : LowerChar (c :: t) := by
  refine ⟨?_, ?_, ?_⟩
  · intro b hb
    rcases List.mem_cons.mp hb with rfl | hb
    · exact not_upper_of_high hc
    · exact not_upper_of_high (hcont b hb).high
  · rw [List.chain'_cons']
    refine ⟨?_, chain_of_not_lead t (fun b hb => (hcont b hb).not_lead)⟩
    intro y hy
    rcases hlen with h1 | h1
    · match t, h1, hy with
      | [y1], _, hy =>
        have : y1 = y := by simpa using hy
        subst this
        exact lookup_ne_of_none _ _ hl
    · exact notUpperKey_of_not_lead y h1
  · intro b hb
    rw [show c :: t = [c] ++ t from rfl, List.getLast?_append_of_ne_nil _ htne] at hb
    exact (hcont b (List.mem_of_mem_getLast? hb)).not_lead

/-- The lowercase image of a well-formed character has no uppercase letter. -/
theorem lowerChar_lowerChunk {ch : Str} (h : IsUtf8Char ch) : LowerChar (lowerChunk ch) := by
  rcases h.shape with ⟨c, rfl, hc⟩ | ⟨c, t, rfl, htne, hc, hcont, hlen⟩
  · rw [lowerChunk_low c [] (by simp [hc])]
    exact lowerChar_single (tolower_ascii c hc) (tolower_not_upper c)
  · rw [lowerChunk_high c t hc]
    cases hl : utf8_case_map.lookup (c :: t) with
    | none =>
      rw [replaceBy_none hl]
      exact lowerChar_of_no_entry c t htne hc hcont hlen hl
    | some v =>
      rw [replaceBy_some hl]
      exact (case_map_values_valid _ (lookup_mem _ _ _ hl)).2

/-- The base letter of a character without uppercase letter has no uppercase letter. -/
theorem lowerChar_asciiChunk {ch : Str} (h : LowerChar ch) : LowerChar (asciiChunk ch) := by
  rcases asciiChunk_cases ch with ⟨hself, -⟩ | ⟨a, ha, hascii, -, hlen, hlow⟩
  · rw [hself]
    exact h
  · rw [ha]
    have hnone : utf8_case_map.lookup ch = none := by
      match ch, hlen, h with
      | [k1, k2], _, h =>
        apply lookup_eq_none
        exact List.chain'_pair.mp h.2.1
    have hfix := hlow hnone
    apply lowerChar_single hascii
    intro hu
    unfold tolower at hfix
    unfold IsUpperAscii at hu
    rw [if_pos hu] at hfix
    omega

theorem lowerChar_flatten (l : List Str) (h : ∀ ch ∈ l, LowerChar ch) :
    (∀ b ∈ l.flatten, ¬ IsUpperAscii b) ∧ List.Chain' NotUpperKey l.flatten := by
  induction l with
  | nil => exact ⟨by simp, List.chain'_nil⟩
  | cons ch rest ih =>
    obtain ⟨ih1, ih2⟩ := ih (fun x hx => h x (List.mem_cons_of_mem _ hx))
    obtain ⟨h1, h2, h3⟩ := h ch (List.mem_cons_self _ _)
    rw [List.flatten_cons]
    constructor
    · intro b hb
      rcases List.mem_append.mp hb with hb | hb
      · exact h1 b hb
      · exact ih1 b hb
    · exact List.Chain'.append h2 ih2 (fun x hx y _ => notUpperKey_of_not_lead y (h3 x hx))

/-- C17 as stated fails on byte strings that are not UTF-8: a lead byte takes the bytes
after it into its sequence whatever they are, and a sequence without entry in the case
table is copied as it is. The sequence `C3 41` keeps its "A", and the sequence
`E0 C3 80` keeps the bytes `C3 80` of "À". -/
theorem processString_keeps_uppercase_in_malformed :
    processString [0xC3, 0x41] true false = [0xC3, 0x41] ∧
    processString [0xC3, 0x41] true true = [0xC3, 0x41] ∧
    IsUpperAscii 0x41 ∧
    ¬ (∀ b ∈ processString [0xC3, 0x41] true false, ¬ IsUpperAscii b) ∧
    processString [0xE0, 0xC3, 0x80] true false = [0xE0, 0xC3, 0x80] ∧
    utf8 "À" <:+: processString [0xE0, 0xC3, 0x80] true false := by
  refine ⟨by decide, by decide, by decide, by decide, by decide, ?_⟩
  exact ⟨[0xE0], [], by decide⟩

/-- C17, amended. Lowercasing reaches every alphabetic character of a well-formed
string: for every well-formed UTF-8 input `s` and either value of `asciify`, the output
of `processString(s, true, asciify)` contains no ASCII uppercase letter `A`..`Z` and no
uppercase accented letter of the case table. -/
theorem processString_lowercases_valid_utf8 (s : Str) (hs : ValidUtf8 s) (asciify : Bool) :
    (∀ b ∈ processString s true asciify, ¬ IsUpperAscii b) ∧
    (∀ p ∈ utf8_case_map, ¬ p.1 <:+: processString s true asciify) := by
  obtain ⟨chars, hchars, rfl⟩ := hs
  obtain ⟨front, kept, back, hsplit, -, hres⟩ := processString_flatten chars hchars true asciify
  have hkept : ∀ ch ∈ kept, IsUtf8Char ch := fun ch hch =>
    hchars ch (by rw [hsplit]; simp [hch])
  have himg : ∀ x ∈ kept.map (charImage true asciify), LowerChar x := by
    intro x hx
    obtain ⟨k, hk, rfl⟩ := List.mem_map.mp hx
    cases asciify with
    | false => exact lowerChar_lowerChunk (hkept k hk)
    | true => exact lowerChar_asciiChunk (lowerChar_lowerChunk (hkept k hk))
  obtain ⟨h1, h2⟩ := lowerChar_flatten _ himg
  rw [hres]
  refine ⟨h1, ?_⟩
  intro p hp hinfix
  have hlen := (case_map_entries p hp).1
  match hk : p.1, hlen, hinfix with
  | [k1, k2], _, hinfix =>
    have hpair : List.Chain' NotUpperKey [k1, k2] := List.Chain'.infix h2 hinfix
    exact List.chain'_pair.mp hpair p hp hk

/-- Instance of C17 as amended: the documented input. -/
theorem processString_lowercases_valid_utf8_witness :
    (∀ b ∈ processString (utf8 "  ÉXÂMPLE Ÿ!  ") true false, ¬ IsUpperAscii b) ∧
    (∀ p ∈ utf8_case_map, ¬ p.1 <:+: processString (utf8 "  ÉXÂMPLE Ÿ!  ") true false) :=
  processString_lowercases_valid_utf8 (utf8 "  ÉXÂMPLE Ÿ!  ")
    ⟨[[32], [32], [0xC3, 0x89], [88], [0xC3, 0x82], [77], [80], [76], [69], [32],
      [0xC5, 0xB8], [33], [32], [32]], by decide, by decide⟩ false

/-! ## Characters are handled as a whole -/

/-- Counterexample to C19: with both flags the character É comes out as `e`, which is
not the character, not its lowercase image é under the case table and not its base
letter `E` under the accent table; and with the transliteration alone the two bytes of
É are replaced by the one byte `E`. -/
theorem processString_base_letter_of_lowercase :
    IsUtf8Char (utf8 "É") ∧
    processString (utf8 "É") true true = utf8 "e" ∧
    lowerChunk (utf8 "É") = utf8 "é" ∧
    asciiChunk (utf8 "É") = utf8 "E" ∧
    utf8 "e" ≠ utf8 "É" ∧ utf8 "e" ≠ utf8 "é" ∧ utf8 "e" ≠ utf8 "E" ∧
    processString (utf8 "É") false true = [69] ∧ utf8 "É" = [0xC3, 0x89] := by
  refine ⟨by decide, by decide, by decide, by decide, by decide, by decide, by decide,
    by decide, by decide⟩

/-- Claim C19, as amended. Characters are handled as a whole: for every well-formed UTF-8
input (the concatenation of the well-formed characters `chars`) and every combination
of the two flags, `processString` returns a well-formed UTF-8 string, made of the images
of the characters of the input in their order, the whitespace characters that the
trimming removes in front and at the back apart (none without `processor`). The image of
a character is a well-formed character: the character itself, its lowercase image
(`std::tolower` of an ASCII byte, the entry of the case table otherwise), or the base
letter that the accent table gives for the character or, when both flags are set, for
its lowercase image. A character of several bytes without entry in the two tables is
its own image: none of its bytes is removed, changed or separated from the others; a
character with an entry is replaced as a whole by the entry. -/
theorem processString_handles_characters_atomically (chars : List Str)
    (hchars : ∀ ch ∈ chars, IsUtf8Char ch) (processor asciify : Bool) :
    ValidUtf8 (processString chars.flatten processor asciify) ∧
    ∃ front kept back, chars = front ++ kept ++ back ∧
      (∀ ch ∈ front ++ back, processor = true ∧ IsSpaceChar ch) ∧
      processString chars.flatten processor asciify
        = (kept.map (charImage processor asciify)).flatten ∧
      (∀ ch ∈ kept, IsUtf8Char (charImage processor asciify ch) ∧
        (charImage processor asciify ch = ch ∨
          charImage processor asciify ch = lowerChunk ch ∨
          charImage processor asciify ch = asciiChunk ch ∨
          charImage processor asciify ch = asciiChunk (lowerChunk ch))) ∧
      (∀ ch ∈ kept, 2 ≤ ch.length → utf8_case_map.lookup ch = none →
        accents.lookup ch = none → charImage processor asciify ch = ch) := by
  obtain ⟨front, kept, back, hsplit, hdrop, hres⟩ :=
    processString_flatten chars hchars processor asciify
  have hkept : ∀ ch ∈ kept, IsUtf8Char ch := fun ch hch =>
    hchars ch (by rw [hsplit]; simp [hch])
  have hvalid : ∀ x ∈ kept.map (charImage processor asciify), IsUtf8Char x := by
    intro x hx
    obtain ⟨k, hk, rfl⟩ := List.mem_map.mp hx
    exact (hkept k hk).image_valid processor asciify
  refine ⟨⟨_, hvalid, hres.symm⟩, front, kept, back, hsplit, hdrop, hres, ?_, ?_⟩
  · intro ch hch
    refine ⟨(hkept ch hch).image_valid processor asciify, ?_⟩
    cases processor <;> cases asciify
    · exact Or.inl rfl
    · exact Or.inr (Or.inr (Or.inl rfl))
    · exact Or.inr (Or.inl rfl)
    · exact Or.inr (Or.inr (Or.inr rfl))
  · intro ch hch hlen hcase hacc
    have hlow : lowerChunk ch = ch := by
      rcases (hkept ch hch).shape with ⟨c, rfl, -⟩ | ⟨c, t, rfl, -, hc, -, -⟩
      · simp at hlen
      · rw [lowerChunk_high c t hc]
        exact replaceBy_none hcase
    have hasc : asciiChunk ch = ch := replaceBy_none hacc
    cases processor <;> cases asciify
    · rfl
    · exact hasc
    · exact hlow
    · show asciiChunk (lowerChunk ch) = ch
      rw [hlow, hasc]

/-- Instance of C19: the characters of " Éx€ " under both flags. -/
theorem processString_handles_characters_atomically_witness :
    ValidUtf8 (processString (utf8 " Éx€ ") true true) ∧
    processString (utf8 " Éx€ ") true true = utf8 "ex€" :=
  ⟨(processString_handles_characters_atomically
      [[32], [0xC3, 0x89], [0x78], [0xE2, 0x82, 0xAC], [32]] (by decide) true true).1,
    by decide⟩


/-! ## All matches -/

/-- The loop of `extract_similar_strings` appends, in input order, the candidates whose
returned score is at least the cutoff. -/
theorem similarLoop_eq (similarity : Str → Rat → Rat) (score_cutoff : Rat)
    (processor : Bool) (choices : List Str) (rows : List (Str × Rat)) :
    similarLoop similarity score_cutoff processor choices rows
      = rows ++ (choices.filter fun c =>
          decide (score_cutoff ≤ similarity (processString c processor false) score_cutoff)).map
          fun c => (c, similarity (processString c processor false) score_cutoff) := by
  induction choices generalizing rows with
  | nil => simp [similarLoop]
  | cons x rest ih =>
    unfold similarLoop
    dsimp only
    by_cases h : similarity (processString x processor false) score_cutoff ≥ score_cutoff
    · rw [if_pos h, ih, List.filter_cons_of_pos (by simpa using h)]
      simp
    · rw [if_neg h, ih, List.filter_cons_of_neg (by simpa using h)]

/-- Under the contract, a candidate passes the test of `extract_similar_strings` exactly
when its score is at least the cutoff, and the score returned is then its score. -/
theorem contract_keep (scorer : Str → Str → Rat → Rat) (raw : Str → Str → Rat)
    (hcontract : ScorerContract scorer raw) (q x : Str) (cutoff : Rat) :
    (cutoff ≤ scorer q x cutoff ↔ cutoff ≤ raw q x) ∧
      (cutoff ≤ raw q x → scorer q x cutoff = raw q x) := by
  have h0 := hcontract.1 q x
  rw [hcontract.2 q x cutoff]
  by_cases h : cutoff ≤ raw q x
  · simp [h]
  · rw [if_neg h]
    exact ⟨⟨fun h1 => absurd (le_trans h1 h0) h, fun h1 => absurd h1 h⟩,
      fun h1 => absurd h1 h⟩

/-- Under the contract, the rows of `extract_similar_strings` are the candidates of
score at least the cutoff, in input order, each with its score. -/
theorem extract_similar_strings_raw (scorer : Str → Str → Rat → Rat)
    (raw : Str → Str → Rat) (hcontract : ScorerContract scorer raw) (query : Str)
    (choices : List Str) (score_cutoff : Rat) (processor : Bool) :
    extract_similar_strings scorer query choices score_cutoff processor
      = (choices.filter fun c => decide (score_cutoff ≤
          raw (processString query processor false) (processString c processor false))).map
          fun c => (c, raw (processString query processor false)
            (processString c processor false)) := by
  unfold extract_similar_strings
  dsimp only
  rw [similarLoop_eq, List.nil_append]
  have hfilter : (choices.filter fun c => decide (score_cutoff ≤
        scorer (processString query processor false) (processString c processor false)
          score_cutoff))
      = choices.filter fun c => decide (score_cutoff ≤
          raw (processString query processor false) (processString c processor false)) := by
    apply List.filter_congr
    intro c _
    exact decide_eq_decide.mpr (contract_keep scorer raw hcontract _ _ _).1
  rw [hfilter]
  apply List.map_congr_left
  intro c hc
  have hkeep := (List.mem_filter.mp hc).2
  rw [(contract_keep scorer raw hcontract _ _ _).2 (by simpa using hkeep)]

/-- Claim C21: `extract_similar_strings` is a filter in input order. For every scorer,
query, candidate list, cutoff and flag the rows are the candidates whose returned score
is at least the cutoff, in input order with repetitions kept, each row made of the
original text and that score; an empty candidate list gives no row; and for a scorer
under the contract the test and the score are those of the score of the pair of
normalized strings. -/
theorem extract_similar_strings_is_filter (scorer : Str → Str → Rat → Rat) (query : Str)
    (choices : List Str) (score_cutoff : Rat) (processor : Bool) :
    extract_similar_strings scorer query choices score_cutoff processor
      = ((choices.filter fun c => decide (score_cutoff ≤
          scorer (processString query processor false) (processString c processor false)
            score_cutoff)).map
          fun c => (c, scorer (processString query processor false)
            (processString c processor false) score_cutoff)) ∧
    extract_similar_strings scorer query [] score_cutoff processor = [] ∧
    ∀ raw, ScorerContract scorer raw →
      extract_similar_strings scorer query choices score_cutoff processor
        = (choices.filter fun c => decide (score_cutoff ≤
            raw (processString query processor false) (processString c processor false))).map
            fun c => (c, raw (processString query processor false)
              (processString c processor false)) := by
  refine ⟨?_, rfl, fun raw hcontract =>
    extract_similar_strings_raw scorer raw hcontract query choices score_cutoff processor⟩
  unfold extract_similar_strings
  dsimp only
  rw [similarLoop_eq, List.nil_append]

/-- Instance of C21: of three candidates the two that reach the cutoff are returned in
input order with their original text, and the empty list gives no row. -/
theorem extract_similar_strings_is_filter_witness :
    extract_similar_strings
        (fun _ x cutoff => if cutoff ≤ (x.length : Rat) then (x.length : Rat) else 0)
        (ascii "q") [ascii " ABC ", ascii "a", ascii "abcd"] 3 true
      = [(ascii " ABC ", 3), (ascii "abcd", 4)] ∧
    extract_similar_strings
        (fun _ x cutoff => if cutoff ≤ (x.length : Rat) then (x.length : Rat) else 0)
        (ascii "q") [] 3 true = [] := by
  have hcontract : ScorerContract
      (fun _ x cutoff => if cutoff ≤ (x.length : Rat) then (x.length : Rat) else 0)
      (fun _ x => (x.length : Rat)) := ⟨fun _ x => Nat.cast_nonneg _, fun _ _ _ => rfl⟩
  have h := extract_similar_strings_is_filter
    (fun _ x cutoff => if cutoff ≤ (x.length : Rat) then (x.length : Rat) else 0) (ascii "q")
    [ascii " ABC ", ascii "a", ascii "abcd"] 3 true
  refine ⟨?_, rfl⟩
  rw [h.2.2 _ hcontract]
  decide

/-- Claim C26: cutoff monotonicity. For a scorer under the contract and two cutoffs
`c1 ≤ c2`, the rows of `extract_similar_strings` for `c2` are a sub-sequence of the rows
for `c1`, so they are at most as many. -/
theorem extract_similar_strings_cutoff_monotone (scorer : Str → Str → Rat → Rat)
    (raw : Str → Str → Rat) (hcontract : ScorerContract scorer raw) (query : Str)
    (choices : List Str) (c1 c2 : Rat) (hle : c1 ≤ c2) (processor : Bool) :
    (extract_similar_strings scorer query choices c2 processor).Sublist
        (extract_similar_strings scorer query choices c1 processor) ∧
    (extract_similar_strings scorer query choices c2 processor).length
      ≤ (extract_similar_strings scorer query choices c1 processor).length := by
  have hsub : (extract_similar_strings scorer query choices c2 processor).Sublist
      (extract_similar_strings scorer query choices c1 processor) := by
    rw [extract_similar_strings_raw scorer raw hcontract,
      extract_similar_strings_raw scorer raw hcontract]
    apply List.Sublist.map
    have hfilter : (choices.filter fun c => decide (c2 ≤
          raw (processString query processor false) (processString c processor false)))
        = (choices.filter fun c => decide (c1 ≤
            raw (processString query processor false)
              (processString c processor false))).filter
            fun c => decide (c2 ≤
              raw (processString query processor false)
                (processString c processor false)) := by
      rw [List.filter_filter]
      apply List.filter_congr
      intro c _
      by_cases h2 : c2 ≤ raw (processString query processor false)
          (processString c processor false)
      · simp [h2, le_trans hle h2]
      · simp [h2]
    rw [hfilter]
    exact List.filter_sublist _
  exact ⟨hsub, hsub.length_le⟩

/-- Instance of C26: with the cutoffs 3 and 4 the rows for 4 are a part of the rows
for 3. -/
theorem extract_similar_strings_cutoff_monotone_witness :
    (3 : Rat) ≤ 4 ∧
    (extract_similar_strings
        (fun _ x cutoff => if cutoff ≤ (x.length : Rat) then (x.length : Rat) else 0)
        (ascii "q") [ascii "abc", ascii "a", ascii "abcd"] 4 true).Sublist
      (extract_similar_strings
        (fun _ x cutoff => if cutoff ≤ (x.length : Rat) then (x.length : Rat) else 0)
        (ascii "q") [ascii "abc", ascii "a", ascii "abcd"] 3 true) :=
  ⟨by norm_num,
    (extract_similar_strings_cutoff_monotone _ (fun _ x => (x.length : Rat))
      ⟨fun _ x => Nat.cast_nonneg _, fun _ _ _ => rfl⟩ (ascii "q")
      [ascii "abc", ascii "a", ascii "abcd"] 3 4 (by norm_num) true).1⟩

/-! ## The top matches -/

/-- A recognized scorer name selects the function it stands for. -/
theorem selectedSimilarity_recognized (WRatio ratio partial_ratio : Str → Str → Rat)
    (scorer : String) (hname : Recognized scorer) (q c : Str) :
    selectedSimilarity WRatio ratio partial_ratio scorer q c
      = some (scoreByName WRatio ratio partial_ratio scorer q c) := by
  unfold selectedSimilarity scoreByName
  rcases hname with h | h | h <;> subst h <;> simp

/-- Any other scorer name ends the chain of comparisons in `Rcpp::stop`. -/
theorem selectedSimilarity_unknown (WRatio ratio partial_ratio : Str → Str → Rat)
    (scorer : String) (hname : ¬ Recognized scorer) (q c : Str) :
    selectedSimilarity WRatio ratio partial_ratio scorer q c = none := by
  unfold selectedSimilarity
  unfold Recognized at hname
  rw [if_neg (fun h => hname (Or.inl h)), if_neg (fun h => hname (Or.inr (Or.inl h))),
    if_neg (fun h => hname (Or.inr (Or.inr h)))]

/-- With a recognized scorer the loop of `extract_matches` appends, in input order, the
candidates whose score is at least the cutoff. -/
theorem matchesLoop_eq (WRatio ratio partial_ratio : Str → Str → Rat) (q : Str)
    (score_cutoff : Rat) (processor : Bool) (scorer : String) (hname : Recognized scorer)
    (choices : List Str) (results : List (Str × Rat)) :
    matchesLoop WRatio ratio partial_ratio q score_cutoff processor scorer choices results
      = .value (results ++ matchingRows (scoreByName WRatio ratio partial_ratio scorer q)
          score_cutoff processor choices) := by
  induction choices generalizing results with
  | nil => simp [matchesLoop, matchingRows]
  | cons x rest ih =>
    unfold matchesLoop
    dsimp only
    rw [selectedSimilarity_recognized _ _ _ _ hname]
    dsimp only
    by_cases h : scoreByName WRatio ratio partial_ratio scorer q
        (processString x processor false) ≥ score_cutoff
    · rw [if_pos h, ih]
      unfold matchingRows
      rw [List.filter_cons_of_pos (by simpa using h)]
      simp
    · rw [if_neg h, ih]
      unfold matchingRows
      rw [List.filter_cons_of_neg (by simpa using h)]

/-- With a scorer name that is not recognized the loop stops at the first candidate, and
it ends without an error when there is no candidate. -/
theorem matchesLoop_unknown (WRatio ratio partial_ratio : Str → Str → Rat) (q : Str)
    (score_cutoff : Rat) (processor : Bool) (scorer : String) (hname : ¬ Recognized scorer)
    (choices : List Str) (results : List (Str × Rat)) :
    matchesLoop WRatio ratio partial_ratio q score_cutoff processor scorer choices results
      = if choices = [] then .value results else .error "Invalid scorer specified." := by
  cases choices with
  | nil => rfl
  | cons x rest =>
    unfold matchesLoop
    dsimp only
    rw [selectedSimilarity_unknown _ _ _ _ hname]
    simp

/-- With a recognized scorer `extract_matches` returns the sorted matching rows, cut to
the first `limit` rows when `limit` is positive. -/
theorem extract_matches_eq (sort : List (Str × Rat) → List (Str × Rat))
    (WRatio ratio partial_ratio : Str → Str → Rat) (query : Str) (choices : List Str)
    (score_cutoff : Rat) (limit : Int) (processor : Bool) (scorer : String)
    (hname : Recognized scorer) :
    extract_matches sort WRatio ratio partial_ratio query choices score_cutoff limit
        processor scorer
      = .value (if 0 < limit then
          (sort (matchingRows (scoreByName WRatio ratio partial_ratio scorer
            (processString query processor false)) score_cutoff processor choices)).take
            limit.toNat
        else sort (matchingRows (scoreByName WRatio ratio partial_ratio scorer
            (processString query processor false)) score_cutoff processor choices)) := by
  unfold extract_matches
  dsimp only
  rw [matchesLoop_eq _ _ _ _ _ _ _ hname, List.nil_append]
  dsimp only
  by_cases hl : 0 < limit
  · rw [if_pos hl]
    split
    · rfl
    · next hcut =>
      rw [List.take_of_length_le]
      have hcut1 : ¬ (sort (matchingRows (scoreByName WRatio ratio partial_ratio scorer
            (processString query processor false)) score_cutoff processor choices)).length
          > limit.toNat := fun h => hcut ⟨hl, h⟩
      exact not_lt.mp hcut1
  · rw [if_neg hl, if_neg (fun h => hl h.1)]

/-- The sort by insertion meets the contract of `std::sort`. -/
theorem stdSort_insertion : StdSort sortKeepingTies := by
  have htotal : IsTotal (Str × Rat) (fun a b => a.2 ≥ b.2) := ⟨fun a b => le_total b.2 a.2⟩
  have htrans : IsTrans (Str × Rat) (fun a b => a.2 ≥ b.2) :=
    ⟨fun a b c hab hbc => le_trans hbc hab⟩
  intro rows
  exact ⟨List.perm_insertionSort _ rows,
    List.Pairwise.imp (fun h => not_lt.mpr h)
      (List.sorted_insertionSort (fun a b : Str × Rat => a.2 ≥ b.2) rows)⟩

/-- The rows kept by the truncation are a sub-sequence of the sorted rows. -/
theorem topRows_sublist (sorted : List (Str × Rat)) (limit : Int) :
    (if 0 < limit then sorted.take limit.toNat else sorted).Sublist sorted := by
  split
  · exact List.take_sublist _ _
  · exact List.Sublist.refl _

/-- The rows of the instance of C22, and of the same call with the limit 1. -/
theorem extract_matches_example :
    extract_matches sortKeepingTies (fun _ _ => 0) (fun _ x => (x.length : Rat))
        (fun _ _ => 0) (ascii "q") [ascii "a", ascii "abc", ascii "ab"] 2 3 true "Ratio"
      = .value [(ascii "abc", 3), (ascii "ab", 2)] ∧
    extract_matches sortKeepingTies (fun _ _ => 0) (fun _ x => (x.length : Rat))
        (fun _ _ => 0) (ascii "q") [ascii "a", ascii "abc", ascii "ab"] 2 1 true "Ratio"
      = .value [(ascii "abc", 3)] := by
  decide

/-- Claim C23: `extract_matches` truncates to the limit and only then. For a sort under
the contract of `std::sort` and a recognized scorer, with `q` the number of candidates
whose score is at least the cutoff, the sorted list is a rearrangement of these `q`
rows, the result is its first `limit` rows when `limit` is positive and the whole of it
otherwise, the result has `min(limit, q)` rows when `limit` is positive and `q` rows
otherwise, and no dropped row has a score greater than the score of a kept row. -/
theorem extract_matches_truncates (sort : List (Str × Rat) → List (Str × Rat))
    (hsort : StdSort sort) (WRatio ratio partial_ratio : Str → Str → Rat) (query : Str)
    (choices : List Str) (score_cutoff : Rat) (limit : Int) (processor : Bool)
    (scorer : String) (hname : Recognized scorer) :
    ∃ sorted rows,
      sorted.Perm (matchingRows (scoreByName WRatio ratio partial_ratio scorer
        (processString query processor false)) score_cutoff processor choices) ∧
      sorted.Pairwise (fun a b => b.2 ≤ a.2) ∧
      extract_matches sort WRatio ratio partial_ratio query choices score_cutoff
        limit processor scorer = .value rows ∧
      rows = (if 0 < limit then sorted.take limit.toNat else sorted) ∧
      (rows.length : Int) = (if 0 < limit then
          min limit (choices.countP fun c => decide (score_cutoff ≤
            scoreByName WRatio ratio partial_ratio scorer
              (processString query processor false) (processString c processor false)))
        else choices.countP fun c => decide (score_cutoff ≤
            scoreByName WRatio ratio partial_ratio scorer
              (processString query processor false) (processString c processor false))) ∧
      ∀ k ∈ rows, ∀ d ∈ (if 0 < limit then sorted.drop limit.toNat else []), d.2 ≤ k.2 := by
  obtain ⟨hperm, hpair⟩ := hsort (matchingRows (scoreByName WRatio ratio partial_ratio scorer
    (processString query processor false)) score_cutoff processor choices)
  have hpair1 : (sort (matchingRows (scoreByName WRatio ratio partial_ratio scorer
      (processString query processor false)) score_cutoff processor choices)).Pairwise
      (fun a b => b.2 ≤ a.2) := hpair.imp fun h => not_lt.mp h
  have hlen : (sort (matchingRows (scoreByName WRatio ratio partial_ratio scorer
        (processString query processor false)) score_cutoff processor choices)).length
      = choices.countP fun c => decide (score_cutoff ≤
          scoreByName WRatio ratio partial_ratio scorer
            (processString query processor false) (processString c processor false)) := by
    rw [hperm.length_eq, List.countP_eq_length_filter]
    unfold matchingRows
    rw [List.length_map]
  refine ⟨_, _, hperm, hpair1, extract_matches_eq sort WRatio ratio partial_ratio query
    choices score_cutoff limit processor scorer hname, rfl, ?_, ?_⟩
  · by_cases hl : 0 < limit
    · rw [if_pos hl, if_pos hl, List.length_take, hlen]
      omega
    · rw [if_neg hl, if_neg hl, hlen]
  · by_cases hl : 0 < limit
    · rw [if_pos hl, if_pos hl]
      intro k hk d hd
      have hsplit := List.take_append_drop limit.toNat (sort (matchingRows (scoreByName
        WRatio ratio partial_ratio scorer (processString query processor false))
        score_cutoff processor choices))
      rw [← hsplit] at hpair1
      exact (List.pairwise_append.mp hpair1).2.2 k hk d hd
    · rw [if_neg hl, if_neg hl]
      intro k _ d hd
      exact absurd hd (List.not_mem_nil d)

/-- Instance of C23: three candidates of scores 1, 3 and 2 with the cutoff 1 and the
limit 2 give two rows. -/
theorem extract_matches_truncates_witness :
    StdSort sortKeepingTies ∧ Recognized "Ratio" ∧
    ∃ sorted rows,
      sorted.Perm (matchingRows (scoreByName (fun _ _ => 0) (fun _ x => (x.length : Rat))
        (fun _ _ => 0) "Ratio" (processString (ascii "q") true false)) 1 true
        [ascii "a", ascii "abc", ascii "ab"]) ∧
      sorted.Pairwise (fun a b => b.2 ≤ a.2) ∧
      extract_matches sortKeepingTies (fun _ _ => 0) (fun _ x => (x.length : Rat))
        (fun _ _ => 0) (ascii "q") [ascii "a", ascii "abc", ascii "ab"] 1 2 true "Ratio"
        = .value rows ∧
      rows = (if (0 : Int) < 2 then sorted.take (2 : Int).toNat else sorted) ∧
      (rows.length : Int) = (if (0 : Int) < 2 then
          min (2 : Int) ([ascii "a", ascii "abc", ascii "ab"].countP fun c =>
            decide ((1 : Rat) ≤ scoreByName (fun _ _ => 0) (fun _ x => (x.length : Rat))
              (fun _ _ => 0) "Ratio" (processString (ascii "q") true false)
              (processString c true false)))
        else [ascii "a", ascii "abc", ascii "ab"].countP fun c =>
            decide ((1 : Rat) ≤ scoreByName (fun _ _ => 0) (fun _ x => (x.length : Rat))
              (fun _ _ => 0) "Ratio" (processString (ascii "q") true false)
              (processString c true false))) ∧
      ∀ k ∈ rows, ∀ d ∈ (if (0 : Int) < 2 then sorted.drop (2 : Int).toNat else []),
        d.2 ≤ k.2 :=
  ⟨stdSort_insertion, by decide,
    extract_matches_truncates sortKeepingTies stdSort_insertion (fun _ _ => 0)
      (fun _ x => (x.length : Rat)) (fun _ _ => 0) (ascii "q")
      [ascii "a", ascii "abc", ascii "ab"] 1 2 true "Ratio" (by decide)⟩

/-- Claim C24, as amended: the order of the top matches is by score only. For a sort
under the contract of `std::sort` and a recognized scorer, of two rows of the result
with different scores the one of greater score stands first, and the rows dropped by
the truncation, which with the kept rows make up the rows that match, have scores at
most those of the kept rows. The order of rows of equal score, and which of them are
kept, is what the sort leaves. -/
theorem extract_matches_order_by_score_only (sort : List (Str × Rat) → List (Str × Rat))
    (hsort : StdSort sort) (WRatio ratio partial_ratio : Str → Str → Rat) (query : Str)
    (choices : List Str) (score_cutoff : Rat) (limit : Int) (processor : Bool)
    (scorer : String) (hname : Recognized scorer) :
    ∃ rows, extract_matches sort WRatio ratio partial_ratio query choices score_cutoff
        limit processor scorer = .value rows ∧
      (∀ pre a mid b post, rows = pre ++ a :: (mid ++ b :: post) → a.2 ≠ b.2 → b.2 < a.2) ∧
      ∃ dropped,
        (rows ++ dropped).Perm (matchingRows (scoreByName WRatio ratio partial_ratio scorer
          (processString query processor false)) score_cutoff processor choices) ∧
        ∀ k ∈ rows, ∀ d ∈ dropped, d.2 ≤ k.2 := by
  obtain ⟨hperm, hpair⟩ := hsort (matchingRows (scoreByName WRatio ratio partial_ratio scorer
    (processString query processor false)) score_cutoff processor choices)
  have hpair1 : (sort (matchingRows (scoreByName WRatio ratio partial_ratio scorer
      (processString query processor false)) score_cutoff processor choices)).Pairwise
      (fun a b => b.2 ≤ a.2) := hpair.imp fun h => not_lt.mp h
  have hsub := topRows_sublist (sort (matchingRows (scoreByName WRatio ratio partial_ratio
    scorer (processString query processor false)) score_cutoff processor choices)) limit
  refine ⟨_, extract_matches_eq sort WRatio ratio partial_ratio query choices score_cutoff
    limit processor scorer hname, ?_, ?_⟩
  · intro pre a mid b post hsplit hne
    have hrows := hpair1.sublist hsub
    rw [hsplit] at hrows
    have hab : b.2 ≤ a.2 :=
      List.rel_of_pairwise_cons (List.pairwise_append.mp hrows).2.1 (by simp)
    exact lt_of_le_of_ne hab (Ne.symm hne)
  · by_cases hl : 0 < limit
    · refine ⟨(sort (matchingRows (scoreByName WRatio ratio partial_ratio scorer
        (processString query processor false)) score_cutoff processor choices)).drop
        limit.toNat, ?_, ?_⟩
      · rw [if_pos hl, List.take_append_drop]
        exact hperm
      · rw [if_pos hl]
        intro k hk d hd
        have hsplit := List.take_append_drop limit.toNat (sort (matchingRows (scoreByName
          WRatio ratio partial_ratio scorer (processString query processor false))
          score_cutoff processor choices))
        rw [← hsplit] at hpair1
        exact (List.pairwise_append.mp hpair1).2.2 k hk d hd
    · refine ⟨[], ?_, fun k _ d hd => absurd hd (List.not_mem_nil d)⟩
      rw [if_neg hl, List.append_nil]
      exact hperm

/-- Instance of the amended C24, at two candidates of equal score and the limit 1. -/
theorem extract_matches_order_by_score_only_witness :
    StdSort sortKeepingTies ∧ Recognized "WRatio" ∧
    ∃ rows, extract_matches sortKeepingTies (fun _ _ => 90) (fun _ _ => 0) (fun _ _ => 0)
        (ascii "q") [ascii "a", ascii "b"] 50 1 true "WRatio" = .value rows ∧
      (∀ pre a mid b post, rows = pre ++ a :: (mid ++ b :: post) → a.2 ≠ b.2 → b.2 < a.2) ∧
      ∃ dropped,
        (rows ++ dropped).Perm (matchingRows (scoreByName (fun _ _ => 90) (fun _ _ => 0)
          (fun _ _ => 0) "WRatio" (processString (ascii "q") true false)) 50 true
          [ascii "a", ascii "b"]) ∧
        ∀ k ∈ rows, ∀ d ∈ dropped, d.2 ≤ k.2 :=
  ⟨stdSort_insertion, by decide,
    extract_matches_order_by_score_only sortKeepingTies stdSort_insertion
      (fun _ _ => 90) (fun _ _ => 0) (fun _ _ => 0) (ascii "q") [ascii "a", ascii "b"] 50 1
      true "WRatio" (by decide)⟩

/-- Counterexample to C24, with `std::sort` of the GNU C++ library. The query `abc` and
seventeen candidates that all normalize to `abc`, so that each has the score 100 of
equal strings: the sort returns the rows in the input positions 9, 17, 16, 15, 14, 13,
12, 11, 10, 1, 8, 7, 6, 5, 4, 3, 2, so that the ninth candidate stands before the first,
and with the limit 3 the rows kept are those of the candidates 9, 17 and 16, not of the
first three. -/
theorem extract_matches_ties_not_in_input_order :
    std_sort (fun a b : Str × Rat => decide (a.2 > b.2))
        ([ascii "abc", ascii "abC", ascii "aBc", ascii "aBC", ascii "Abc", ascii "AbC",
          ascii "ABc", ascii "ABC", ascii " abc", ascii " abC", ascii " aBc", ascii " aBC",
          ascii " Abc", ascii " AbC", ascii " ABc", ascii " ABC", ascii "abc "].map
          fun c => (c, 100))
      = some ([ascii " abc", ascii "abc ", ascii " ABC", ascii " ABc", ascii " AbC",
          ascii " Abc", ascii " aBC", ascii " aBc", ascii " abC", ascii "abc", ascii "ABC",
          ascii "ABc", ascii "AbC", ascii "Abc", ascii "aBC", ascii "aBc", ascii "abC"].map
          fun c => (c, 100)) ∧
    extract_matches sortGnu (fun q c => if q = c then 100 else 0) (fun _ _ => 0)
        (fun _ _ => 0) (ascii "abc")
        [ascii "abc", ascii "abC", ascii "aBc", ascii "aBC", ascii "Abc", ascii "AbC",
          ascii "ABc", ascii "ABC", ascii " abc", ascii " abC", ascii " aBc", ascii " aBC",
          ascii " Abc", ascii " AbC", ascii " ABc", ascii " ABC", ascii "abc "]
        50 20 true "WRatio"
      = .value ([ascii " abc", ascii "abc ", ascii " ABC", ascii " ABc", ascii " AbC",
          ascii " Abc", ascii " aBC", ascii " aBc", ascii " abC", ascii "abc", ascii "ABC",
          ascii "ABc", ascii "AbC", ascii "Abc", ascii "aBC", ascii "aBc", ascii "abC"].map
          fun c => (c, 100)) ∧
    extract_matches sortGnu (fun q c => if q = c then 100 else 0) (fun _ _ => 0)
        (fun _ _ => 0) (ascii "abc")
        [ascii "abc", ascii "abC", ascii "aBc", ascii "aBC", ascii "Abc", ascii "AbC",
          ascii "ABc", ascii "ABC", ascii " abc", ascii " abC", ascii " aBc", ascii " aBC",
          ascii " Abc", ascii " AbC", ascii " ABc", ascii " ABC", ascii "abc "]
        50 3 true "WRatio"
      = .value [(ascii " abc", 100), (ascii "abc ", 100), (ascii " ABC", 100)] := by
  refine ⟨by decide, by decide, by decide⟩

/-- Claim C25, the defect: the scorer name is tested inside the loop over the
candidates. A name that is not recognized stops the call with an error when there is a
candidate, for every query, cutoff, limit and flag; with the empty candidate list the
test is never reached and the call returns a result, the empty one. -/
theorem extract_matches_unknown_scorer_empty_list
    (WRatio ratio partial_ratio : Str → Str → Rat) (query : Str) (score_cutoff : Rat)
    (limit : Int) (processor : Bool) :
    extract_matches sortKeepingTies WRatio ratio partial_ratio query [] score_cutoff limit
        processor "Levenshtein" = .value [] ∧
    ∀ choice rest, extract_matches sortKeepingTies WRatio ratio partial_ratio query
        (choice :: rest) score_cutoff limit processor "Levenshtein"
      = .error "Invalid scorer specified." := by
  have hname : ¬ Recognized "Levenshtein" := by decide
  constructor
  · unfold extract_matches
    dsimp only
    rw [matchesLoop_unknown _ _ _ _ _ _ _ hname]
    simp [sortKeepingTies]
  · intro choice rest
    unfold extract_matches
    dsimp only
    rw [matchesLoop_unknown _ _ _ _ _ _ _ hname]
    simp

/-! ## The top matches among all matches -/

/-- Claim C27, as amended: the top matches are a bounded part of all matches. When the
plain weighted ratio is the score of the contract of the cached scorer, for every
integer `n` the call of `extract_matches` with the limit `n` and the scorer `WRatio`
returns rows that all occur in the result of `extract_similar_strings`, no more often
than there; it returns `min(n, m)` rows when `n` is positive and all `m` rows when `n`
is zero or negative, `m` being the number of rows of `extract_similar_strings`. -/
theorem extract_matches_within_similar_strings
    (sort : List (Str × Rat) → List (Str × Rat)) (hsort : StdSort sort)
    (scorer : Str → Str → Rat → Rat) (WRatio ratio partial_ratio : Str → Str → Rat)
    (hcontract : ScorerContract scorer WRatio) (query : Str) (choices : List Str)
    (score_cutoff : Rat) (n : Int) (processor : Bool) :
    ∃ rows, extract_matches sort WRatio ratio partial_ratio query choices score_cutoff n
        processor "WRatio" = .value rows ∧
      (∀ r ∈ rows, r ∈ extract_similar_strings scorer query choices score_cutoff processor) ∧
      rows.Subperm (extract_similar_strings scorer query choices score_cutoff processor) ∧
      (rows.length : Int) = (if 0 < n then
          min n (extract_similar_strings scorer query choices score_cutoff processor).length
        else (extract_similar_strings scorer query choices score_cutoff processor).length) := by
  have hall : extract_similar_strings scorer query choices score_cutoff processor
      = matchingRows (scoreByName WRatio ratio partial_ratio "WRatio"
          (processString query processor false)) score_cutoff processor choices := by
    rw [extract_similar_strings_raw scorer WRatio hcontract]
    rfl
  obtain ⟨hperm, -⟩ := hsort (matchingRows (scoreByName WRatio ratio partial_ratio "WRatio"
    (processString query processor false)) score_cutoff processor choices)
  have hsub := topRows_sublist (sort (matchingRows (scoreByName WRatio ratio partial_ratio
    "WRatio" (processString query processor false)) score_cutoff processor choices)) n
  rw [hall]
  refine ⟨_, extract_matches_eq sort WRatio ratio partial_ratio query choices score_cutoff
    n processor "WRatio" (Or.inl rfl), ?_, ?_, ?_⟩
  · intro r hr
    exact hperm.mem_iff.mp (hsub.subset hr)
  · exact hsub.subperm.trans hperm.subperm
  · by_cases hl : 0 < n
    · rw [if_pos hl, if_pos hl, List.length_take, hperm.length_eq]
      omega
    · rw [if_neg hl, if_neg hl, hperm.length_eq]

/-- Instance of the amended C27, at one candidate and the limit 0. -/
theorem extract_matches_within_similar_strings_witness :
    StdSort sortKeepingTies ∧
    ScorerContract (fun _ _ cutoff => if cutoff ≤ 90 then 90 else 0) (fun _ _ => 90) ∧
    ∃ rows, extract_matches sortKeepingTies (fun _ _ => 90) (fun _ _ => 0) (fun _ _ => 0)
        (ascii "q") [ascii "a"] 50 0 true "WRatio" = .value rows ∧
      (∀ r ∈ rows, r ∈ extract_similar_strings
        (fun _ _ cutoff => if cutoff ≤ 90 then 90 else 0) (ascii "q") [ascii "a"] 50 true) ∧
      rows.Subperm (extract_similar_strings
        (fun _ _ cutoff => if cutoff ≤ 90 then 90 else 0) (ascii "q") [ascii "a"] 50 true) ∧
      (rows.length : Int) = (if (0 : Int) < 0 then
          min (0 : Int) (extract_similar_strings
            (fun _ _ cutoff => if cutoff ≤ 90 then 90 else 0) (ascii "q") [ascii "a"] 50
            true).length
        else (extract_similar_strings
            (fun _ _ cutoff => if cutoff ≤ 90 then 90 else 0) (ascii "q") [ascii "a"] 50
            true).length) :=
  ⟨stdSort_insertion, ⟨fun _ _ => by norm_num, fun _ _ _ => rfl⟩,
    extract_matches_within_similar_strings sortKeepingTies stdSort_insertion
      (fun _ _ cutoff => if cutoff ≤ 90 then 90 else 0) (fun _ _ => 90) (fun _ _ => 0)
      (fun _ _ => 0) ⟨fun _ _ => by norm_num, fun _ _ _ => rfl⟩ (ascii "q") [ascii "a"] 50 0
      true⟩

/-- Counterexample to C27: with the limit 0 and one candidate of score 90 above the
cutoff 50, `extract_similar_strings` has one row, and `extract_matches` returns this one
row and not `min(0, 1) = 0` rows; with the limit -1 it returns the row as well. -/
theorem extract_matches_limit_zero_returns_all :
    extract_similar_strings (fun _ _ cutoff => if cutoff ≤ 90 then 90 else 0) (ascii "q")
        [ascii "a"] 50 true = [(ascii "a", 90)] ∧
    extract_matches sortKeepingTies (fun _ _ => 90) (fun _ _ => 0) (fun _ _ => 0)
        (ascii "q") [ascii "a"] 50 0 true "WRatio" = .value [(ascii "a", 90)] ∧
    extract_matches sortKeepingTies (fun _ _ => 90) (fun _ _ => 0) (fun _ _ => 0)
        (ascii "q") [ascii "a"] 50 (-1) true "WRatio" = .value [(ascii "a", 90)] ∧
    ([(ascii "a", (90 : Rat))].length : Int) ≠ min 0 ([(ascii "a", (90 : Rat))].length : Int) := by
  refine ⟨by decide, by decide, by decide, by decide⟩

/-! ## The best match among all matches -/

/-- The values of the running best score: they start at the given score, never fall
below it, never decrease, there is one per candidate and a last one, and the last one
is the score the loop ends with. -/
theorem bestScoreTrace_spec (similarity : Str → Rat → Rat) (processor : Bool)
    (choices : List Str) (best_choice : Str) (best_score : Rat) :
    (∀ b ∈ bestScoreTrace similarity processor choices best_score, best_score ≤ b) ∧
    (bestScoreTrace similarity processor choices best_score).Pairwise (fun a b => a ≤ b) ∧
    (bestScoreTrace similarity processor choices best_score).length = choices.length + 1 ∧
    (bestScoreTrace similarity processor choices best_score).getLast?
      = some (bestMatchLoop similarity processor choices best_choice best_score).2 := by
  induction choices generalizing best_choice best_score with
  | nil => simp [bestScoreTrace, bestMatchLoop]
  | cons x rest ih =>
    unfold bestScoreTrace bestMatchLoop
    dsimp only
    by_cases h : similarity (processString x processor false) best_score > best_score
    · rw [if_pos h, if_pos h]
      obtain ⟨hlow, hpair, hlen, hlast⟩ :=
        ih x (similarity (processString x processor false) best_score)
      refine ⟨?_, ?_, ?_, ?_⟩
      · intro b hb
        rcases List.mem_cons.mp hb with rfl | hb
        · exact le_refl _
        · exact le_trans (le_of_lt h) (hlow b hb)
      · exact List.pairwise_cons.mpr
          ⟨fun b hb => le_trans (le_of_lt h) (hlow b hb), hpair⟩
      · rw [List.length_cons, hlen, List.length_cons]
      · rw [List.getLast?_cons, hlast]
        rfl
    · rw [if_neg h, if_neg h]
      obtain ⟨hlow, hpair, hlen, hlast⟩ := ih best_choice best_score
      refine ⟨?_, ?_, ?_, ?_⟩
      · intro b hb
        rcases List.mem_cons.mp hb with rfl | hb
        · exact le_refl _
        · exact hlow b hb
      · exact List.pairwise_cons.mpr ⟨hlow, hpair⟩
      · rw [List.length_cons, hlen, List.length_cons]
      · rw [List.getLast?_cons, hlast]
        rfl

/-- Claim C28: the best match is consistent with all matches. For a scorer under the
contract, `extract_best_match` returns a score above the cutoff exactly when
`extract_similar_strings` has a row of score above the cutoff; its result is then the
first of the rows of `extract_similar_strings` that have the greatest score, and
otherwise the empty text with the cutoff; and the values of the running best score,
one passed to the scorer per candidate and the final one, never decrease, are never
below the cutoff, and end in the returned score. -/
theorem extract_best_match_consistent (scorer : Str → Str → Rat → Rat)
    (raw : Str → Str → Rat) (hcontract : ScorerContract scorer raw) (query : Str)
    (choices : List Str) (score_cutoff : Rat) (processor : Bool) :
    (score_cutoff < (extract_best_match scorer query choices score_cutoff processor).2 ↔
      ∃ r ∈ extract_similar_strings scorer query choices score_cutoff processor,
        score_cutoff < r.2) ∧
    ((∃ r ∈ extract_similar_strings scorer query choices score_cutoff processor,
        score_cutoff < r.2) →
      ∃ pre post, extract_similar_strings scorer query choices score_cutoff processor
          = pre ++ extract_best_match scorer query choices score_cutoff processor :: post ∧
        (∀ r ∈ pre, r.2 < (extract_best_match scorer query choices score_cutoff processor).2) ∧
        (∀ r ∈ post, r.2 ≤ (extract_best_match scorer query choices score_cutoff processor).2)) ∧
    ((¬ ∃ r ∈ extract_similar_strings scorer query choices score_cutoff processor,
        score_cutoff < r.2) →
      extract_best_match scorer query choices score_cutoff processor = ([], score_cutoff)) ∧
    (bestScoreTrace (scorer (processString query processor false)) processor choices
      score_cutoff).Pairwise (fun a b => a ≤ b) ∧
    (∀ b ∈ bestScoreTrace (scorer (processString query processor false)) processor choices
      score_cutoff, score_cutoff ≤ b) ∧
    (bestScoreTrace (scorer (processString query processor false)) processor choices
      score_cutoff).length = choices.length + 1 ∧
    (bestScoreTrace (scorer (processString query processor false)) processor choices
      score_cutoff).getLast?
      = some (extract_best_match scorer query choices score_cutoff processor).2 := by
  have htrace := bestScoreTrace_spec (scorer (processString query processor false))
    processor choices [] score_cutoff
  have hspec := bestMatchLoop_spec (scorer (processString query processor false))
    (raw (processString query processor false)) processor
    (hcontract.1 _) (hcontract.2 _) choices [] score_cutoff
  have hbest : extract_best_match scorer query choices score_cutoff processor
      = bestMatchLoop (scorer (processString query processor false)) processor choices []
          score_cutoff := rfl
  rw [extract_similar_strings_raw scorer raw hcontract, hbest]
  refine ⟨?_, ?_, ?_, htrace.2.1, htrace.1, htrace.2.2.1, htrace.2.2.2⟩
  · rcases hspec with ⟨hall, hres⟩ | ⟨pre, c, post, hsplit, hres, hlt, -, -⟩
    · rw [hres]
      constructor
      · intro h
        exact absurd h (lt_irrefl _)
      · rintro ⟨r, hr, hlt⟩
        obtain ⟨c, hc, rfl⟩ := List.mem_map.mp hr
        exact absurd hlt (not_lt.mpr (hall c (List.mem_filter.mp hc).1))
    · rw [hres]
      refine ⟨fun _ => ⟨_, List.mem_map.mpr ⟨c, List.mem_filter.mpr ⟨?_, ?_⟩, rfl⟩, hlt⟩,
        fun _ => hlt⟩
      · rw [hsplit]
        simp
      · simpa using le_of_lt hlt
  · intro _
    rcases hspec with ⟨hall, hres⟩ | ⟨pre, c, post, hsplit, hres, hlt, hpre, hpost⟩
    · rename_i hex
      obtain ⟨r, hr, hlt⟩ := hex
      obtain ⟨c, hc, rfl⟩ := List.mem_map.mp hr
      exact absurd hlt (not_lt.mpr (hall c (List.mem_filter.mp hc).1))
    · rw [hres]
      refine ⟨(pre.filter fun c => decide (score_cutoff ≤
          raw (processString query processor false) (processString c processor false))).map
          (fun c => (c, raw (processString query processor false)
            (processString c processor false))),
        (post.filter fun c => decide (score_cutoff ≤
          raw (processString query processor false) (processString c processor false))).map
          (fun c => (c, raw (processString query processor false)
            (processString c processor false))), ?_, ?_, ?_⟩
      · rw [hsplit, List.filter_append, List.filter_cons_of_pos (by simpa using le_of_lt hlt),
          List.map_append, List.map_cons]
      · intro r hr
        obtain ⟨x, hx, rfl⟩ := List.mem_map.mp hr
        exact hpre x (List.mem_filter.mp hx).1
      · intro r hr
        obtain ⟨x, hx, rfl⟩ := List.mem_map.mp hr
        exact hpost x (List.mem_filter.mp hx).1
  · intro hno
    rcases hspec with ⟨-, hres⟩ | ⟨pre, c, post, hsplit, -, hlt, -, -⟩
    · exact hres
    · exfalso
      apply hno
      refine ⟨_, List.mem_map.mpr ⟨c, List.mem_filter.mpr ⟨?_, ?_⟩, rfl⟩, hlt⟩
      · rw [hsplit]
        simp
      · simpa using le_of_lt hlt

/-- Instance of C28: of the candidates of scores 3, 1, 4 and 4 with the cutoff 2 the best
match is the first candidate of score 4, the rows of all matches are those of scores 3,
4 and 4, and the running best score takes the values 2, 3, 3, 4, 4. -/
theorem extract_best_match_consistent_witness :
    ScorerContract
      (fun _ x cutoff => if cutoff ≤ (x.length : Rat) then (x.length : Rat) else 0)
      (fun _ x => (x.length : Rat)) ∧
    extract_best_match
        (fun _ x cutoff => if cutoff ≤ (x.length : Rat) then (x.length : Rat) else 0)
        (ascii "q") [ascii "abc", ascii "a", ascii "abcd", ascii "abce"] 2 true
      = (ascii "abcd", 4) ∧
    extract_similar_strings
        (fun _ x cutoff => if cutoff ≤ (x.length : Rat) then (x.length : Rat) else 0)
        (ascii "q") [ascii "abc", ascii "a", ascii "abcd", ascii "abce"] 2 true
      = [(ascii "abc", 3), (ascii "abcd", 4), (ascii "abce", 4)] ∧
    bestScoreTrace
        ((fun _ x cutoff => if cutoff ≤ (x.length : Rat) then (x.length : Rat) else 0)
          (processString (ascii "q") true false)) true
        [ascii "abc", ascii "a", ascii "abcd", ascii "abce"] 2 = [2, 3, 3, 4, 4] ∧
    ((2 : Rat) < (extract_best_match
        (fun _ x cutoff => if cutoff ≤ (x.length : Rat) then (x.length : Rat) else 0)
        (ascii "q") [ascii "abc", ascii "a", ascii "abcd", ascii "abce"] 2 true).2 ↔
      ∃ r ∈ extract_similar_strings
        (fun _ x cutoff => if cutoff ≤ (x.length : Rat) then (x.length : Rat) else 0)
        (ascii "q") [ascii "abc", ascii "a", ascii "abcd", ascii "abce"] 2 true,
        (2 : Rat) < r.2) :=
  ⟨⟨fun _ x => Nat.cast_nonneg _, fun _ _ _ => rfl⟩, by decide, by decide, by decide,
    (extract_best_match_consistent
      (fun _ x cutoff => if cutoff ≤ (x.length : Rat) then (x.length : Rat) else 0)
      (fun _ x => (x.length : Rat)) ⟨fun _ x => Nat.cast_nonneg _, fun _ _ _ => rfl⟩
      (ascii "q") [ascii "abc", ascii "a", ascii "abcd", ascii "abce"] 2 true).1⟩

/-! ## Reads of `opcodes_apply_vec` -/

/-- Claim C29, the defect: `opcodes_apply_vec` starts the copy of the target range at
`dest_begin - 1`, or at -1 when `dest_begin` is missing, and tests the index against the
end of the range and the length of the target only. For every source and target (an R
string, fewer than `2^31` bytes), a first row Replace or Insert whose `dest_begin` is
missing or not positive and whose `dest_end` is missing or not negative makes the call
read the target at a negative index. -/
theorem opcodes_apply_vec_reads_before_target (op : Opcode) (rest : List Opcode)
    (s1 s2 : Str) (hs2 : s2.length < 2147483648)
    (htype : op.type = "replace" ∨ op.type = "insert")
    (hdb : op.dest_begin = NA_INTEGER ∨ (-2147483648 < op.dest_begin ∧ op.dest_begin ≤ 0))
    (hde : op.dest_end = NA_INTEGER ∨ (0 ≤ op.dest_end ∧ op.dest_end < 2147483648)) :
    opcodes_apply_vec (op :: rest) s1 s2 = .undefined := by
  have hlen : wrapInt s2.length = s2.length := by
    unfold wrapInt
    omega
  have hbegin : (if op.dest_begin ≠ NA_INTEGER then wrapInt (op.dest_begin - 1) else -1) < 0 ∧
      (if op.dest_begin ≠ NA_INTEGER then wrapInt (op.dest_begin - 1) else -1) ≤ -1 := by
    unfold NA_INTEGER wrapInt
    unfold NA_INTEGER at hdb
    split <;> omega
  have hend : -1 ≤ (if op.dest_end ≠ NA_INTEGER then wrapInt (op.dest_end - 1) else -1) := by
    unfold NA_INTEGER wrapInt
    unfold NA_INTEGER at hde
    split <;> omega
  have hread : ∀ result, appendRangeInt s2
      (if op.dest_end ≠ NA_INTEGER then wrapInt (op.dest_end - 1) else -1) (s2.length + 1)
      (if op.dest_begin ≠ NA_INTEGER then wrapInt (op.dest_begin - 1) else -1) result
        = none := by
    intro result
    unfold appendRangeInt
    rw [if_pos ⟨by omega, by omega⟩, dif_neg (fun h => absurd h.1 (by omega))]
  unfold opcodes_apply_vec opcodesVecLoop
  dsimp only
  rcases htype with h | h
  · rw [if_pos h, hread]
    rfl
  · have hne : op.type ≠ "replace" := by
      rw [h]
      decide
    rw [if_neg hne, if_pos h, hread]
    rfl

/-- Instance of C29: an Insert with missing target bounds, and a Replace of the target
range from 0 to 1, on the source `a` and the target `b`. -/
theorem opcodes_apply_vec_reads_before_target_witness :
    opcodes_apply_vec [⟨"insert", 1, 1, NA_INTEGER, NA_INTEGER⟩] (ascii "a") (ascii "b")
      = .undefined ∧
    opcodes_apply_vec [⟨"replace", 1, 1, 0, 1⟩] (ascii "a") (ascii "b") = .undefined :=
  ⟨opcodes_apply_vec_reads_before_target ⟨"insert", 1, 1, NA_INTEGER, NA_INTEGER⟩ []
      (ascii "a") (ascii "b") (by decide) (Or.inr rfl) (Or.inl rfl) (Or.inl rfl),
    opcodes_apply_vec_reads_before_target ⟨"replace", 1, 1, 0, 1⟩ []
      (ascii "a") (ascii "b") (by decide) (Or.inl rfl) (Or.inr (by decide))
      (Or.inr (by decide))⟩
end RapidFuzz
